import Mathlib

/-!
Verification of the Sequencium game engine (`sequencium.py`).

The definitions below are a shallow embedding of the Python source:

* `Player`, `Board` mirror the `Player` enum and the `GameBoard` class
  (the grid is a list of rows of optional cells; the per-player occupied
  coordinate sets are kept as insertion-ordered duplicate-free lists,
  a fixed concretisation of Python's unordered `set` iteration order).
* `gridAt`, `setCell`, `neighborsList`, `getValidMoves`, `makeMove`,
  `getMaxValue`, `isGameOver`, `evaluatePosition` mirror the methods of
  `GameBoard` and `SequenciumAI.evaluate_position`.
* `makeMove` and `mkGameBoard` return `Option`/`Except` values: a `none`
  (resp. `.error`) result models a raised Python `IndexError`, which
  happens on out-of-range list indexing.
* The recursive searches are embedded with an explicit fuel parameter so
  that every function is structurally recursive and executable; a `none`
  result means the fuel was exhausted.  Termination theorems below show a
  fuel of `2 * emptyCount b + 2` always suffices, independently of the
  requested search depth.
* Scores are integers; the `float('-inf')`/`float('inf')` sentinels of the
  Python code are embedded by the three-point extension `Ext` of `Int`.
-/

namespace Sequencium

/-- Mirror of the Python `Player` enum. -/
inductive Player where
  | A
  | B
deriving DecidableEq, Repr

/-- The `opponent = Player.B if player == Player.A else Player.A` pattern. -/
def Player.other : Player → Player
  | .A => .B
  | .B => .A

/-- A non-empty cell: `(player, value)`. -/
abbrev Cell := Player × Nat

/-- A move `(row, col, value)`. -/
abbrev Move := Nat × Nat × Nat

/-- Mirror of `GameBoard`: size, grid (list of rows), and the two occupied
coordinate sets, kept as insertion-ordered lists. -/
structure Board where
  size : Nat
  grid : List (List (Option Cell))
  posA : List (Nat × Nat)
  posB : List (Nat × Nat)
deriving DecidableEq, Repr

/-- The `player_positions` dictionary lookup. -/
def Board.positions (b : Board) : Player → List (Nat × Nat)
  | .A => b.posA
  | .B => b.posB

/-- Reading `self.board[r][c]` as a total function: out-of-range coordinates
give `none` (call sites that would raise in Python are only used, in the
theorems below, on well-formed boards and in-range coordinates). -/
def gridAt (b : Board) (q : Nat × Nat) : Option Cell :=
  ((b.grid[q.1]?).bind fun row => row[q.2]?).join

/-- The owner of the cell at `q`, if the cell is non-empty. -/
def cellOwner (b : Board) (q : Nat × Nat) : Option Player :=
  (gridAt b q).map (·.1)

/-- The value stored at `q`; defaults to `0` for an empty or out-of-range
cell (the Python code never reads a value there on a well-formed board). -/
def cellValD (b : Board) (q : Nat × Nat) : Nat :=
  match gridAt b q with
  | some c => c.2
  | none => 0

/-- Python `set.add`: append a coordinate unless it is already present. -/
def addPos (l : List (Nat × Nat)) (q : Nat × Nat) : List (Nat × Nat) :=
  if q ∈ l then l else l ++ [q]

/-- Mirror of `GameBoard.set_cell`: write the grid cell and add the
coordinate to the mover's occupied set.  (`List.set` leaves the list
unchanged when the index is out of range; `set_cell` is only reached by
`make_move` after a successful in-range read.) -/
def setCell (b : Board) (row col : Nat) (p : Player) (v : Nat) : Board :=
  let grid' := b.grid.set row (((b.grid[row]?).getD []).set col (some (p, v)))
  match p with
  | .A => { b with grid := grid', posA := addPos b.posA (row, col) }
  | .B => { b with grid := grid', posB := addPos b.posB (row, col) }

/-- Mirror of `GameBoard.get_neighbors`: the 8-directional in-bounds
neighbours of `(r, c)`, produced in the Python iteration order
(`dr` then `dc`, each over `-1, 0, 1`, skipping `(0, 0)`). -/
def neighborsList (size : Nat) (r c : Nat) : List (Nat × Nat) :=
  ([-1, 0, 1] : List Int).flatMap fun dr =>
    ([-1, 0, 1] : List Int).filterMap fun dc =>
      if dr = 0 ∧ dc = 0 then none
      else
        let nr : Int := (r : Int) + dr
        let nc : Int := (c : Int) + dc
        if 0 ≤ nr ∧ nr < (size : Int) ∧ 0 ≤ nc ∧ nc < (size : Int) then
          some (nr.toNat, nc.toNat)
        else none

/-- The raw move proposals of `GameBoard.get_valid_moves` before
deduplication: for each owned position, propose `value + 1` on every empty
neighbour. -/
def rawMoves (b : Board) (p : Player) : List Move :=
  (b.positions p).flatMap fun pos =>
    let newVal := cellValD b pos + 1
    (neighborsList b.size pos.1 pos.2).filterMap fun q =>
      if gridAt b q = none then some (q.1, q.2, newVal) else none

/-- One step of the Python dict deduplication
`if key not in move_dict or value > move_dict[key]: move_dict[key] = value`,
on an insertion-ordered association list. -/
def updAssoc : List ((Nat × Nat) × Nat) → Nat × Nat → Nat → List ((Nat × Nat) × Nat)
  | [], k, v => [(k, v)]
  | (k', v') :: rest, k, v =>
    if k = k' then (k', if v' < v then v else v') :: rest
    else (k', v') :: updAssoc rest k v

/-- The `move_dict` built by `GameBoard.get_valid_moves`. -/
def moveDict (b : Board) (p : Player) : List ((Nat × Nat) × Nat) :=
  (rawMoves b p).foldl (fun d m => updAssoc d (m.1, m.2.1) m.2.2) []

/-- Lookup in an insertion-ordered association list (the dict's `[key]`). -/
def assocFind (d : List ((Nat × Nat) × Nat)) (k : Nat × Nat) : Option Nat :=
  (d.find? fun kv => decide (kv.1 = k)).map (·.2)

/-- Mirror of `GameBoard.get_valid_moves`: raw proposals, deduplicated by
target coordinate keeping the maximum value, listed in first-insertion
order. -/
def getValidMoves (b : Board) (p : Player) : List Move :=
  (moveDict b p).map fun kv => (kv.1.1, kv.1.2, kv.2)

/-- Mirror of `GameBoard.make_move`.  The result is `none` when the initial
`self.board[row][col]` read raises `IndexError` (index out of range);
otherwise `some (flag, board')` gives the returned boolean and the board
after the call. -/
def makeMove (b : Board) (row col : Nat) (p : Player) (v : Nat) :
    Option (Bool × Board) :=
  match (b.grid[row]?).bind fun r => r[col]? with
  | none => none
  | some cell =>
    if cell.isSome then some (false, b)
    else if (row, col, v) ∈ getValidMoves b p then some (true, setCell b row col p v)
    else some (false, b)

/-- Mirror of `GameBoard.get_max_value`: fold `max` over the player's
occupied coordinates, starting from `0`. -/
def getMaxValue (b : Board) (p : Player) : Nat :=
  (b.positions p).foldl (fun acc q => max acc (cellValD b q)) 0

/-- Mirror of `GameBoard.is_game_over`: both players out of moves. -/
def isGameOver (b : Board) : Bool :=
  (getValidMoves b .A).isEmpty && (getValidMoves b .B).isEmpty

/-- Mirror of `SequenciumAI.evaluate_position`:
`max_diff * 100 + cell_diff * 10 + mobility_diff`. -/
def evaluatePosition (b : Board) (p : Player) : Int :=
  let opponent := p.other
  let maxDiff : Int := (getMaxValue b p : Int) - (getMaxValue b opponent : Int)
  let cellDiff : Int :=
    ((b.positions p).length : Int) - ((b.positions opponent).length : Int)
  let mobilityDiff : Int :=
    ((getValidMoves b p).length : Int) - ((getValidMoves b opponent).length : Int)
  maxDiff * 100 + cellDiff * 10 + mobilityDiff

/-- Mirror of `GameBoard.__init__` for a caller-supplied integer size.  For
`size ≤ 0` the grid is empty and the assignment `self.board[0][0] = ...`
raises `IndexError`.  For `size = 1` the second assignment overwrites the
first cell.  `PyErr.invalidConfiguration` exists only to state the spec's
error taxonomy; the source never produces it. -/
inductive PyErr where
  | indexError
  | invalidConfiguration
deriving DecidableEq, Repr

/-- The board built by a successful `GameBoard.__init__` run: an `n × n`
grid of `None`, then `board[0][0] = (A, 1)` and
`board[n-1][n-1] = (B, 1)` (the second assignment overwrites the first
when `n = 1`). -/
def initBoard (n : Nat) : Board :=
  let blank : List (List (Option Cell)) := List.replicate n (List.replicate n none)
  let g1 := blank.set 0 (((blank[0]?).getD []).set 0 (some (.A, 1)))
  let g2 := g1.set (n - 1) (((g1[n - 1]?).getD []).set (n - 1) (some (.B, 1)))
  { size := n, grid := g2, posA := [(0, 0)], posB := [(n - 1, n - 1)] }

/-- Board construction (`GameBoard(size)`), with a raised `IndexError`
embedded as `.error .indexError`: for `size ≤ 0` the grid is empty, so
the first cell assignment raises. -/
def mkGameBoard (size : Int) : Except PyErr Board :=
  if size ≤ 0 then .error .indexError
  else .ok (initBoard size.toNat)

/-- One external `make_move` call in a call sequence: a `False` return or a
raised `IndexError` leaves the board unchanged. -/
def applyCall (b : Board) (c : Nat × Nat × Player × Nat) : Board :=
  match makeMove b c.1 c.2.1 c.2.2.1 c.2.2.2 with
  | some (true, b') => b'
  | _ => b

/-- A sequence of external `make_move` calls. -/
def applyCalls (b : Board) (cs : List (Nat × Nat × Player × Nat)) : Board :=
  cs.foldl applyCall b

/-- Well-formedness of a board: the grid is `size × size`, the occupied
lists are duplicate-free, every listed coordinate holds a cell of that
player, and every non-empty cell is listed. -/
def Board.WF (b : Board) : Prop :=
  b.grid.length = b.size ∧
  (∀ row ∈ b.grid, row.length = b.size) ∧
  b.posA.Nodup ∧
  b.posB.Nodup ∧
  (∀ q ∈ b.posA, cellOwner b q = some .A) ∧
  (∀ q ∈ b.posB, cellOwner b q = some .B) ∧
  (∀ r, r < b.size → ∀ c, c < b.size →
    (gridAt b (r, c)).isSome = true → (r, c) ∈ b.posA ∨ (r, c) ∈ b.posB)

instance (b : Board) : Decidable b.WF :=
  have : Decidable (∀ r, r < b.size → ∀ c, c < b.size →
      (gridAt b (r, c)).isSome = true → (r, c) ∈ b.posA ∨ (r, c) ∈ b.posB) :=
    Nat.decidableBallLT _ _
  by unfold Board.WF; infer_instance

/-- Number of empty grid cells; the fuel measure for the searches. -/
def emptyCount (b : Board) : Nat :=
  (b.grid.map fun row => (row.filter fun cell => cell.isNone).length).sum

/-- Extra fuel unit consumed by the pass-a-turn search step. -/
def moveBit (b : Board) (cur : Player) : Nat :=
  if getValidMoves b cur = [] then 1 else 0

/-- Fuel that is always sufficient for the searches on board `b`. -/
def fuelStd (b : Board) : Nat :=
  2 * emptyCount b + 2

/-- Scores extended with the `float('-inf')` / `float('inf')` sentinels. -/
inductive Ext where
  | ninf
  | fin (z : Int)
  | pinf
deriving DecidableEq, Repr

/-- Boolean order on extended scores. -/
def Ext.ble : Ext → Ext → Bool
  | .ninf, _ => true
  | _, .pinf => true
  | .fin a, .fin b => a ≤ b
  | .pinf, _ => false
  | .fin _, .ninf => false

instance : LE Ext := ⟨fun a b => Ext.ble a b = true⟩

instance : LT Ext := ⟨fun a b => Ext.ble b a = false⟩

instance (a b : Ext) : Decidable (a ≤ b) :=
  inferInstanceAs (Decidable (Ext.ble a b = true))

instance (a b : Ext) : Decidable (a < b) :=
  inferInstanceAs (Decidable (Ext.ble b a = false))

/-- Python `max` on extended scores. -/
def emax (a b : Ext) : Ext :=
  if Ext.ble a b then b else a

/-- Python `min` on extended scores. -/
def emin (a b : Ext) : Ext :=
  if Ext.ble a b then a else b

/-- The board the search recurses on: `board.copy()` followed by
`make_move` for the player currently to move (the boolean result is
discarded by the Python code). -/
def childBoard (b : Board) (cur : Player) (m : Move) : Board :=
  match makeMove b m.1 m.2.1 cur m.2.2 with
  | some (_, b') => b'
  | none => b

/-- The maximizing `for move in valid_moves` loop of `SequenciumAI.minimax`,
with the recursive call abstracted as `rec`.  The state carries the running
`max_eval`, `best_move`, `alpha` and the accumulated node count; iteration
stops on the beta cutoff `beta <= alpha`. -/
def abLoopMax (rec : Board → Int → Ext → Ext → Player → Option (Ext × Option Move × Nat))
    (b : Board) (cur : Player) (d : Int) (beta : Ext) (p : Player) :
    List Move → Ext → Option Move → Ext → Nat → Option (Ext × Option Move × Nat)
  | [], maxEval, best, _, nodes => some (maxEval, best, nodes)
  | m :: rest, maxEval, best, alpha, nodes =>
    match rec (childBoard b cur m) (d - 1) alpha beta p with
    | none => none
    | some (v, _, n) =>
      let maxEval' := if maxEval < v then v else maxEval
      let best' := if maxEval < v then some m else best
      let alpha' := emax alpha v
      if beta ≤ alpha' then some (maxEval', best', nodes + n)
      else abLoopMax rec b cur d beta p rest maxEval' best' alpha' (nodes + n)

/-- The minimizing loop of `SequenciumAI.minimax`; iteration stops on the
alpha cutoff `beta <= alpha`. -/
def abLoopMin (rec : Board → Int → Ext → Ext → Player → Option (Ext × Option Move × Nat))
    (b : Board) (cur : Player) (d : Int) (alpha : Ext) (p : Player) :
    List Move → Ext → Option Move → Ext → Nat → Option (Ext × Option Move × Nat)
  | [], minEval, best, _, nodes => some (minEval, best, nodes)
  | m :: rest, minEval, best, beta, nodes =>
    match rec (childBoard b cur m) (d - 1) alpha beta p with
    | none => none
    | some (v, _, n) =>
      let minEval' := if v < minEval then v else minEval
      let best' := if v < minEval then some m else best
      let beta' := emin beta v
      if beta' ≤ alpha then some (minEval', best', nodes + n)
      else abLoopMin rec b cur d alpha p rest minEval' best' beta' (nodes + n)

/-- Mirror of `SequenciumAI.minimax`, fuel-indexed.  The result is the
returned `(score, best_move)` pair together with the number of recursive
`minimax` invocations in the call (the increment of `nodes_evaluated`);
`none` means the fuel ran out. -/
def abF : Nat → Board → Int → Ext → Ext → Bool → Player →
    Option (Ext × Option Move × Nat)
  | 0, _, _, _, _, _, _ => none
  | f + 1, b, d, alpha, beta, maxing, p =>
    let cur := if maxing then p else p.other
    if d = 0 ∨ isGameOver b = true then some (.fin (evaluatePosition b p), none, 1)
    else
      let moves := getValidMoves b cur
      if moves = [] then
        match abF f b (d - 1) alpha beta (!maxing) p with
        | none => none
        | some (v, mv, n) => some (v, mv, n + 1)
      else if maxing then
        match abLoopMax (fun b' d' a' b'' p' => abF f b' d' a' b'' false p')
            b cur d beta p moves .ninf none alpha 0 with
        | none => none
        | some (v, mv, n) => some (v, mv, n + 1)
      else
        match abLoopMin (fun b' d' a' b'' p' => abF f b' d' a' b'' true p')
            b cur d alpha p moves .pinf none beta 0 with
        | none => none
        | some (v, mv, n) => some (v, mv, n + 1)

/-- The root search call of `SequenciumAI.get_best_move`:
`minimax(board, depth, -inf, inf, True, player)`, at the canonical fuel. -/
def searchAB (b : Board) (p : Player) (d : Int) : Option (Ext × Option Move × Nat) :=
  abF (fuelStd b) b d .ninf .pinf true p

/-- Mirror of `SequenciumAI.get_best_move` (at the canonical fuel): `none`
when the mover has no valid moves, otherwise the `best_move` component of
the root `minimax` call. -/
def getBestMove (b : Board) (p : Player) (maxDepth : Int) : Option Move :=
  if getValidMoves b p = [] then none
  else
    match searchAB b p maxDepth with
    | some (_, mv, _) => mv
    | none => none

/-- Modelled from the spec: the exhaustive, unpruned minimax reference
search over the same game tree (§8 "Alpha-beta equivalence"): same terminal
and pass-a-turn rules as `minimax`, but every child is explored and the
values are combined with plain `max`/`min`. -/
def exhaustiveF : Nat → Board → Int → Bool → Player → Option Ext
  | 0, _, _, _, _ => none
  | f + 1, b, d, maxing, p =>
    let cur := if maxing then p else p.other
    if d = 0 ∨ isGameOver b = true then some (.fin (evaluatePosition b p))
    else
      let moves := getValidMoves b cur
      if moves = [] then exhaustiveF f b (d - 1) (!maxing) p
      else
        moves.foldl
          (fun acc m => do
            let a ← acc
            let v ← exhaustiveF f (childBoard b cur m) (d - 1) (!maxing) p
            pure (if maxing then emax a v else emin a v))
          (some (if maxing then Ext.ninf else Ext.pinf))

/-- The exhaustive minimax value of the child reached by move `m`, at the
child's canonical fuel (`Ext.ninf` cannot occur at sufficient fuel). -/
def childVal (b : Board) (cur : Player) (d : Int) (maxing : Bool) (p : Player)
    (m : Move) : Ext :=
  (exhaustiveF (fuelStd (childBoard b cur m)) (childBoard b cur m) (d - 1)
    (!maxing) p).getD .ninf

/-- Modelled from the spec: the stable tie-break rule of §4.5 — scan the
moves in generator order and record a move only when it strictly improves
on the best value seen so far, so the first move achieving the best value
is kept. -/
def pickFirstBest (vt : Move → Ext) : List Move → Option Move → Ext → Option Move
  | [], best, _ => best
  | m :: rest, best, cur =>
    if cur < vt m then pickFirstBest vt rest (some m) (vt m)
    else pickFirstBest vt rest best cur

/-- The plain-minimax value of a move list: fold of `emax` over the
per-move values, starting from the neutral element. -/
def foldMaxVal (vt : Move → Ext) (ms : List Move) : Ext :=
  ms.foldl (fun a m => emax a (vt m)) .ninf

/-- Dual fold for the minimizing player. -/
def foldMinVal (vt : Move → Ext) (ms : List Move) : Ext :=
  ms.foldl (fun a m => emin a (vt m)) .pinf

/-- Modelled from the spec: transposition-table entries (§3
`TranspositionEntry`).  `bound` records whether pruning cut the search
before an exact value was established (§4.4): `exact` when the value lies
strictly inside the search window, `lower` after a beta cutoff, `upper`
after an alpha cutoff. -/
inductive TBound where
  | exact
  | lower
  | upper
deriving DecidableEq, Repr

/-- Modelled from the spec: a stored transposition entry
`(depth, score, bound_kind, best_move)`. -/
structure TEntry where
  score : Ext
  best : Option Move
  bound : TBound
  depth : Int
deriving DecidableEq, Repr

/-- Modelled from the spec: the position fingerprint — a deterministic,
collision-free function of the board contents, whose turn it is (the
maximizing flag, the root player being fixed for a search) and the
remaining depth.  The identity triple is the ideal collision-resistant
fingerprint. -/
abbrev TKey := List (List (Option Cell)) × Bool × Int

/-- Modelled from the spec: the transposition table, a fingerprint-keyed
map (association list; `ttStore` shadows older entries, so a lookup always
sees the most recent store for a fingerprint). -/
abbrev Table := List (TKey × TEntry)

/-- Table lookup by fingerprint. -/
def ttLookup (t : Table) (k : TKey) : Option TEntry :=
  (t.find? fun kv => decide (kv.1 = k)).map (·.2)

/-- Modelled from the spec: `store` inserts or overwrites the entry for a
fingerprint (the spec's prefer-greater-depth collision rule is vacuous
here because the fingerprint already determines the remaining depth). -/
def ttStore (t : Table) (k : TKey) (e : TEntry) : Table :=
  (k, e) :: t

/-- Modelled from the spec (§4.4, §7): a stored entry may be used inside
the window `[alpha, beta]` only when doing so cannot change the result —
an `exact` entry always, a `lower` bound only when it already meets beta,
an `upper` bound only when it already fails alpha; anything ambiguous is a
miss. -/
def usableEntry (e : TEntry) (alpha beta : Ext) : Bool :=
  match e.bound with
  | .exact => true
  | .lower => decide (beta ≤ e.score)
  | .upper => decide (e.score ≤ alpha)

/-- Modelled from the spec: the bound kind recorded for a freshly computed
value `v` searched with original window `(alpha, beta)`. -/
def mkBound (v alpha beta : Ext) : TBound :=
  if v ≤ alpha then .upper
  else if beta ≤ v then .lower
  else .exact

/-- The maximizing move loop of the table-enabled search, threading the
table through the children. -/
def ttLoopMax
    (rec : Board → Int → Ext → Ext → Player → Table → Option (Ext × Option Move × Nat × Table))
    (b : Board) (cur : Player) (d : Int) (beta : Ext) (p : Player) :
    List Move → Ext → Option Move → Ext → Nat → Table →
      Option (Ext × Option Move × Nat × Table)
  | [], maxEval, best, _, nodes, tbl => some (maxEval, best, nodes, tbl)
  | m :: rest, maxEval, best, alpha, nodes, tbl =>
    match rec (childBoard b cur m) (d - 1) alpha beta p tbl with
    | none => none
    | some (v, _, n, tbl') =>
      let maxEval' := if maxEval < v then v else maxEval
      let best' := if maxEval < v then some m else best
      let alpha' := emax alpha v
      if beta ≤ alpha' then some (maxEval', best', nodes + n, tbl')
      else ttLoopMax rec b cur d beta p rest maxEval' best' alpha' (nodes + n) tbl'

/-- The minimizing move loop of the table-enabled search. -/
def ttLoopMin
    (rec : Board → Int → Ext → Ext → Player → Table → Option (Ext × Option Move × Nat × Table))
    (b : Board) (cur : Player) (d : Int) (alpha : Ext) (p : Player) :
    List Move → Ext → Option Move → Ext → Nat → Table →
      Option (Ext × Option Move × Nat × Table)
  | [], minEval, best, _, nodes, tbl => some (minEval, best, nodes, tbl)
  | m :: rest, minEval, best, beta, nodes, tbl =>
    match rec (childBoard b cur m) (d - 1) alpha beta p tbl with
    | none => none
    | some (v, _, n, tbl') =>
      let minEval' := if v < minEval then v else minEval
      let best' := if v < minEval then some m else best
      let beta' := emin beta v
      if beta' ≤ alpha then some (minEval', best', nodes + n, tbl')
      else ttLoopMin rec b cur d alpha p rest minEval' best' beta' (nodes + n) tbl'

/-- Modelled from the spec: the table-enabled minimax of §4.5 (the C++
`search_engine.cpp` referenced by `setup.py` and `test_cpp_engine.py` is
not part of the sources).  Identical to `minimax` except that before
generating moves a usable table entry is returned directly (counted as one
visited node), and after computing a node's result it is stored tagged
with its bound kind. -/
def ttF : Nat → Board → Int → Ext → Ext → Bool → Player → Table →
    Option (Ext × Option Move × Nat × Table)
  | 0, _, _, _, _, _, _, _ => none
  | f + 1, b, d, alpha, beta, maxing, p, tbl =>
    let cur := if maxing then p else p.other
    if d = 0 ∨ isGameOver b = true then
      some (.fin (evaluatePosition b p), none, 1, tbl)
    else
      let k : TKey := (b.grid, maxing, d)
      match (ttLookup tbl k).filter fun e => usableEntry e alpha beta with
      | some e => some (e.score, e.best, 1, tbl)
      | none =>
        let moves := getValidMoves b cur
        if moves = [] then
          match ttF f b (d - 1) alpha beta (!maxing) p tbl with
          | none => none
          | some (v, mv, n, tbl') =>
            some (v, mv, n + 1,
              ttStore tbl' k ⟨v, mv, mkBound v alpha beta, d⟩)
        else if maxing then
          match ttLoopMax (fun b' d' a' b'' p' t' => ttF f b' d' a' b'' false p' t')
              b cur d beta p moves .ninf none alpha 0 tbl with
          | none => none
          | some (v, mv, n, tbl') =>
            some (v, mv, n + 1,
              ttStore tbl' k ⟨v, mv, mkBound v alpha beta, d⟩)
        else
          match ttLoopMin (fun b' d' a' b'' p' t' => ttF f b' d' a' b'' true p' t')
              b cur d alpha p moves .pinf none beta 0 tbl with
          | none => none
          | some (v, mv, n, tbl') =>
            some (v, mv, n + 1,
              ttStore tbl' k ⟨v, mv, mkBound v alpha beta, d⟩)

/-- The root call of the table-enabled search, starting from an empty
table, at the canonical fuel. -/
def searchTT (b : Board) (p : Player) (d : Int) :
    Option (Ext × Option Move × Nat × Table) :=
  ttF (fuelStd b) b d .ninf .pinf true p []

/-- Modelled from the spec (§4.4, §7): soundness of a stored entry — for
every well-formed board matching the fingerprint, the stored score is
exact, a lower bound, or an upper bound on that position's true minimax
value, according to the recorded bound kind. -/
def entryValid (p : Player) (ke : TKey × TEntry) : Prop :=
  ∀ b : Board, b.WF → b.grid = ke.1.1 →
    ∃ t : Int,
      exhaustiveF (fuelStd b) b ke.1.2.2 ke.1.2.1 p = some (.fin t) ∧
      (ke.2.bound = .exact → ke.2.score = .fin t) ∧
      (ke.2.bound = .lower → ke.2.score ≤ .fin t) ∧
      (ke.2.bound = .upper → .fin t ≤ ke.2.score)

/-- Every entry of the table is sound. -/
def tableValid (p : Player) (tbl : Table) : Prop :=
  ∀ ke ∈ tbl, entryValid p ke

/-- The initial 2 × 2 board, used to instantiate theorems with hypotheses. -/
def sampleBoard : Board :=
  { size := 2
    grid := [[some (.A, 1), none], [none, some (.B, 1)]]
    posA := [(0, 0)]
    posB := [(1, 1)] }

/-! ### Order lemmas for extended scores -/

theorem Ext.le_def {a b : Ext} : (a ≤ b) ↔ Ext.ble a b = true := Iff.rfl

theorem Ext.lt_def {a b : Ext} : (a < b) ↔ Ext.ble b a = false := Iff.rfl

theorem Ext.le_refl (a : Ext) : a ≤ a := by
  cases a <;> simp [Ext.le_def, Ext.ble]

theorem Ext.le_trans {a b c : Ext} (h₁ : a ≤ b) (h₂ : b ≤ c) : a ≤ c := by
  cases a <;> cases b <;> cases c <;>
    simp_all [Ext.le_def, Ext.ble] <;> omega

theorem Ext.le_total (a b : Ext) : a ≤ b ∨ b ≤ a := by
  cases a <;> cases b <;> simp [Ext.le_def, Ext.ble] <;> omega

theorem Ext.le_antisymm {a b : Ext} (h₁ : a ≤ b) (h₂ : b ≤ a) : a = b := by
  cases a <;> cases b <;> simp_all [Ext.le_def, Ext.ble] <;> omega

theorem Ext.not_le {a b : Ext} : ¬ a ≤ b ↔ b < a := by
  rw [Ext.le_def, Ext.lt_def]
  simp

theorem Ext.not_lt {a b : Ext} : ¬ a < b ↔ b ≤ a := by
  rw [Ext.le_def, Ext.lt_def]
  simp

theorem Ext.lt_irrefl (a : Ext) : ¬ a < a :=
  Ext.not_lt.mpr (Ext.le_refl a)

theorem Ext.le_of_lt {a b : Ext} (h : a < b) : a ≤ b := by
  rcases Ext.le_total a b with h' | h'
  · exact h'
  · exact absurd h' (Ext.not_le.mpr h)

theorem Ext.lt_of_le_of_lt {a b c : Ext} (h₁ : a ≤ b) (h₂ : b < c) : a < c := by
  refine Ext.not_le.mp ?_
  intro hca
  exact (Ext.not_le.mpr h₂) (Ext.le_trans hca h₁)

theorem Ext.lt_of_lt_of_le {a b c : Ext} (h₁ : a < b) (h₂ : b ≤ c) : a < c := by
  refine Ext.not_le.mp ?_
  intro hca
  exact (Ext.not_le.mpr h₁) (Ext.le_trans h₂ hca)

theorem Ext.lt_trans {a b c : Ext} (h₁ : a < b) (h₂ : b < c) : a < c :=
  Ext.lt_of_lt_of_le h₁ (Ext.le_of_lt h₂)

theorem Ext.lt_of_not_le {a b : Ext} (h : ¬ b ≤ a) : a < b :=
  Ext.not_le.mp h

theorem Ext.ninf_le (a : Ext) : Ext.ninf ≤ a := by
  cases a <;> simp [Ext.le_def, Ext.ble]

theorem Ext.le_pinf (a : Ext) : a ≤ Ext.pinf := by
  cases a <;> simp [Ext.le_def, Ext.ble]

theorem Ext.ninf_lt_fin (z : Int) : Ext.ninf < Ext.fin z := by
  simp [Ext.lt_def, Ext.ble]

theorem Ext.fin_lt_pinf (z : Int) : Ext.fin z < Ext.pinf := by
  simp [Ext.lt_def, Ext.ble]

theorem Ext.fin_le_fin {y z : Int} : (Ext.fin y ≤ Ext.fin z) ↔ y ≤ z := by
  simp [Ext.le_def, Ext.ble]

theorem Ext.fin_lt_fin {y z : Int} : (Ext.fin y < Ext.fin z) ↔ y < z := by
  simp only [Ext.lt_def, Ext.ble, decide_eq_false_iff_not]
  omega

theorem Ext.not_fin_le_ninf (z : Int) : ¬ Ext.fin z ≤ Ext.ninf := by
  simp [Ext.le_def, Ext.ble]

theorem Ext.not_pinf_le_fin (z : Int) : ¬ Ext.pinf ≤ Ext.fin z := by
  simp [Ext.le_def, Ext.ble]

theorem emax_eq_left {a b : Ext} (h : b ≤ a) : emax a b = a := by
  unfold emax
  split
  · next hab => exact (Ext.le_antisymm hab h).symm
  · rfl

theorem emax_eq_right {a b : Ext} (h : a ≤ b) : emax a b = b := by
  rw [Ext.le_def] at h
  unfold emax
  simp [h]

theorem le_emax_left (a b : Ext) : a ≤ emax a b := by
  unfold emax
  split
  · next h => exact h
  · exact Ext.le_refl a

theorem le_emax_right (a b : Ext) : b ≤ emax a b := by
  unfold emax
  split
  · exact Ext.le_refl b
  · next h =>
    rcases Ext.le_total a b with h' | h'
    · exact absurd h' h
    · exact h'

theorem emax_le {a b c : Ext} (h₁ : a ≤ c) (h₂ : b ≤ c) : emax a b ≤ c := by
  unfold emax
  split
  · exact h₂
  · exact h₁

theorem emax_eq_or (a b : Ext) : emax a b = a ∨ emax a b = b := by
  unfold emax
  split
  · exact Or.inr rfl
  · exact Or.inl rfl

theorem emin_eq_left {a b : Ext} (h : a ≤ b) : emin a b = a := by
  rw [Ext.le_def] at h
  unfold emin
  simp [h]

theorem emin_eq_right {a b : Ext} (h : b ≤ a) : emin a b = b := by
  unfold emin
  split
  · next hab => exact Ext.le_antisymm hab h
  · rfl

theorem emin_le_left (a b : Ext) : emin a b ≤ a := by
  unfold emin
  split
  · exact Ext.le_refl a
  · next h =>
    rcases Ext.le_total a b with h' | h'
    · exact absurd h' h
    · exact h'

theorem emin_le_right (a b : Ext) : emin a b ≤ b := by
  unfold emin
  split
  · next h => exact h
  · exact Ext.le_refl b

theorem le_emin {a b c : Ext} (h₁ : c ≤ a) (h₂ : c ≤ b) : c ≤ emin a b := by
  unfold emin
  split
  · exact h₁
  · exact h₂

theorem emin_eq_or (a b : Ext) : emin a b = a ∨ emin a b = b := by
  unfold emin
  split
  · exact Or.inl rfl
  · exact Or.inr rfl

/-! ### C6 and C9: the position evaluator -/

/-- C6: for every board and perspective player, the evaluator returns
exactly `100 * (max_value(p) - max_value(opp)) + 10 * (cells_owned(p) -
cells_owned(opp)) + 1 * (mobility(p) - mobility(opp))`, where mobility is
the number of legal moves. -/
theorem evaluate_position_formula (b : Board) (p : Player) :
    evaluatePosition b p =
      100 * ((getMaxValue b p : Int) - (getMaxValue b p.other : Int)) +
      10 * (((b.positions p).length : Int) - ((b.positions p.other).length : Int)) +
      1 * (((getValidMoves b p).length : Int) - ((getValidMoves b p.other).length : Int)) := by
  unfold evaluatePosition
  ring

/-- C9: the evaluation is antisymmetric between the two players:
`evaluate_position(board, A) = - evaluate_position(board, B)`. -/
theorem evaluate_position_antisymmetric (b : Board) :
    evaluatePosition b .A = - evaluatePosition b .B := by
  simp only [evaluatePosition, Player.other]
  ring

/-! ### C8: board construction -/

theorem initBoard_grid_eq {n : Nat} (h : 2 ≤ n) :
    (initBoard n).grid =
      ((List.replicate n (List.replicate n (none : Option Cell))).set 0
          ((List.replicate n (none : Option Cell)).set 0 (some (Player.A, 1)))).set (n - 1)
        ((List.replicate n (none : Option Cell)).set (n - 1) (some (Player.B, 1))) := by
  have h1 : (0 : Nat) ≠ n - 1 := by omega
  simp [initBoard, List.getElem?_set_ne h1, List.getElem?_replicate_of_lt (show 0 < n by omega),
    List.getElem?_replicate_of_lt (show n - 1 < n by omega)]

theorem initBoard_grid_length {n : Nat} (h : 2 ≤ n) :
    (initBoard n).grid.length = n := by
  rw [initBoard_grid_eq h]
  simp

theorem initBoard_gridAt {n : Nat} (h : 2 ≤ n) (r c : Nat) :
    gridAt (initBoard n) (r, c) =
      if r = 0 ∧ c = 0 then some (Player.A, 1)
      else if r = n - 1 ∧ c = n - 1 then some (Player.B, 1)
      else none := by
  have h1 : (0 : Nat) ≠ n - 1 := by omega
  have hlhs : gridAt (initBoard n) (r, c) =
      if r = 0 ∧ c = 0 then some (Player.A, 1)
      else if r = n - 1 ∧ c = n - 1 then some (Player.B, 1)
      else none := by
    show ((((initBoard n).grid)[r]?).bind fun row => row[c]?).join = _
    rw [initBoard_grid_eq h]
    by_cases hr1 : r = n - 1
    · subst hr1
      rw [List.getElem?_set_self', List.getElem?_set_ne h1, List.getElem?_replicate,
        if_pos (show n - 1 < n by omega)]
      simp only [Option.map_eq_map, Option.map_some', Option.some_bind, Function.const_apply]
      by_cases hc1 : c = n - 1
      · subst hc1
        rw [List.getElem?_set_self', List.getElem?_replicate,
          if_pos (show n - 1 < n by omega)]
        simp only [Option.map_eq_map, Option.map_some', Function.const_apply, Option.join]
        split
        · next h00 => exact absurd h00.1 (by omega)
        · split
          · rfl
          · next hnn => exact absurd ⟨by trivial, by trivial⟩ hnn
      · rw [List.getElem?_set_ne (fun hh => hc1 hh.symm), List.getElem?_replicate]
        have hjoin : (if c < n then some (none : Option Cell) else none).join = none := by
          split
          · rfl
          · rfl
        rw [hjoin]
        split
        · next h00 => exact absurd h00.1 (by omega)
        · split
          · next hnn => exact absurd hnn.2 hc1
          · rfl
    · rw [List.getElem?_set_ne (fun hh => hr1 hh.symm)]
      by_cases hr0 : r = 0
      · subst hr0
        rw [List.getElem?_set_self', List.getElem?_replicate, if_pos (show 0 < n by omega)]
        simp only [Option.map_eq_map, Option.map_some', Option.some_bind, Function.const_apply]
        by_cases hc0 : c = 0
        · subst hc0
          rw [List.getElem?_set_self', List.getElem?_replicate, if_pos (show 0 < n by omega)]
          simp only [Option.map_eq_map, Option.map_some', Function.const_apply, Option.join]
          split
          · rfl
          · next h00 => exact absurd ⟨by trivial, by trivial⟩ h00
        · rw [List.getElem?_set_ne (fun hh => hc0 hh.symm), List.getElem?_replicate]
          have hjoin : (if c < n then some (none : Option Cell) else none).join = none := by
            split
            · rfl
            · rfl
          rw [hjoin]
          split
          · next h00 => exact absurd h00.2 hc0
          · split
            · next hnn => exact absurd hnn.1 hr1
            · rfl
      · rw [List.getElem?_set_ne (fun hh => hr0 hh.symm), List.getElem?_replicate]
        have hjoin : ((if r < n then some (List.replicate n (none : Option Cell)) else none).bind
            fun row => row[c]?).join = none := by
          split
          · rw [Option.some_bind, List.getElem?_replicate]
            split
            · rfl
            · rfl
          · rfl
        rw [hjoin]
        split
        · next h00 => exact absurd h00.1 hr0
        · split
          · next hnn => exact absurd hnn.1 hr1
          · rfl
  exact hlhs

theorem initBoard_row_length {n : Nat} (h : 2 ≤ n) :
    ∀ row ∈ (initBoard n).grid, row.length = n := by
  rw [initBoard_grid_eq h]
  intro row hrow
  rw [List.mem_iff_getElem?] at hrow
  obtain ⟨i, hi⟩ := hrow
  by_cases hi1 : i = n - 1
  · subst hi1
    rw [List.getElem?_set_self', List.getElem?_set_ne (show (0 : Nat) ≠ n - 1 by omega),
      List.getElem?_replicate, if_pos (show n - 1 < n by omega)] at hi
    simp only [Option.map_eq_map, Option.map_some', Function.const_apply] at hi
    cases hi
    simp
  · rw [List.getElem?_set_ne (fun hh => hi1 hh.symm)] at hi
    by_cases hi0 : i = 0
    · subst hi0
      rw [List.getElem?_set_self', List.getElem?_replicate,
        if_pos (show 0 < n by omega)] at hi
      simp only [Option.map_eq_map, Option.map_some', Function.const_apply] at hi
      cases hi
      simp
    · rw [List.getElem?_set_ne (fun hh => hi0 hh.symm), List.getElem?_replicate] at hi
      split at hi
      · cases hi
        simp
      · cases hi

theorem initBoard_posA (n : Nat) : (initBoard n).posA = [(0, 0)] := rfl

theorem initBoard_posB (n : Nat) : (initBoard n).posB = [(n - 1, n - 1)] := rfl

theorem initBoard_size (n : Nat) : (initBoard n).size = n := rfl

theorem initBoard_WF {n : Nat} (h : 2 ≤ n) : (initBoard n).WF := by
  refine ⟨?_, ?_, ?_, ?_, ?_, ?_, ?_⟩
  · rw [initBoard_grid_length h, initBoard_size]
  · intro row hrow
    rw [initBoard_size]
    exact initBoard_row_length h row hrow
  · rw [initBoard_posA]
    exact List.nodup_singleton _
  · rw [initBoard_posB]
    exact List.nodup_singleton _
  · intro q hq
    rw [initBoard_posA, List.mem_singleton] at hq
    subst hq
    have hcell := initBoard_gridAt h 0 0
    rw [if_pos ⟨rfl, rfl⟩] at hcell
    simp only [cellOwner, hcell]
    rfl
  · intro q hq
    rw [initBoard_posB, List.mem_singleton] at hq
    subst hq
    have hcell := initBoard_gridAt h (n - 1) (n - 1)
    rw [if_neg (by omega), if_pos ⟨rfl, rfl⟩] at hcell
    simp only [cellOwner, hcell]
    rfl
  · intro r hr c hc hsome
    rw [initBoard_gridAt h] at hsome
    rw [initBoard_posA, initBoard_posB, List.mem_singleton, List.mem_singleton]
    by_cases h00 : r = 0 ∧ c = 0
    · left
      rw [h00.1, h00.2]
    · rw [if_neg h00] at hsome
      by_cases hnn : r = n - 1 ∧ c = n - 1
      · right
        rw [hnn.1, hnn.2]
      · rw [if_neg hnn] at hsome
        simp at hsome

/-- Counterexample to C8: constructing a board with malformed size 0 is
not rejected with an explicit `InvalidConfiguration` failure — the code
raises an uncontrolled `IndexError` from the first cell assignment. -/
theorem construction_no_invalid_configuration :
    mkGameBoard 0 = .error .indexError ∧
    mkGameBoard 0 ≠ .error .invalidConfiguration := by
  constructor
  · rfl
  · intro hcontra
    cases hcontra

/-- C8 (amended): constructing a board with size 0 or negative raises an
uncontrolled `IndexError` (empty grid indexing), not an explicit
`InvalidConfiguration` rejection; construction succeeds for every integer
size ≥ 1, yields a board satisfying the occupancy invariants exactly for
sizes ≥ 2, and for size 1 silently corrupts the invariants (player A's
occupancy set names a cell owned by B). -/
theorem construction_behavior :
    (∀ size : Int, size ≤ 0 → mkGameBoard size = .error .indexError) ∧
    (∀ size : Int, 2 ≤ size → ∃ b, mkGameBoard size = .ok b ∧ b.WF) ∧
    (∃ b, mkGameBoard 1 = .ok b ∧ ¬ b.WF) := by
  refine ⟨?_, ?_, ?_⟩
  · intro size hsz
    simp [mkGameBoard, hsz]
  · intro size hsz
    refine ⟨initBoard size.toNat, ?_, ?_⟩
    · simp [mkGameBoard]
      omega
    · exact initBoard_WF (by omega)
  · exact ⟨initBoard 1, rfl, by decide⟩

/-- Witness for `construction_behavior` at concrete sizes. -/
theorem construction_behavior_witness :
    mkGameBoard (-3) = .error .indexError ∧
    ∃ b, mkGameBoard 4 = .ok b ∧ b.WF :=
  ⟨construction_behavior.1 (-3) (by decide),
   construction_behavior.2.1 4 (by decide)⟩

/-! ### Move-generator characterization -/

theorem mem_neighborsList_iff {size r c : Nat} {q : Nat × Nat} :
    q ∈ neighborsList size r c ↔
      q.1 < size ∧ q.2 < size ∧ q ≠ (r, c) ∧
      q.1 ≤ r + 1 ∧ r ≤ q.1 + 1 ∧ q.2 ≤ c + 1 ∧ c ≤ q.2 + 1 := by
  constructor
  · intro hm
    simp only [neighborsList, List.mem_flatMap, List.mem_filterMap] at hm
    obtain ⟨dr, hdr, dc, hdc, hf⟩ := hm
    simp only [List.mem_cons, List.mem_singleton, List.not_mem_nil, or_false] at hdr hdc
    split at hf
    · cases hf
    · split at hf
      · next hin =>
        cases hf
        refine ⟨by omega, by omega, ?_, by omega, by omega, by omega, by omega⟩
        intro hq
        rw [Prod.ext_iff] at hq
        simp only at hq
        omega
      · cases hf
  · rintro ⟨h1, h2, h3, h4, h5, h6, h7⟩
    simp only [neighborsList, List.mem_flatMap, List.mem_filterMap]
    refine ⟨(q.1 : Int) - (r : Int), ?_, (q.2 : Int) - (c : Int), ?_, ?_⟩
    · simp only [List.mem_cons, List.mem_singleton, List.not_mem_nil, or_false]
      omega
    · simp only [List.mem_cons, List.mem_singleton, List.not_mem_nil, or_false]
      omega
    · have hne : ¬((q.1 : Int) - (r : Int) = 0 ∧ (q.2 : Int) - (c : Int) = 0) := by
        rintro ⟨e1, e2⟩
        apply h3
        rw [Prod.ext_iff]
        constructor
        · omega
        · omega
      rw [if_neg hne]
      have hbd : 0 ≤ (r : Int) + ((q.1 : Int) - (r : Int)) ∧
          (r : Int) + ((q.1 : Int) - (r : Int)) < (size : Int) ∧
          0 ≤ (c : Int) + ((q.2 : Int) - (c : Int)) ∧
          (c : Int) + ((q.2 : Int) - (c : Int)) < (size : Int) := by omega
      rw [if_pos hbd]
      congr 1
      rw [Prod.ext_iff]
      constructor
      · simp only
        omega
      · simp only
        omega

theorem mem_neighborsList_bounds {size r c : Nat} {q : Nat × Nat}
    (h : q ∈ neighborsList size r c) : q.1 < size ∧ q.2 < size :=
  ⟨(mem_neighborsList_iff.mp h).1, (mem_neighborsList_iff.mp h).2.1⟩

theorem neighborsList_symm {size : Nat} {r c : Nat} {q : Nat × Nat}
    (hr : r < size) (hc : c < size) (h : q ∈ neighborsList size r c) :
    (r, c) ∈ neighborsList size q.1 q.2 := by
  rw [mem_neighborsList_iff] at h ⊢
  obtain ⟨h1, h2, h3, h4, h5, h6, h7⟩ := h
  refine ⟨hr, hc, ?_, by omega, by omega, by omega, by omega⟩
  intro he
  apply h3
  rw [Prod.ext_iff] at he ⊢
  simp only at he
  exact ⟨he.1.symm, he.2.symm⟩

theorem mem_rawMoves {b : Board} {p : Player} {m : Move} :
    m ∈ rawMoves b p ↔ ∃ pos ∈ b.positions p,
      (m.1, m.2.1) ∈ neighborsList b.size pos.1 pos.2 ∧
      gridAt b (m.1, m.2.1) = none ∧ m.2.2 = cellValD b pos + 1 := by
  obtain ⟨m1, m2, m3⟩ := m
  simp only [rawMoves, List.mem_flatMap, List.mem_filterMap]
  constructor
  · rintro ⟨pos, hpos, q, hq, hf⟩
    split at hf
    · next hnone =>
      cases hf
      exact ⟨pos, hpos, hq, hnone, rfl⟩
    · cases hf
  · rintro ⟨pos, hpos, hnb, hnone, hval⟩
    refine ⟨pos, hpos, (m1, m2), hnb, ?_⟩
    rw [if_pos hnone, hval]

theorem assocFind_nil (k : Nat × Nat) : assocFind [] k = none := rfl

theorem assocFind_cons (kv : (Nat × Nat) × Nat) (d : List ((Nat × Nat) × Nat)) (k : Nat × Nat) :
    assocFind (kv :: d) k = if kv.1 = k then some kv.2 else assocFind d k := by
  unfold assocFind
  by_cases h : kv.1 = k
  · rw [List.find?_cons_of_pos _ (by simp [h]), if_pos h]
    rfl
  · rw [List.find?_cons_of_neg _ (by simp [h]), if_neg h]

theorem assocFind_updAssoc_self (d : List ((Nat × Nat) × Nat)) (k : Nat × Nat) (v : Nat) :
    assocFind (updAssoc d k v) k = some (max ((assocFind d k).getD 0) v) := by
  induction d with
  | nil =>
    show assocFind [(k, v)] k = _
    rw [assocFind_cons, assocFind_nil]
    simp only [Option.getD_none]
    simp only [if_pos True.intro]
    simp
  | cons kv rest ih =>
    obtain ⟨k0, v0⟩ := kv
    show assocFind (if k = k0 then (k0, if v0 < v then v else v0) :: rest
        else (k0, v0) :: updAssoc rest k v) k = _
    by_cases hk0 : k = k0
    · subst hk0
      rw [if_pos rfl]
      rw [assocFind_cons, assocFind_cons]
      simp only [if_pos True.intro, Option.getD_some]
      congr 1
      split
      · omega
      · omega
    · rw [if_neg hk0]
      rw [assocFind_cons, assocFind_cons]
      simp only
      have hne : ¬(k0 = k) := fun hh => hk0 hh.symm
      simp only [if_neg hne]
      exact ih

theorem assocFind_updAssoc_ne (d : List ((Nat × Nat) × Nat)) (k : Nat × Nat) (v : Nat)
    (k' : Nat × Nat) (h : ¬ k' = k) :
    assocFind (updAssoc d k v) k' = assocFind d k' := by
  induction d with
  | nil =>
    show assocFind [(k, v)] k' = assocFind [] k'
    rw [assocFind_cons]
    simp only
    rw [if_neg (fun hh => h hh.symm)]
  | cons kv rest ih =>
    obtain ⟨k0, v0⟩ := kv
    show assocFind (if k = k0 then (k0, if v0 < v then v else v0) :: rest
        else (k0, v0) :: updAssoc rest k v) k' = _
    by_cases hk0 : k = k0
    · subst hk0
      rw [if_pos rfl]
      rw [assocFind_cons, assocFind_cons]
      simp only
      have hkk : ¬(k = k') := fun hh => h hh.symm
      simp only [if_neg hkk]
    · rw [if_neg hk0]
      rw [assocFind_cons, assocFind_cons]
      simp only
      by_cases hkk : k0 = k'
      · simp only [if_pos hkk]
      · simp only [if_neg hkk]
        exact ih

theorem foldStep_spec (k : Nat × Nat) (raw : List Move) :
    ∀ (a : Option Nat) (v : Nat),
      raw.foldl (fun a m => if (m.1, m.2.1) = k then
          some (max (a.getD 0) m.2.2) else a) a = some v ↔
        ((a = some v ∨ ∃ m ∈ raw, (m.1, m.2.1) = k ∧ m.2.2 = v) ∧
         (∀ w, a = some w → w ≤ v) ∧
         (∀ m ∈ raw, (m.1, m.2.1) = k → m.2.2 ≤ v)) := by
  induction raw with
  | nil =>
    intro a v
    rw [List.foldl_nil]
    constructor
    · intro h
      refine ⟨Or.inl h, ?_, ?_⟩
      · intro w hw
        rw [h] at hw
        cases hw
        exact Nat.le_refl _
      · intro m hm
        exact absurd hm (List.not_mem_nil m)
    · rintro ⟨hsrc, h2, h3⟩
      rcases hsrc with h | ⟨m, hm, hrest⟩
      · exact h
      · exact absurd hm (List.not_mem_nil m)
  | cons m rest ih =>
    intro a v
    rw [List.foldl_cons]
    by_cases hk : (m.1, m.2.1) = k
    · rw [if_pos hk]
      cases a with
      | none =>
        simp only [Option.getD_none, Nat.zero_max]
        rw [ih]
        constructor
        · rintro ⟨hsrc, hub, hall⟩
          refine ⟨?_, fun w hw => absurd hw (by simp), ?_⟩
          · rcases hsrc with he | ⟨m', hm', hkm', hvm'⟩
            · cases he
              exact Or.inr ⟨m, List.mem_cons_self _ _, hk, rfl⟩
            · exact Or.inr ⟨m', List.mem_cons_of_mem _ hm', hkm', hvm'⟩
          · intro m' hm' hkm'
            rcases List.mem_cons.mp hm' with he | hm''
            · rw [he]
              exact hub _ rfl
            · exact hall m' hm'' hkm'
        · rintro ⟨hsrc, hub2, hall⟩
          refine ⟨?_, ?_, ?_⟩
          · rcases hsrc with he | ⟨m', hm', hkm', hvm'⟩
            · cases he
            · rcases List.mem_cons.mp hm' with he | hm''
              · left
                rw [he] at hvm'
                rw [hvm']
              · exact Or.inr ⟨m', hm'', hkm', hvm'⟩
          · intro w hw
            cases hw
            exact hall m (List.mem_cons_self _ _) hk
          · intro m' hm' hkm'
            exact hall m' (List.mem_cons_of_mem _ hm') hkm'
      | some w =>
        simp only [Option.getD_some]
        rw [ih]
        constructor
        · rintro ⟨hsrc, hub, hall⟩
          have hmaxle : max w m.2.2 ≤ v := hub _ rfl
          refine ⟨?_, ?_, ?_⟩
          · rcases hsrc with he | ⟨m', hm', hkm', hvm'⟩
            · have hv : max w m.2.2 = v := by
                cases he
                rfl
              by_cases hwv : w = v
              · exact Or.inl (by rw [hwv])
              · refine Or.inr ⟨m, List.mem_cons_self _ _, hk, ?_⟩
                omega
            · exact Or.inr ⟨m', List.mem_cons_of_mem _ hm', hkm', hvm'⟩
          · intro w' hw'
            cases hw'
            omega
          · intro m' hm' hkm'
            rcases List.mem_cons.mp hm' with he | hm''
            · rw [he]
              omega
            · exact hall m' hm'' hkm'
        · rintro ⟨hsrc, hub2, hall⟩
          have hwle : w ≤ v := hub2 _ rfl
          have hmle : m.2.2 ≤ v := hall m (List.mem_cons_self _ _) hk
          refine ⟨?_, ?_, ?_⟩
          · rcases hsrc with he | ⟨m', hm', hkm', hvm'⟩
            · have hwv : w = v := by
                cases he
                rfl
              left
              congr 1
              omega
            · rcases List.mem_cons.mp hm' with he | hm''
              · rw [he] at hvm'
                left
                congr 1
                omega
              · exact Or.inr ⟨m', hm'', hkm', hvm'⟩
          · intro w' hw'
            cases hw'
            omega
          · intro m' hm' hkm'
            exact hall m' (List.mem_cons_of_mem _ hm') hkm'
    · rw [if_neg hk]
      rw [ih]
      constructor
      · rintro ⟨hsrc, hub, hall⟩
        refine ⟨?_, hub, ?_⟩
        · rcases hsrc with he | ⟨m', hm', hkm', hvm'⟩
          · exact Or.inl he
          · exact Or.inr ⟨m', List.mem_cons_of_mem _ hm', hkm', hvm'⟩
        · intro m' hm' hkm'
          rcases List.mem_cons.mp hm' with he | hm''
          · rw [he] at hkm'
            exact absurd hkm' hk
          · exact hall m' hm'' hkm'
      · rintro ⟨hsrc, hub, hall⟩
        refine ⟨?_, hub, ?_⟩
        · rcases hsrc with he | ⟨m', hm', hkm', hvm'⟩
          · exact Or.inl he
          · rcases List.mem_cons.mp hm' with he | hm''
            · rw [he] at hkm'
              exact absurd hkm' hk
            · exact Or.inr ⟨m', hm'', hkm', hvm'⟩
        · intro m' hm' hkm'
          exact hall m' (List.mem_cons_of_mem _ hm') hkm'

theorem assocFind_foldl (raw : List Move) :
    ∀ (d : List ((Nat × Nat) × Nat)) (k : Nat × Nat),
      assocFind (raw.foldl (fun d m => updAssoc d (m.1, m.2.1) m.2.2) d) k =
        raw.foldl (fun a m => if (m.1, m.2.1) = k then
          some (max (a.getD 0) m.2.2) else a) (assocFind d k) := by
  induction raw with
  | nil =>
    intro d k
    rfl
  | cons m rest ih =>
    intro d k
    rw [List.foldl_cons, List.foldl_cons, ih]
    congr 1
    by_cases hk : (m.1, m.2.1) = k
    · rw [if_pos hk]
      subst hk
      exact assocFind_updAssoc_self d _ _
    · rw [if_neg hk]
      exact assocFind_updAssoc_ne d _ _ _ (fun hh => hk hh.symm)

theorem assocFind_moveDict_iff {b : Board} {p : Player} {k : Nat × Nat} {v : Nat} :
    assocFind (moveDict b p) k = some v ↔
      ((∃ m ∈ rawMoves b p, (m.1, m.2.1) = k ∧ m.2.2 = v) ∧
       (∀ m ∈ rawMoves b p, (m.1, m.2.1) = k → m.2.2 ≤ v)) := by
  unfold moveDict
  rw [assocFind_foldl, assocFind_nil, foldStep_spec]
  constructor
  · rintro ⟨hsrc, h2, hall⟩
    rcases hsrc with he | hex
    · cases he
    · exact ⟨hex, hall⟩
  · rintro ⟨hex, hall⟩
    exact ⟨Or.inr hex, fun w hw => absurd hw (by simp), hall⟩

theorem updAssoc_keys (d : List ((Nat × Nat) × Nat)) (k : Nat × Nat) (v : Nat) :
    (updAssoc d k v).map (·.1) =
      if k ∈ d.map (·.1) then d.map (·.1) else d.map (·.1) ++ [k] := by
  induction d with
  | nil =>
    simp [updAssoc]
  | cons kv rest ih =>
    obtain ⟨k0, v0⟩ := kv
    show ((if k = k0 then (k0, if v0 < v then v else v0) :: rest
        else (k0, v0) :: updAssoc rest k v).map (·.1)) = _
    by_cases hk0 : k = k0
    · subst hk0
      rw [if_pos rfl]
      rw [if_pos (show k ∈ List.map (fun x => x.1) ((k, v0) :: rest) from by
        rw [List.map_cons]
        exact List.mem_cons_self _ _)]
      rfl
    · rw [if_neg hk0]
      rw [List.map_cons, ih]
      simp only [List.map_cons, List.mem_cons]
      by_cases hmem : k ∈ rest.map (·.1)
      · rw [if_pos hmem, if_pos (Or.inr hmem)]
      · rw [if_neg hmem, if_neg (by rintro (he | hm); exact hk0 he; exact hmem hm)]
        rfl

theorem updAssoc_keys_nodup {d : List ((Nat × Nat) × Nat)} (k : Nat × Nat) (v : Nat)
    (hnd : (d.map (·.1)).Nodup) : ((updAssoc d k v).map (·.1)).Nodup := by
  rw [updAssoc_keys]
  by_cases hmem : k ∈ d.map (·.1)
  · rw [if_pos hmem]
    exact hnd
  · rw [if_neg hmem]
    simp [List.nodup_append, hnd, hmem]

theorem moveDict_keys_nodup (b : Board) (p : Player) :
    ((moveDict b p).map (·.1)).Nodup := by
  unfold moveDict
  have haux : ∀ (raw : List Move) (d : List ((Nat × Nat) × Nat)),
      (d.map (·.1)).Nodup →
      ((raw.foldl (fun d m => updAssoc d (m.1, m.2.1) m.2.2) d).map (·.1)).Nodup := by
    intro raw
    induction raw with
    | nil =>
      intro d hd
      exact hd
    | cons m rest ih =>
      intro d hd
      rw [List.foldl_cons]
      exact ih _ (updAssoc_keys_nodup _ _ hd)
  exact haux _ [] (by simp)

theorem mem_iff_assocFind {d : List ((Nat × Nat) × Nat)}
    (hnd : (d.map (·.1)).Nodup) {k : Nat × Nat} {v : Nat} :
    (k, v) ∈ d ↔ assocFind d k = some v := by
  induction d with
  | nil =>
    simp [assocFind_nil]
  | cons kv rest ih =>
    obtain ⟨k0, v0⟩ := kv
    rw [List.map_cons, List.nodup_cons] at hnd
    rw [List.mem_cons, assocFind_cons]
    simp only
    by_cases hk : k0 = k
    · subst hk
      rw [if_pos rfl]
      constructor
      · rintro (he | hm)
        · rw [Prod.mk.injEq] at he
          rw [he.2]
        · exact absurd (List.mem_map_of_mem (·.1) hm) hnd.1
      · intro he
        cases he
        exact Or.inl rfl
    · rw [if_neg hk]
      constructor
      · rintro (he | hm)
        · rw [Prod.mk.injEq] at he
          exact absurd he.1.symm hk
        · exact (ih hnd.2).mp hm
      · intro hfind
        exact Or.inr ((ih hnd.2).mpr hfind)

theorem mem_getValidMoves_iff {b : Board} {p : Player} {r c v : Nat} :
    (r, c, v) ∈ getValidMoves b p ↔ assocFind (moveDict b p) (r, c) = some v := by
  unfold getValidMoves
  rw [List.mem_map]
  constructor
  · rintro ⟨kv, hkv, heq⟩
    obtain ⟨⟨kr, kc⟩, kvv⟩ := kv
    simp only [Prod.mk.injEq] at heq
    obtain ⟨h1, h2, h3⟩ := heq
    subst h1
    subst h2
    subst h3
    exact (mem_iff_assocFind (moveDict_keys_nodup b p)).mp hkv
  · intro hfind
    exact ⟨((r, c), v), (mem_iff_assocFind (moveDict_keys_nodup b p)).mpr hfind, rfl⟩

theorem getValidMoves_keys_nodup (b : Board) (p : Player) :
    ((getValidMoves b p).map (fun m => (m.1, m.2.1))).Nodup := by
  unfold getValidMoves
  rw [List.map_map]
  have hcomp : ((fun (m : Move) => (m.1, m.2.1)) ∘ fun kv => (kv.1.1, kv.1.2, kv.2)) =
      (fun (kv : (Nat × Nat) × Nat) => kv.1) :=
    funext fun kv => rfl
  rw [hcomp]
  exact moveDict_keys_nodup b p

theorem validMoves_target {b : Board} {p : Player} {r c v : Nat}
    (h : (r, c, v) ∈ getValidMoves b p) :
    gridAt b (r, c) = none ∧ r < b.size ∧ c < b.size ∧ 1 ≤ v := by
  rw [mem_getValidMoves_iff, assocFind_moveDict_iff] at h
  obtain ⟨⟨m, hm, hkey, hval⟩, h2⟩ := h
  rw [mem_rawMoves] at hm
  obtain ⟨pos, hpos, hnb, hnone, hv⟩ := hm
  rw [hkey] at hnb hnone
  have hbd := mem_neighborsList_bounds hnb
  exact ⟨hnone, hbd.1, hbd.2, by omega⟩

/-! ### Well-formedness helpers -/

theorem WF.pos_cell {b : Board} (hWF : b.WF) {p : Player} {q : Nat × Nat}
    (hq : q ∈ b.positions p) : ∃ w, gridAt b q = some (p, w) := by
  obtain ⟨_, _, _, _, hA, hB, _⟩ := hWF
  cases p with
  | A =>
    have := hA q hq
    unfold cellOwner at this
    cases hcell : gridAt b q with
    | none => rw [hcell] at this; cases this
    | some c =>
      rw [hcell] at this
      obtain ⟨cp, cw⟩ := c
      simp only [Option.map_some'] at this
      cases this
      exact ⟨cw, rfl⟩
  | B =>
    have := hB q hq
    unfold cellOwner at this
    cases hcell : gridAt b q with
    | none => rw [hcell] at this; cases this
    | some c =>
      rw [hcell] at this
      obtain ⟨cp, cw⟩ := c
      simp only [Option.map_some'] at this
      cases this
      exact ⟨cw, rfl⟩

theorem gridAt_some_bounds {b : Board} (hlen : b.grid.length = b.size)
    (hrows : ∀ row ∈ b.grid, row.length = b.size) {q : Nat × Nat} {c : Cell}
    (h : gridAt b q = some c) : q.1 < b.size ∧ q.2 < b.size := by
  unfold gridAt at h
  cases hrow : b.grid[q.1]? with
  | none =>
    rw [hrow] at h
    cases h
  | some row =>
    rw [hrow] at h
    rw [Option.some_bind] at h
    cases hcol : row[q.2]? with
    | none =>
      rw [hcol] at h
      cases h
    | some cell =>
      have h1 : q.1 < b.grid.length := by
        by_contra hcon
        rw [List.getElem?_eq_none (by omega)] at hrow
        cases hrow
      have hmem : row ∈ b.grid := by
        rw [List.getElem?_eq_getElem h1] at hrow
        cases hrow
        exact List.getElem_mem h1
      have h2 : q.2 < row.length := by
        by_contra hcon
        rw [List.getElem?_eq_none (by omega)] at hcol
        cases hcol
      constructor
      · rw [← hlen]
        exact h1
      · rw [← hrows row hmem]
        exact h2

theorem WF.cell_pos {b : Board} (hWF : b.WF) {p : Player} {q : Nat × Nat} {w : Nat}
    (h : gridAt b q = some (p, w)) : q ∈ b.positions p := by
  obtain ⟨hlen, hrows, _, _, hA, hB, hcover⟩ := hWF
  have hbd := gridAt_some_bounds hlen hrows h
  have := hcover q.1 hbd.1 q.2 hbd.2 (by rw [h]; rfl)
  cases p with
  | A =>
    rcases this with hin | hin
    · exact hin
    · have := hB _ hin
      unfold cellOwner at this
      rw [h] at this
      cases this
  | B =>
    rcases this with hin | hin
    · have := hA _ hin
      unfold cellOwner at this
      rw [h] at this
      cases this
    · exact hin

theorem gridAt_eq_read {b : Board} (hlen : b.grid.length = b.size)
    (hrows : ∀ row ∈ b.grid, row.length = b.size) {row col : Nat}
    (hr : row < b.size) (hc : col < b.size) :
    ((b.grid[row]?).bind fun r0 => r0[col]?) = some (gridAt b (row, col)) := by
  have h1 : row < b.grid.length := by rw [hlen]; exact hr
  have hmem : b.grid[row] ∈ b.grid := List.getElem_mem h1
  have h2 : col < (b.grid[row]).length := by rw [hrows _ hmem]; exact hc
  have hgrow : b.grid[row]? = some b.grid[row] := List.getElem?_eq_getElem h1
  have hgcol : (b.grid[row])[col]? = some (b.grid[row])[col] := List.getElem?_eq_getElem h2
  have hga : gridAt b (row, col) = ((b.grid[row]?).bind fun r0 => r0[col]?).join := rfl
  rw [hga, hgrow, Option.some_bind, hgcol]
  rfl

/-! ### setCell -/

theorem setCell_grid (b : Board) (row col : Nat) (p : Player) (v : Nat) :
    (setCell b row col p v).grid =
      b.grid.set row (((b.grid[row]?).getD []).set col (some (p, v))) := by
  cases p
  · rfl
  · rfl

theorem setCell_size (b : Board) (row col : Nat) (p : Player) (v : Nat) :
    (setCell b row col p v).size = b.size := by
  cases p
  · rfl
  · rfl

theorem setCell_positions_self (b : Board) (row col : Nat) (p : Player) (v : Nat) :
    (setCell b row col p v).positions p = addPos (b.positions p) (row, col) := by
  cases p
  · rfl
  · rfl

theorem setCell_positions_other (b : Board) (row col : Nat) (p : Player) (v : Nat) :
    (setCell b row col p v).positions p.other = b.positions p.other := by
  cases p
  · rfl
  · rfl

theorem gridAt_setCell {b : Board} (hlen : b.grid.length = b.size)
    (hrows : ∀ row ∈ b.grid, row.length = b.size) {row col : Nat}
    (hr : row < b.size) (hc : col < b.size) (p : Player) (v : Nat) (q : Nat × Nat) :
    gridAt (setCell b row col p v) q =
      if q = (row, col) then some (p, v) else gridAt b q := by
  have h1 : row < b.grid.length := by rw [hlen]; exact hr
  have hmemrow : b.grid[row] ∈ b.grid := List.getElem_mem h1
  have h2 : col < (b.grid[row]).length := by rw [hrows _ hmemrow]; exact hc
  have hgrow : b.grid[row]? = some b.grid[row] := List.getElem?_eq_getElem h1
  have hga : gridAt (setCell b row col p v) q =
      (((setCell b row col p v).grid[q.1]?).bind fun r0 => r0[q.2]?).join := rfl
  have hgb : gridAt b q = ((b.grid[q.1]?).bind fun r0 => r0[q.2]?).join := rfl
  rw [hga, setCell_grid, hgrow]
  simp only [Option.getD_some]
  by_cases hq1 : q.1 = row
  · rw [hq1, List.getElem?_set_eq_of_lt _ h1, Option.some_bind]
    by_cases hq2 : q.2 = col
    · rw [hq2, List.getElem?_set_eq_of_lt _ h2]
      rw [if_pos (by rw [Prod.ext_iff]; exact ⟨hq1, hq2⟩)]
      rfl
    · rw [List.getElem?_set_ne (fun hh => hq2 hh.symm)]
      rw [if_neg (fun hh => hq2 (by rw [hh]))]
      rw [hgb, hq1, hgrow, Option.some_bind]
  · rw [List.getElem?_set_ne (fun hh => hq1 hh.symm)]
    rw [if_neg (fun hh => hq1 (by rw [hh]))]
    rw [hgb]

theorem setCell_grid_length (b : Board) (row col : Nat) (p : Player) (v : Nat) :
    (setCell b row col p v).grid.length = b.grid.length := by
  rw [setCell_grid, List.length_set]

theorem setCell_row_length {b : Board} (hlen : b.grid.length = b.size)
    (hrows : ∀ row ∈ b.grid, row.length = b.size) {row col : Nat}
    (hr : row < b.size) (p : Player) (v : Nat) :
    ∀ row' ∈ (setCell b row col p v).grid, row'.length = b.size := by
  intro row' hrow'
  rw [setCell_grid] at hrow'
  rcases List.mem_or_eq_of_mem_set hrow' with hin | heq
  · exact hrows _ hin
  · have h1 : row < b.grid.length := by rw [hlen]; exact hr
    have hgrow : b.grid[row]? = some b.grid[row] := List.getElem?_eq_getElem h1
    rw [heq, hgrow]
    simp only [Option.getD_some]
    rw [List.length_set]
    exact hrows _ (List.getElem_mem h1)

theorem Player.eq_other_of_ne {p p' : Player} (h : ¬ p' = p) : p' = p.other := by
  cases p
  · cases p'
    · exact absurd rfl h
    · rfl
  · cases p'
    · rfl
    · exact absurd rfl h

theorem mem_addPos {l : List (Nat × Nat)} {q q' : Nat × Nat} :
    q' ∈ addPos l q ↔ q' ∈ l ∨ q' = q := by
  unfold addPos
  split
  · next hmem =>
    constructor
    · exact Or.inl
    · rintro (h | rfl)
      · exact h
      · exact hmem
  · rw [List.mem_append, List.mem_singleton]

theorem addPos_nodup {l : List (Nat × Nat)} (q : Nat × Nat) (h : l.Nodup) :
    (addPos l q).Nodup := by
  unfold addPos
  split
  · exact h
  · next hmem =>
    simp [List.nodup_append, h, hmem]

theorem WF_setCell {b : Board} (hWF : b.WF) {row col : Nat} {p : Player} {v : Nat}
    (hr : row < b.size) (hc : col < b.size) (hempty : gridAt b (row, col) = none) :
    (setCell b row col p v).WF := by
  have hlen := hWF.1
  have hrows := hWF.2.1
  have hga := gridAt_setCell hlen hrows hr hc p v
  have hmatch : ∀ p' q, q ∈ (setCell b row col p v).positions p' →
      cellOwner (setCell b row col p v) q = some p' := by
    intro p' q hq
    by_cases hp' : p' = p
    · rw [hp'] at hq ⊢
      rw [setCell_positions_self, mem_addPos] at hq
      rcases hq with hq | rfl
      · obtain ⟨w, hw⟩ := WF.pos_cell hWF hq
        have hne : ¬ q = (row, col) := by
          intro he
          rw [he, hempty] at hw
          cases hw
        rw [cellOwner, hga q, if_neg hne, hw]
        rfl
      · rw [cellOwner, hga (row, col), if_pos rfl]
        rfl
    · rw [Player.eq_other_of_ne hp'] at hq ⊢
      rw [setCell_positions_other] at hq
      obtain ⟨w, hw⟩ := WF.pos_cell hWF hq
      have hne : ¬ q = (row, col) := by
        intro he
        rw [he, hempty] at hw
        cases hw
      rw [cellOwner, hga q, if_neg hne, hw]
      rfl
  have hnodup : ∀ p', ((setCell b row col p v).positions p').Nodup := by
    intro p'
    by_cases hp' : p' = p
    · rw [hp', setCell_positions_self]
      cases p
      · exact addPos_nodup _ hWF.2.2.1
      · exact addPos_nodup _ hWF.2.2.2.1
    · rw [Player.eq_other_of_ne hp', setCell_positions_other]
      cases p
      · exact hWF.2.2.2.1
      · exact hWF.2.2.1
  have hmemself : (row, col) ∈ (setCell b row col p v).positions p := by
    rw [setCell_positions_self, mem_addPos]
    exact Or.inr rfl
  have hsub : ∀ p' q, q ∈ b.positions p' → q ∈ (setCell b row col p v).positions p' := by
    intro p' q hq
    by_cases hp' : p' = p
    · rw [hp'] at hq ⊢
      rw [setCell_positions_self, mem_addPos]
      exact Or.inl hq
    · rw [Player.eq_other_of_ne hp'] at hq ⊢
      rw [setCell_positions_other]
      exact hq
  refine ⟨?_, ?_, hnodup .A, hnodup .B, fun q hq => hmatch .A q hq,
    fun q hq => hmatch .B q hq, ?_⟩
  · rw [setCell_grid_length, hlen, setCell_size]
  · intro row' hrow'
    rw [setCell_size]
    exact setCell_row_length hlen hrows hr p v row' hrow'
  · intro r hrr c hcc hsome
    rw [setCell_size] at hrr hcc
    rw [hga (r, c)] at hsome
    show (r, c) ∈ (setCell b row col p v).positions .A ∨
      (r, c) ∈ (setCell b row col p v).positions .B
    by_cases heq : (r, c) = (row, col)
    · rw [heq]
      cases p
      · exact Or.inl hmemself
      · exact Or.inr hmemself
    · rw [if_neg heq] at hsome
      rcases hWF.2.2.2.2.2.2 r hrr c hcc hsome with hin | hin
      · exact Or.inl (hsub .A _ hin)
      · exact Or.inr (hsub .B _ hin)

theorem makeMove_total {b : Board} (hWF : b.WF) {row col : Nat} (p : Player) (v : Nat)
    (hr : row < b.size) (hc : col < b.size) :
    makeMove b row col p v =
      if gridAt b (row, col) = none then
        (if (row, col, v) ∈ getValidMoves b p then some (true, setCell b row col p v)
         else some (false, b))
      else some (false, b) := by
  unfold makeMove
  rw [gridAt_eq_read hWF.1 hWF.2.1 hr hc]
  cases hcell : gridAt b (row, col) with
  | none => simp
  | some c => simp

theorem makeMove_of_mem {b : Board} {row col v : Nat} {p : Player} (hWF : b.WF)
    (hmem : (row, col, v) ∈ getValidMoves b p) :
    makeMove b row col p v = some (true, setCell b row col p v) := by
  obtain ⟨hempty, hr, hc, _⟩ := validMoves_target hmem
  rw [makeMove_total hWF p v hr hc, if_pos hempty, if_pos hmem]

theorem makeMove_true_inv {b : Board} {row col v : Nat} {p : Player} {b' : Board}
    (h : makeMove b row col p v = some (true, b')) :
    (row, col, v) ∈ getValidMoves b p ∧ b' = setCell b row col p v := by
  unfold makeMove at h
  cases hread : (b.grid[row]?).bind (fun r0 => r0[col]?) with
  | none =>
    rw [hread] at h
    cases h
  | some cell =>
    rw [hread] at h
    replace h : (if cell.isSome = true then some (false, b)
        else if (row, col, v) ∈ getValidMoves b p then some (true, setCell b row col p v)
        else some (false, b)) = some (true, b') := h
    by_cases hs : cell.isSome = true
    · rw [if_pos hs] at h
      simp at h
    · rw [if_neg hs] at h
      by_cases hmem : (row, col, v) ∈ getValidMoves b p
      · rw [if_pos hmem] at h
        cases h
        exact ⟨hmem, rfl⟩
      · rw [if_neg hmem] at h
        simp at h

theorem makeMove_false_inv {b : Board} {row col v : Nat} {p : Player} {b' : Board}
    (h : makeMove b row col p v = some (false, b')) : b' = b := by
  unfold makeMove at h
  cases hread : (b.grid[row]?).bind (fun r0 => r0[col]?) with
  | none =>
    rw [hread] at h
    cases h
  | some cell =>
    rw [hread] at h
    replace h : (if cell.isSome = true then some (false, b)
        else if (row, col, v) ∈ getValidMoves b p then some (true, setCell b row col p v)
        else some (false, b)) = some (false, b') := h
    by_cases hs : cell.isSome = true
    · rw [if_pos hs] at h
      cases h
      rfl
    · rw [if_neg hs] at h
      by_cases hmem : (row, col, v) ∈ getValidMoves b p
      · rw [if_pos hmem] at h
        simp at h
      · rw [if_neg hmem] at h
        cases h
        rfl

theorem WF_applyCall {b : Board} (hWF : b.WF) (c : Nat × Nat × Player × Nat) :
    (applyCall b c).WF := by
  unfold applyCall
  cases hmm : makeMove b c.1 c.2.1 c.2.2.1 c.2.2.2 with
  | none => exact hWF
  | some res =>
    obtain ⟨ok, b'⟩ := res
    cases ok with
    | false => exact hWF
    | true =>
      obtain ⟨hmem, rfl⟩ := makeMove_true_inv hmm
      obtain ⟨hempty, hr, hc, _⟩ := validMoves_target hmem
      exact WF_setCell hWF hr hc hempty

theorem WF_applyCalls {b : Board} (hWF : b.WF) (cs : List (Nat × Nat × Player × Nat)) :
    (applyCalls b cs).WF := by
  induction cs generalizing b with
  | nil => exact hWF
  | cons c rest ih =>
    show (applyCalls (applyCall b c) rest).WF
    exact ih (WF_applyCall hWF c)

/-! ### C3: legal-move characterization -/

/-- C3: for every player on a well-formed board, the legal moves are
exactly the `(row, col, value)` triples whose target is an empty in-bounds
cell 8-adjacent to at least one cell owned by that player, with `value`
one more than the maximum value over the player's owned cells adjacent to
the target; and exactly one move is exposed per target coordinate. -/
theorem valid_moves_characterization (b : Board) (p : Player) (hWF : b.WF) :
    (∀ m : Move, m ∈ getValidMoves b p ↔
      (m.1 < b.size ∧ m.2.1 < b.size ∧ gridAt b (m.1, m.2.1) = none ∧
       ∃ w : Nat,
         (∃ q ∈ neighborsList b.size m.1 m.2.1, gridAt b q = some (p, w)) ∧
         (∀ q ∈ neighborsList b.size m.1 m.2.1, ∀ w', gridAt b q = some (p, w') → w' ≤ w) ∧
         m.2.2 = 1 + w)) ∧
    ((getValidMoves b p).map (fun m => (m.1, m.2.1))).Nodup := by
  refine ⟨?_, getValidMoves_keys_nodup b p⟩
  rintro ⟨r, c, v⟩
  simp only
  constructor
  · intro h
    rw [mem_getValidMoves_iff, assocFind_moveDict_iff] at h
    obtain ⟨⟨m', hm'raw, hk, hv⟩, hub⟩ := h
    rw [mem_rawMoves] at hm'raw
    obtain ⟨pos, hpos, hnb, hnone, hvm⟩ := hm'raw
    rw [hk] at hnb hnone
    have hbd := mem_neighborsList_bounds hnb
    obtain ⟨w0, hw0⟩ := WF.pos_cell hWF hpos
    have hposbd := gridAt_some_bounds hWF.1 hWF.2.1 hw0
    have hposmem : (pos.1, pos.2) ∈ neighborsList b.size r c :=
      neighborsList_symm hposbd.1 hposbd.2 hnb
    have hcellval : cellValD b pos = w0 := by
      unfold cellValD
      rw [hw0]
    have hveq : v = w0 + 1 := by
      rw [← hv, hvm, hcellval]
    refine ⟨hbd.1, hbd.2, hnone, w0, ⟨pos, hposmem, hw0⟩, ?_, by omega⟩
    intro q hq w' hw'
    have hqpos : q ∈ b.positions p := WF.cell_pos hWF hw'
    have hnb' : (r, c) ∈ neighborsList b.size q.1 q.2 :=
      neighborsList_symm hbd.1 hbd.2 hq
    have hraw : ((r, c, cellValD b q + 1) : Move) ∈ rawMoves b p := by
      rw [mem_rawMoves]
      exact ⟨q, hqpos, hnb', hnone, rfl⟩
    have := hub _ hraw rfl
    have hcq : cellValD b q = w' := by
      unfold cellValD
      rw [hw']
    simp only at this
    omega
  · rintro ⟨hr, hc, hnone, w, ⟨q, hq, hqcell⟩, hub, hval⟩
    rw [mem_getValidMoves_iff, assocFind_moveDict_iff]
    have hqpos : q ∈ b.positions p := WF.cell_pos hWF hqcell
    have hnb' : (r, c) ∈ neighborsList b.size q.1 q.2 := neighborsList_symm hr hc hq
    have hcq : cellValD b q = w := by
      unfold cellValD
      rw [hqcell]
    constructor
    · refine ⟨(r, c, cellValD b q + 1), ?_, rfl, ?_⟩
      · rw [mem_rawMoves]
        exact ⟨q, hqpos, hnb', hnone, rfl⟩
      · simp only
        omega
    · intro m'' hm'' hk''
      rw [mem_rawMoves] at hm''
      obtain ⟨pos', hpos', hnb'', hnone'', hvm''⟩ := hm''
      obtain ⟨w', hw'⟩ := WF.pos_cell hWF hpos'
      have hposbd' := gridAt_some_bounds hWF.1 hWF.2.1 hw'
      rw [hk''] at hnb''
      have hposmem' : (pos'.1, pos'.2) ∈ neighborsList b.size r c :=
        neighborsList_symm hposbd'.1 hposbd'.2 hnb''
      have hle : w' ≤ w := hub _ hposmem' w' hw'
      have hcp : cellValD b pos' = w' := by
        unfold cellValD
        rw [hw']
      rw [hvm'', hcp]
      omega

/-- Witness for `valid_moves_characterization` on the initial 2 × 2
board. -/
theorem valid_moves_characterization_witness :
    sampleBoard.WF ∧
    ((∀ m : Move, m ∈ getValidMoves sampleBoard .A ↔
      (m.1 < sampleBoard.size ∧ m.2.1 < sampleBoard.size ∧
       gridAt sampleBoard (m.1, m.2.1) = none ∧
       ∃ w : Nat,
         (∃ q ∈ neighborsList sampleBoard.size m.1 m.2.1,
           gridAt sampleBoard q = some (.A, w)) ∧
         (∀ q ∈ neighborsList sampleBoard.size m.1 m.2.1, ∀ w',
           gridAt sampleBoard q = some (.A, w') → w' ≤ w) ∧
         m.2.2 = 1 + w)) ∧
     ((getValidMoves sampleBoard .A).map (fun m => (m.1, m.2.1))).Nodup) :=
  ⟨by decide, valid_moves_characterization sampleBoard .A (by decide)⟩

/-! ### C4: make_move error handling -/

/-- Counterexample to C4: an out-of-range coordinate does not produce a
boolean result — `make_move(2, 0, ...)` on the 2 × 2 board indexes
`self.board[2]` and raises `IndexError` (modelled as `none`). -/
theorem make_move_out_of_range_raises :
    makeMove sampleBoard 2 0 Player.A 2 = none := rfl

/-- C4 (amended): for coordinates inside the grid (`row, col < size`) on a
well-formed board, `make_move` returns a boolean without raising: `False`
leaves the grid and both occupancy sets completely unchanged and is
returned whenever the target is occupied or the move is not in the
legal-move set recomputed from the board (wrong value or no adjacent owned
cell); `True` is returned exactly when the target is empty and the move is
in the recomputed legal-move set.  Out-of-range indices raise
`IndexError` instead of returning `False`. -/
theorem make_move_in_range_no_raise (b : Board) (row col : Nat) (p : Player) (v : Nat)
    (hWF : b.WF) (hr : row < b.size) (hc : col < b.size) :
    ∃ ok b', makeMove b row col p v = some (ok, b') ∧
      (ok = true ↔ gridAt b (row, col) = none ∧ (row, col, v) ∈ getValidMoves b p) ∧
      (ok = false → b' = b) ∧
      (ok = true → b' = setCell b row col p v) := by
  rw [makeMove_total hWF p v hr hc]
  by_cases hempty : gridAt b (row, col) = none
  · rw [if_pos hempty]
    by_cases hmem : (row, col, v) ∈ getValidMoves b p
    · rw [if_pos hmem]
      exact ⟨true, _, rfl, by simp [hempty, hmem], by simp, fun _ => rfl⟩
    · rw [if_neg hmem]
      exact ⟨false, b, rfl, by simp [hmem], fun _ => rfl, by simp⟩
  · rw [if_neg hempty]
    exact ⟨false, b, rfl, by simp [hempty], fun _ => rfl, by simp⟩

/-- Witness for `make_move_in_range_no_raise` at a concrete in-range
call. -/
theorem make_move_in_range_no_raise_witness :
    sampleBoard.WF ∧ (0 : Nat) < sampleBoard.size ∧ (1 : Nat) < sampleBoard.size ∧
    ∃ ok b', makeMove sampleBoard 0 1 Player.A 2 = some (ok, b') ∧
      (ok = true ↔ gridAt sampleBoard (0, 1) = none ∧
        (0, 1, 2) ∈ getValidMoves sampleBoard Player.A) ∧
      (ok = false → b' = sampleBoard) ∧
      (ok = true → b' = setCell sampleBoard 0 1 Player.A 2) :=
  ⟨by decide, by decide, by decide,
   make_move_in_range_no_raise sampleBoard 0 1 Player.A 2 (by decide) (by decide) (by decide)⟩

/-! ### C7: occupancy invariant preservation -/

/-- C7: from the initial board of any size `N ≥ 2`, after every sequence
of `make_move` calls (successful calls mutate, failed or raising calls
leave the board unchanged), every coordinate in a player's occupancy set
holds a cell owned by that player, the two occupancy sets together cover
exactly the non-empty cells, and they are disjoint. -/
theorem occupancy_invariant_preserved (n : Nat) (hn : 2 ≤ n)
    (cs : List (Nat × Nat × Player × Nat)) :
    (∀ q ∈ (applyCalls (initBoard n) cs).posA,
      cellOwner (applyCalls (initBoard n) cs) q = some .A) ∧
    (∀ q ∈ (applyCalls (initBoard n) cs).posB,
      cellOwner (applyCalls (initBoard n) cs) q = some .B) ∧
    (∀ r, r < (applyCalls (initBoard n) cs).size →
      ∀ c, c < (applyCalls (initBoard n) cs).size →
      ((gridAt (applyCalls (initBoard n) cs) (r, c)).isSome = true ↔
        (r, c) ∈ (applyCalls (initBoard n) cs).posA ∨
        (r, c) ∈ (applyCalls (initBoard n) cs).posB)) ∧
    (∀ q, ¬(q ∈ (applyCalls (initBoard n) cs).posA ∧
      q ∈ (applyCalls (initBoard n) cs).posB)) := by
  have hWF := WF_applyCalls (initBoard_WF hn) cs
  obtain ⟨hlen, hrows, hndA, hndB, hA, hB, hcover⟩ := hWF
  refine ⟨hA, hB, ?_, ?_⟩
  · intro r hr c hc
    constructor
    · exact hcover r hr c hc
    · intro hmem
      have howner : ∃ p', cellOwner (applyCalls (initBoard n) cs) (r, c) = some p' := by
        rcases hmem with hin | hin
        · exact ⟨.A, hA _ hin⟩
        · exact ⟨.B, hB _ hin⟩
      obtain ⟨p', hp'⟩ := howner
      unfold cellOwner at hp'
      cases hcell : gridAt (applyCalls (initBoard n) cs) (r, c) with
      | none =>
        rw [hcell] at hp'
        cases hp'
      | some cc => rfl
  · intro q hq
    have h1 := hA _ hq.1
    have h2 := hB _ hq.2
    rw [h1] at h2
    cases h2

/-- Witness for `occupancy_invariant_preserved` on a 2 × 2 board after one
call. -/
theorem occupancy_invariant_preserved_witness :
    2 ≤ 2 ∧
    ((∀ q ∈ (applyCalls (initBoard 2) [(0, 1, Player.A, 2)]).posA,
      cellOwner (applyCalls (initBoard 2) [(0, 1, Player.A, 2)]) q = some .A) ∧
    (∀ q ∈ (applyCalls (initBoard 2) [(0, 1, Player.A, 2)]).posB,
      cellOwner (applyCalls (initBoard 2) [(0, 1, Player.A, 2)]) q = some .B) ∧
    (∀ r, r < (applyCalls (initBoard 2) [(0, 1, Player.A, 2)]).size →
      ∀ c, c < (applyCalls (initBoard 2) [(0, 1, Player.A, 2)]).size →
      ((gridAt (applyCalls (initBoard 2) [(0, 1, Player.A, 2)]) (r, c)).isSome = true ↔
        (r, c) ∈ (applyCalls (initBoard 2) [(0, 1, Player.A, 2)]).posA ∨
        (r, c) ∈ (applyCalls (initBoard 2) [(0, 1, Player.A, 2)]).posB)) ∧
    (∀ q, ¬(q ∈ (applyCalls (initBoard 2) [(0, 1, Player.A, 2)]).posA ∧
      q ∈ (applyCalls (initBoard 2) [(0, 1, Player.A, 2)]).posB))) :=
  ⟨by omega, occupancy_invariant_preserved 2 (by omega) [(0, 1, Player.A, 2)]⟩

/-! ### Fuel measure lemmas -/

theorem countNone_set (l : List (Option Cell)) :
    ∀ (col : Nat) (cell : Cell), l[col]? = some none →
      ((l.set col (some cell)).filter fun c => c.isNone).length + 1 =
        (l.filter fun c => c.isNone).length := by
  induction l with
  | nil =>
    intro col cell hnone
    cases hnone
  | cons x rest ih =>
    intro col cell hnone
    cases col with
    | zero =>
      rw [List.getElem?_cons_zero] at hnone
      cases hnone
      rw [List.set_cons_zero]
      rw [List.filter_cons, List.filter_cons]
      simp
    | succ k =>
      rw [List.getElem?_cons_succ] at hnone
      rw [List.set_cons_succ]
      rw [List.filter_cons, List.filter_cons]
      have := ih k cell hnone
      cases hx : x.isNone
      · simp only [Bool.false_eq_true, if_false]
        omega
      · simp only [if_true]
        rw [List.length_cons, List.length_cons]
        omega

theorem sum_map_set (f : List (Option Cell) → Nat) (g : List (List (Option Cell))) :
    ∀ (i : Nat) (hi : i < g.length) (newRow : List (Option Cell)),
      ((g.set i newRow).map f).sum + f g[i] = (g.map f).sum + f newRow := by
  induction g with
  | nil =>
    intro i hi
    cases hi
  | cons row rest ih =>
    intro i hi newRow
    cases i with
    | zero =>
      rw [List.set_cons_zero]
      simp only [List.map_cons, List.sum_cons, List.getElem_cons_zero]
      omega
    | succ k =>
      rw [List.set_cons_succ]
      simp only [List.map_cons, List.sum_cons, List.getElem_cons_succ]
      have := ih k (by simpa using hi) newRow
      omega

theorem emptyCount_setCell {b : Board} (hlen : b.grid.length = b.size)
    (hrows : ∀ row ∈ b.grid, row.length = b.size)
    {row col : Nat} (hr : row < b.size) (hc : col < b.size)
    (hempty : gridAt b (row, col) = none) (p : Player) (v : Nat) :
    emptyCount (setCell b row col p v) + 1 = emptyCount b := by
  have h1 : row < b.grid.length := by rw [hlen]; exact hr
  have hgrow : b.grid[row]? = some b.grid[row] := List.getElem?_eq_getElem h1
  have h2 : col < (b.grid[row]).length := by
    rw [hrows _ (List.getElem_mem h1)]
    exact hc
  have hcolnone : (b.grid[row])[col]? = some none := by
    have hga : gridAt b (row, col) = ((b.grid[row]?).bind fun r0 => r0[col]?).join := rfl
    rw [hga, hgrow, Option.some_bind] at hempty
    cases hcol : (b.grid[row])[col]? with
    | none =>
      rw [List.getElem?_eq_getElem h2] at hcol
      cases hcol
    | some c =>
      rw [hcol] at hempty
      cases c with
      | none => rfl
      | some cc =>
        cases hempty
  unfold emptyCount
  rw [setCell_grid, hgrow]
  simp only [Option.getD_some]
  have hsum := sum_map_set (fun rowl => (rowl.filter fun c => c.isNone).length) b.grid row h1
    ((b.grid[row]).set col (some (p, v)))
  have hcnt := countNone_set (b.grid[row]) col (p, v) hcolnone
  omega

theorem childBoard_eq {b : Board} {cur : Player} {m : Move} (hWF : b.WF)
    (hmem : m ∈ getValidMoves b cur) :
    childBoard b cur m = setCell b m.1 m.2.1 cur m.2.2 := by
  unfold childBoard
  rw [makeMove_of_mem hWF hmem]

theorem childBoard_WF {b : Board} {cur : Player} {m : Move} (hWF : b.WF)
    (hmem : m ∈ getValidMoves b cur) : (childBoard b cur m).WF := by
  rw [childBoard_eq hWF hmem]
  obtain ⟨hempty, hr, hc, _⟩ := validMoves_target hmem
  exact WF_setCell hWF hr hc hempty

theorem childBoard_empty {b : Board} {cur : Player} {m : Move} (hWF : b.WF)
    (hmem : m ∈ getValidMoves b cur) :
    emptyCount (childBoard b cur m) + 1 = emptyCount b := by
  rw [childBoard_eq hWF hmem]
  obtain ⟨hempty, hr, hc, _⟩ := validMoves_target hmem
  exact emptyCount_setCell hWF.1 hWF.2.1 hr hc hempty cur m.2.2

theorem opp_moves_nonempty {b : Board} {cur : Player}
    (hngo : ¬ (isGameOver b = true)) (hcur : getValidMoves b cur = []) :
    ¬ getValidMoves b cur.other = [] := by
  unfold isGameOver at hngo
  cases cur with
  | A =>
    intro hB
    have hB' : getValidMoves b Player.B = [] := hB
    apply hngo
    rw [hcur, hB']
    rfl
  | B =>
    intro hA
    have hA' : getValidMoves b Player.A = [] := hA
    apply hngo
    rw [hcur, hA']
    rfl

/-! ### Unfolding equations for the search -/

theorem abLoopMax_nil (rec : Board → Int → Ext → Ext → Player → Option (Ext × Option Move × Nat))
    (b : Board) (cur : Player) (d : Int) (beta : Ext) (p : Player)
    (me : Ext) (best : Option Move) (alpha : Ext) (nodes : Nat) :
    abLoopMax rec b cur d beta p [] me best alpha nodes = some (me, best, nodes) := rfl

theorem abLoopMax_cons_none
    (rec : Board → Int → Ext → Ext → Player → Option (Ext × Option Move × Nat))
    (b : Board) (cur : Player) (d : Int) (beta : Ext) (p : Player) (m : Move)
    (rest : List Move) (me : Ext) (best : Option Move) (alpha : Ext) (nodes : Nat)
    (hcall : rec (childBoard b cur m) (d - 1) alpha beta p = none) :
    abLoopMax rec b cur d beta p (m :: rest) me best alpha nodes = none := by
  rw [abLoopMax, hcall]

theorem abLoopMax_cons
    (rec : Board → Int → Ext → Ext → Player → Option (Ext × Option Move × Nat))
    (b : Board) (cur : Player) (d : Int) (beta : Ext) (p : Player) (m : Move)
    (rest : List Move) (me : Ext) (best : Option Move) (alpha : Ext) (nodes : Nat)
    {v : Ext} {mv : Option Move} {n : Nat}
    (hcall : rec (childBoard b cur m) (d - 1) alpha beta p = some (v, mv, n)) :
    abLoopMax rec b cur d beta p (m :: rest) me best alpha nodes =
      if beta ≤ emax alpha v then
        some ((if me < v then v else me), (if me < v then some m else best), nodes + n)
      else abLoopMax rec b cur d beta p rest (if me < v then v else me)
        (if me < v then some m else best) (emax alpha v) (nodes + n) := by
  rw [abLoopMax, hcall]

theorem abLoopMin_nil (rec : Board → Int → Ext → Ext → Player → Option (Ext × Option Move × Nat))
    (b : Board) (cur : Player) (d : Int) (alpha : Ext) (p : Player)
    (me : Ext) (best : Option Move) (beta : Ext) (nodes : Nat) :
    abLoopMin rec b cur d alpha p [] me best beta nodes = some (me, best, nodes) := rfl

theorem abLoopMin_cons_none
    (rec : Board → Int → Ext → Ext → Player → Option (Ext × Option Move × Nat))
    (b : Board) (cur : Player) (d : Int) (alpha : Ext) (p : Player) (m : Move)
    (rest : List Move) (me : Ext) (best : Option Move) (beta : Ext) (nodes : Nat)
    (hcall : rec (childBoard b cur m) (d - 1) alpha beta p = none) :
    abLoopMin rec b cur d alpha p (m :: rest) me best beta nodes = none := by
  rw [abLoopMin, hcall]

theorem abLoopMin_cons
    (rec : Board → Int → Ext → Ext → Player → Option (Ext × Option Move × Nat))
    (b : Board) (cur : Player) (d : Int) (alpha : Ext) (p : Player) (m : Move)
    (rest : List Move) (me : Ext) (best : Option Move) (beta : Ext) (nodes : Nat)
    {v : Ext} {mv : Option Move} {n : Nat}
    (hcall : rec (childBoard b cur m) (d - 1) alpha beta p = some (v, mv, n)) :
    abLoopMin rec b cur d alpha p (m :: rest) me best beta nodes =
      if emin beta v ≤ alpha then
        some ((if v < me then v else me), (if v < me then some m else best), nodes + n)
      else abLoopMin rec b cur d alpha p rest (if v < me then v else me)
        (if v < me then some m else best) (emin beta v) (nodes + n) := by
  rw [abLoopMin, hcall]

theorem abF_eq_term (f : Nat) (b : Board) (d : Int) (alpha beta : Ext) (maxing : Bool)
    (p : Player) (hterm : d = 0 ∨ isGameOver b = true) :
    abF (f + 1) b d alpha beta maxing p =
      some (.fin (evaluatePosition b p), none, 1) := by
  rw [abF, if_pos hterm]

theorem abF_eq_pass (f : Nat) (b : Board) (d : Int) (alpha beta : Ext) (maxing : Bool)
    (p : Player) (hterm : ¬ (d = 0 ∨ isGameOver b = true))
    (hmoves : getValidMoves b (if maxing then p else p.other) = []) :
    abF (f + 1) b d alpha beta maxing p =
      match abF f b (d - 1) alpha beta (!maxing) p with
      | none => none
      | some (v, mv, n) => some (v, mv, n + 1) := by
  rw [abF, if_neg hterm, if_pos hmoves]

theorem abF_eq_max (f : Nat) (b : Board) (d : Int) (alpha beta : Ext) (p : Player)
    (hterm : ¬ (d = 0 ∨ isGameOver b = true))
    (hmoves : ¬ getValidMoves b p = []) :
    abF (f + 1) b d alpha beta true p =
      match abLoopMax (fun b' d' a' b'' p' => abF f b' d' a' b'' false p')
          b p d beta p (getValidMoves b p) .ninf none alpha 0 with
      | none => none
      | some (v, mv, n) => some (v, mv, n + 1) := by
  rw [abF, if_neg hterm,
    if_neg (show ¬ getValidMoves b (if true then p else p.other) = [] from hmoves),
    if_pos (show (true : Bool) = true from rfl)]
  rfl

theorem abF_eq_min (f : Nat) (b : Board) (d : Int) (alpha beta : Ext) (p : Player)
    (hterm : ¬ (d = 0 ∨ isGameOver b = true))
    (hmoves : ¬ getValidMoves b p.other = []) :
    abF (f + 1) b d alpha beta false p =
      match abLoopMin (fun b' d' a' b'' p' => abF f b' d' a' b'' true p')
          b p.other d alpha p (getValidMoves b p.other) .pinf none beta 0 with
      | none => none
      | some (v, mv, n) => some (v, mv, n + 1) := by
  rw [abF, if_neg hterm,
    if_neg (show ¬ getValidMoves b (if false then p else p.other) = [] from hmoves),
    if_neg (show ¬ (false : Bool) = true from by simp)]
  rfl

theorem isSome_match_plus {X : Option (Ext × Option Move × Nat)} (h : X.isSome = true) :
    (match X with
      | none => none
      | some (v, mv, n) => some (v, mv, n + 1)).isSome = true := by
  cases X with
  | none => cases h
  | some res =>
    obtain ⟨v, mv, n⟩ := res
    rfl

/-! ### Termination of the search -/

theorem abLoopMax_some (rec : Board → Int → Ext → Ext → Player → Option (Ext × Option Move × Nat))
    (b : Board) (cur : Player) (d : Int) (beta : Ext) (p : Player) (ms : List Move)
    (hrec : ∀ m ∈ ms, ∀ a' b'', (rec (childBoard b cur m) (d - 1) a' b'' p).isSome = true) :
    ∀ me best alpha nodes, (abLoopMax rec b cur d beta p ms me best alpha nodes).isSome = true := by
  induction ms with
  | nil =>
    intro me best alpha nodes
    rfl
  | cons m rest ih =>
    intro me best alpha nodes
    have hres := hrec m (List.mem_cons_self _ _) alpha beta
    cases hcall : rec (childBoard b cur m) (d - 1) alpha beta p with
    | none =>
      rw [hcall] at hres
      cases hres
    | some res =>
      obtain ⟨v, mv, n⟩ := res
      rw [abLoopMax_cons rec b cur d beta p m rest me best alpha nodes hcall]
      by_cases hcut : beta ≤ emax alpha v
      · rw [if_pos hcut]
        rfl
      · rw [if_neg hcut]
        exact ih (fun m' hm' => hrec m' (List.mem_cons_of_mem _ hm')) _ _ _ _

theorem abLoopMin_some (rec : Board → Int → Ext → Ext → Player → Option (Ext × Option Move × Nat))
    (b : Board) (cur : Player) (d : Int) (alpha : Ext) (p : Player) (ms : List Move)
    (hrec : ∀ m ∈ ms, ∀ a' b'', (rec (childBoard b cur m) (d - 1) a' b'' p).isSome = true) :
    ∀ me best beta nodes, (abLoopMin rec b cur d alpha p ms me best beta nodes).isSome = true := by
  induction ms with
  | nil =>
    intro me best beta nodes
    rfl
  | cons m rest ih =>
    intro me best beta nodes
    have hres := hrec m (List.mem_cons_self _ _) alpha beta
    cases hcall : rec (childBoard b cur m) (d - 1) alpha beta p with
    | none =>
      rw [hcall] at hres
      cases hres
    | some res =>
      obtain ⟨v, mv, n⟩ := res
      rw [abLoopMin_cons rec b cur d alpha p m rest me best beta nodes hcall]
      by_cases hcut : emin beta v ≤ alpha
      · rw [if_pos hcut]
        rfl
      · rw [if_neg hcut]
        exact ih (fun m' hm' => hrec m' (List.mem_cons_of_mem _ hm')) _ _ _ _

theorem moveBit_le_one (b : Board) (cur : Player) : moveBit b cur ≤ 1 := by
  unfold moveBit
  by_cases hz : getValidMoves b cur = []
  · rw [if_pos hz]
  · rw [if_neg hz]
    omega

theorem abF_some : ∀ (f : Nat) (b : Board) (d : Int) (alpha beta : Ext) (maxing : Bool)
    (p : Player), b.WF →
    2 * emptyCount b + moveBit b (if maxing then p else p.other) < f →
    (abF f b d alpha beta maxing p).isSome = true := by
  intro f
  induction f with
  | zero =>
    intro b d alpha beta maxing p hWF hfuel
    cases hfuel
  | succ f ih =>
    intro b d alpha beta maxing p hWF hfuel
    by_cases hterm : d = 0 ∨ isGameOver b = true
    · rw [abF_eq_term f b d alpha beta maxing p hterm]
      rfl
    · have hngo : ¬ isGameOver b = true := fun hh => hterm (Or.inr hh)
      by_cases hmoves : getValidMoves b (if maxing then p else p.other) = []
      · rw [abF_eq_pass f b d alpha beta maxing p hterm hmoves]
        have hbit : moveBit b (if maxing then p else p.other) = 1 := by
          unfold moveBit
          rw [if_pos hmoves]
        have hopp : ¬ getValidMoves b (if maxing then p else p.other).other = [] :=
          opp_moves_nonempty hngo hmoves
        have hcur' : (if !maxing then p else p.other) = (if maxing then p else p.other).other := by
          cases maxing
          · cases p
            · rfl
            · rfl
          · cases p
            · rfl
            · rfl
        have hbit' : moveBit b (if !maxing then p else p.other) = 0 := by
          unfold moveBit
          rw [hcur']
          rw [if_neg hopp]
        exact isSome_match_plus (ih b (d - 1) alpha beta (!maxing) p hWF (by omega))
      · have hbit : moveBit b (if maxing then p else p.other) = 0 := by
          unfold moveBit
          rw [if_neg hmoves]
        have hchildren : ∀ m ∈ getValidMoves b (if maxing then p else p.other),
            ∀ (mx : Bool) (a' b'' : Ext),
            (abF f (childBoard b (if maxing then p else p.other) m) (d - 1) a' b'' mx p).isSome
              = true := by
          intro m hm mx a' b''
          have hcWF := childBoard_WF hWF hm
          have hce := childBoard_empty hWF hm
          have hb1 := moveBit_le_one (childBoard b (if maxing then p else p.other) m)
            (if mx then p else p.other)
          exact ih _ _ a' b'' mx p hcWF (by omega)
        cases maxing with
        | true =>
          rw [abF_eq_max f b d alpha beta p hterm hmoves]
          exact isSome_match_plus (abLoopMax_some _ b p d beta p (getValidMoves b p)
            (fun m hm a' b'' => hchildren m hm false a' b'') Ext.ninf none alpha 0)
        | false =>
          rw [abF_eq_min f b d alpha beta p hterm hmoves]
          exact isSome_match_plus (abLoopMin_some _ b p.other d alpha p (getValidMoves b p.other)
            (fun m hm a' b'' => hchildren m hm true a' b'') Ext.pinf none beta 0)

/-- C10: the `minimax` recursion terminates on every well-formed board,
for every integer depth (including depths ≤ 0) and every window: the fuel
`2 * emptyCount b + 2`, which depends only on the number of empty cells,
always suffices, because every recursive step either fills an empty cell
or passes the turn to a player who does have a move (and a positive depth
additionally shrinks at every step). -/
theorem minimax_terminates (b : Board) (d : Int) (alpha beta : Ext) (maxing : Bool)
    (p : Player) (hWF : b.WF) :
    (abF (2 * emptyCount b + 2) b d alpha beta maxing p).isSome = true := by
  apply abF_some _ b d alpha beta maxing p hWF
  have := moveBit_le_one b (if maxing then p else p.other)
  omega

/-- Witness for `minimax_terminates` at a concrete board and a negative
depth. -/
theorem minimax_terminates_witness :
    sampleBoard.WF ∧
    (abF (2 * emptyCount sampleBoard + 2) sampleBoard (-1) .ninf .pinf true .A).isSome
      = true :=
  ⟨by decide, minimax_terminates sampleBoard (-1) .ninf .pinf true .A (by decide)⟩

/-! ### More order algebra for extended scores -/

theorem Ext.not_lt_ninf (a : Ext) : ¬ a < Ext.ninf := by
  cases a <;> simp [Ext.lt_def, Ext.ble]

theorem Ext.not_pinf_lt (a : Ext) : ¬ Ext.pinf < a := by
  cases a <;> simp [Ext.lt_def, Ext.ble]

theorem emax_le_iff {a b c : Ext} : emax a b ≤ c ↔ a ≤ c ∧ b ≤ c :=
  ⟨fun h => ⟨Ext.le_trans (le_emax_left a b) h, Ext.le_trans (le_emax_right a b) h⟩,
   fun h => emax_le h.1 h.2⟩

theorem emax_assoc (a b c : Ext) : emax (emax a b) c = emax a (emax b c) := by
  apply Ext.le_antisymm
  · apply emax_le
    · apply emax_le
      · exact le_emax_left a (emax b c)
      · exact Ext.le_trans (le_emax_left b c) (le_emax_right a _)
    · exact Ext.le_trans (le_emax_right b c) (le_emax_right a _)
  · apply emax_le
    · exact Ext.le_trans (le_emax_left a b) (le_emax_left _ c)
    · apply emax_le
      · exact Ext.le_trans (le_emax_right a b) (le_emax_left _ c)
      · exact le_emax_right _ c

theorem emax_ninf (a : Ext) : emax Ext.ninf a = a :=
  emax_eq_right (Ext.ninf_le a)

theorem emin_le_iff {a b c : Ext} : c ≤ emin a b ↔ c ≤ a ∧ c ≤ b :=
  ⟨fun h => ⟨Ext.le_trans h (emin_le_left a b), Ext.le_trans h (emin_le_right a b)⟩,
   fun h => le_emin h.1 h.2⟩

theorem emin_assoc (a b c : Ext) : emin (emin a b) c = emin a (emin b c) := by
  apply Ext.le_antisymm
  · apply le_emin
    · exact Ext.le_trans (emin_le_left _ c) (emin_le_left a b)
    · apply le_emin
      · exact Ext.le_trans (emin_le_left _ c) (emin_le_right a b)
      · exact emin_le_right _ c
  · apply le_emin
    · apply le_emin
      · exact emin_le_left a (emin b c)
      · exact Ext.le_trans (emin_le_right a _) (emin_le_left b c)
    · exact Ext.le_trans (emin_le_right a _) (emin_le_right b c)

theorem emin_pinf (a : Ext) : emin Ext.pinf a = a :=
  emin_eq_right (Ext.le_pinf a)

theorem foldl_emax_init (vt : Move → Ext) :
    ∀ (ms : List Move) (a : Ext),
      ms.foldl (fun x m => emax x (vt m)) a =
        emax a (ms.foldl (fun x m => emax x (vt m)) Ext.ninf) := by
  intro ms
  induction ms with
  | nil =>
    intro a
    exact (emax_eq_left (Ext.ninf_le a)).symm
  | cons m rest ih =>
    intro a
    rw [List.foldl_cons, List.foldl_cons, ih (emax a (vt m)), ih (emax Ext.ninf (vt m)),
      emax_ninf, emax_assoc]

theorem foldl_emin_init (vt : Move → Ext) :
    ∀ (ms : List Move) (a : Ext),
      ms.foldl (fun x m => emin x (vt m)) a =
        emin a (ms.foldl (fun x m => emin x (vt m)) Ext.pinf) := by
  intro ms
  induction ms with
  | nil =>
    intro a
    exact (emin_eq_left (Ext.le_pinf a)).symm
  | cons m rest ih =>
    intro a
    rw [List.foldl_cons, List.foldl_cons, ih (emin a (vt m)), ih (emin Ext.pinf (vt m)),
      emin_pinf, emin_assoc]

theorem foldl_emax_fin (vt : Move → Ext) :
    ∀ (ms : List Move), (∀ m ∈ ms, ∃ z : Int, vt m = .fin z) → ¬ ms = [] →
      ∃ z : Int, ms.foldl (fun x m => emax x (vt m)) Ext.ninf = .fin z := by
  have haux : ∀ (ms : List Move), (∀ m ∈ ms, ∃ z : Int, vt m = .fin z) →
      ∀ (z0 : Int), ∃ z : Int, ms.foldl (fun x m => emax x (vt m)) (.fin z0) = .fin z := by
    intro ms
    induction ms with
    | nil =>
      intro hfin z0
      exact ⟨z0, rfl⟩
    | cons m rest ih =>
      intro hfin z0
      obtain ⟨zm, hzm⟩ := hfin m (List.mem_cons_self _ _)
      rw [List.foldl_cons, hzm]
      rcases emax_eq_or (Ext.fin z0) (Ext.fin zm) with he | he
      · rw [he]
        exact ih (fun m' hm' => hfin m' (List.mem_cons_of_mem _ hm')) z0
      · rw [he]
        exact ih (fun m' hm' => hfin m' (List.mem_cons_of_mem _ hm')) zm
  intro ms hfin hne
  cases ms with
  | nil => exact absurd rfl hne
  | cons m rest =>
    obtain ⟨zm, hzm⟩ := hfin m (List.mem_cons_self _ _)
    rw [List.foldl_cons, hzm, emax_ninf]
    exact haux rest (fun m' hm' => hfin m' (List.mem_cons_of_mem _ hm')) zm

theorem foldl_emin_fin (vt : Move → Ext) :
    ∀ (ms : List Move), (∀ m ∈ ms, ∃ z : Int, vt m = .fin z) → ¬ ms = [] →
      ∃ z : Int, ms.foldl (fun x m => emin x (vt m)) Ext.pinf = .fin z := by
  have haux : ∀ (ms : List Move), (∀ m ∈ ms, ∃ z : Int, vt m = .fin z) →
      ∀ (z0 : Int), ∃ z : Int, ms.foldl (fun x m => emin x (vt m)) (.fin z0) = .fin z := by
    intro ms
    induction ms with
    | nil =>
      intro hfin z0
      exact ⟨z0, rfl⟩
    | cons m rest ih =>
      intro hfin z0
      obtain ⟨zm, hzm⟩ := hfin m (List.mem_cons_self _ _)
      rw [List.foldl_cons, hzm]
      rcases emin_eq_or (Ext.fin z0) (Ext.fin zm) with he | he
      · rw [he]
        exact ih (fun m' hm' => hfin m' (List.mem_cons_of_mem _ hm')) z0
      · rw [he]
        exact ih (fun m' hm' => hfin m' (List.mem_cons_of_mem _ hm')) zm
  intro ms hfin hne
  cases ms with
  | nil => exact absurd rfl hne
  | cons m rest =>
    obtain ⟨zm, hzm⟩ := hfin m (List.mem_cons_self _ _)
    rw [List.foldl_cons, hzm, emin_pinf]
    exact haux rest (fun m' hm' => hfin m' (List.mem_cons_of_mem _ hm')) zm

/-! ### Unfolding equations for the exhaustive reference search -/

theorem exhaustiveF_eq_term (f : Nat) (b : Board) (d : Int) (maxing : Bool) (p : Player)
    (hterm : d = 0 ∨ isGameOver b = true) :
    exhaustiveF (f + 1) b d maxing p = some (.fin (evaluatePosition b p)) := by
  rw [exhaustiveF, if_pos hterm]

theorem exhaustiveF_eq_pass (f : Nat) (b : Board) (d : Int) (maxing : Bool) (p : Player)
    (hterm : ¬ (d = 0 ∨ isGameOver b = true))
    (hmoves : getValidMoves b (if maxing then p else p.other) = []) :
    exhaustiveF (f + 1) b d maxing p = exhaustiveF f b (d - 1) (!maxing) p := by
  rw [exhaustiveF, if_neg hterm, if_pos hmoves]

theorem exhaustiveF_eq_max (f : Nat) (b : Board) (d : Int) (p : Player)
    (hterm : ¬ (d = 0 ∨ isGameOver b = true))
    (hmoves : ¬ getValidMoves b p = []) :
    exhaustiveF (f + 1) b d true p =
      (getValidMoves b p).foldl
        (fun acc m => do
          let a ← acc
          let v ← exhaustiveF f (childBoard b p m) (d - 1) false p
          pure (emax a v))
        (some Ext.ninf) := by
  rw [exhaustiveF, if_neg hterm,
    if_neg (show ¬ getValidMoves b (if true then p else p.other) = [] from hmoves)]
  rfl

theorem exhaustiveF_eq_min (f : Nat) (b : Board) (d : Int) (p : Player)
    (hterm : ¬ (d = 0 ∨ isGameOver b = true))
    (hmoves : ¬ getValidMoves b p.other = []) :
    exhaustiveF (f + 1) b d false p =
      (getValidMoves b p.other).foldl
        (fun acc m => do
          let a ← acc
          let v ← exhaustiveF f (childBoard b p.other m) (d - 1) true p
          pure (emin a v))
        (some Ext.pinf) := by
  rw [exhaustiveF, if_neg hterm,
    if_neg (show ¬ getValidMoves b (if false then p else p.other) = [] from hmoves)]
  rfl

theorem plainFold_eq (op : Ext → Ext → Ext) (g : Move → Option Ext) :
    ∀ (ms : List Move), (∀ m ∈ ms, (g m).isSome = true) →
      ∀ (a : Ext),
        ms.foldl (fun acc m => do
          let a0 ← acc
          let v ← g m
          pure (op a0 v)) (some a) =
        some (ms.foldl (fun a0 m => op a0 ((g m).getD Ext.ninf)) a) := by
  intro ms
  induction ms with
  | nil =>
    intro hg a
    rfl
  | cons m rest ih =>
    intro hg a
    rw [List.foldl_cons, List.foldl_cons]
    cases hgm : g m with
    | none =>
      have := hg m (List.mem_cons_self _ _)
      rw [hgm] at this
      cases this
    | some v =>
      exact ih (fun m' hm' => hg m' (List.mem_cons_of_mem _ hm')) (op a v)

/-! ### The exhaustive search returns a finite score -/

theorem plain_some : ∀ (f : Nat) (b : Board) (d : Int) (maxing : Bool) (p : Player),
    b.WF → 2 * emptyCount b + moveBit b (if maxing then p else p.other) < f →
    ∃ t : Int, exhaustiveF f b d maxing p = some (.fin t) := by
  intro f
  induction f with
  | zero =>
    intro b d maxing p hWF hfuel
    cases hfuel
  | succ f ih =>
    intro b d maxing p hWF hfuel
    by_cases hterm : d = 0 ∨ isGameOver b = true
    · exact ⟨evaluatePosition b p, exhaustiveF_eq_term f b d maxing p hterm⟩
    · have hngo : ¬ isGameOver b = true := fun hh => hterm (Or.inr hh)
      by_cases hmoves : getValidMoves b (if maxing then p else p.other) = []
      · rw [exhaustiveF_eq_pass f b d maxing p hterm hmoves]
        have hbit : moveBit b (if maxing then p else p.other) = 1 := by
          unfold moveBit
          rw [if_pos hmoves]
        have hopp : ¬ getValidMoves b (if maxing then p else p.other).other = [] :=
          opp_moves_nonempty hngo hmoves
        have hcur' : (if !maxing then p else p.other) = (if maxing then p else p.other).other := by
          cases maxing
          · cases p
            · rfl
            · rfl
          · cases p
            · rfl
            · rfl
        have hbit' : moveBit b (if !maxing then p else p.other) = 0 := by
          unfold moveBit
          rw [hcur', if_neg hopp]
        exact ih b (d - 1) (!maxing) p hWF (by omega)
      · have hbit : moveBit b (if maxing then p else p.other) = 0 := by
          unfold moveBit
          rw [if_neg hmoves]
        have hchildren : ∀ m ∈ getValidMoves b (if maxing then p else p.other),
            ∃ t : Int, exhaustiveF f (childBoard b (if maxing then p else p.other) m)
              (d - 1) (!maxing) p = some (.fin t) := by
          intro m hm
          have hcWF := childBoard_WF hWF hm
          have hce := childBoard_empty hWF hm
          have hb1 := moveBit_le_one (childBoard b (if maxing then p else p.other) m)
            (if !maxing then p else p.other)
          exact ih _ _ (!maxing) p hcWF (by omega)
        cases maxing with
        | true =>
          have hsome : ∀ m ∈ getValidMoves b p,
              (exhaustiveF f (childBoard b p m) (d - 1) false p).isSome = true := by
            intro m hm
            obtain ⟨t, ht⟩ := hchildren m hm
            have ht' : exhaustiveF f (childBoard b p m) (d - 1) false p = some (.fin t) := ht
            rw [ht']
            rfl
          have hfin : ∀ m ∈ getValidMoves b p,
              ∃ z : Int, (exhaustiveF f (childBoard b p m) (d - 1) false p).getD Ext.ninf
                = .fin z := by
            intro m hm
            obtain ⟨t, ht⟩ := hchildren m hm
            have ht' : exhaustiveF f (childBoard b p m) (d - 1) false p = some (.fin t) := ht
            exact ⟨t, by rw [ht']; rfl⟩
          obtain ⟨z, hz⟩ := foldl_emax_fin
            (fun m => (exhaustiveF f (childBoard b p m) (d - 1) false p).getD Ext.ninf)
            (getValidMoves b p) hfin hmoves
          refine ⟨z, ?_⟩
          rw [exhaustiveF_eq_max f b d p hterm hmoves]
          exact (plainFold_eq emax
            (fun m => exhaustiveF f (childBoard b p m) (d - 1) false p)
            (getValidMoves b p) hsome Ext.ninf).trans (congrArg some hz)
        | false =>
          have hsome : ∀ m ∈ getValidMoves b p.other,
              (exhaustiveF f (childBoard b p.other m) (d - 1) true p).isSome = true := by
            intro m hm
            obtain ⟨t, ht⟩ := hchildren m hm
            have ht' : exhaustiveF f (childBoard b p.other m) (d - 1) true p = some (.fin t) := ht
            rw [ht']
            rfl
          have hfin : ∀ m ∈ getValidMoves b p.other,
              ∃ z : Int, (exhaustiveF f (childBoard b p.other m) (d - 1) true p).getD Ext.ninf
                = .fin z := by
            intro m hm
            obtain ⟨t, ht⟩ := hchildren m hm
            have ht' : exhaustiveF f (childBoard b p.other m) (d - 1) true p = some (.fin t) := ht
            exact ⟨t, by rw [ht']; rfl⟩
          obtain ⟨z, hz⟩ := foldl_emin_fin
            (fun m => (exhaustiveF f (childBoard b p.other m) (d - 1) true p).getD Ext.ninf)
            (getValidMoves b p.other) hfin hmoves
          refine ⟨z, ?_⟩
          rw [exhaustiveF_eq_min f b d p hterm hmoves]
          exact (plainFold_eq emin
            (fun m => exhaustiveF f (childBoard b p.other m) (d - 1) true p)
            (getValidMoves b p.other) hsome Ext.pinf).trans (congrArg some hz)

/-! ### Loop-level value bands for the pruned search -/

theorem updMax_eq_emax (me v : Ext) : (if me < v then v else me) = emax me v := by
  by_cases h : me < v
  · rw [if_pos h, emax_eq_right (Ext.le_of_lt h)]
  · rw [if_neg h, emax_eq_left (Ext.not_lt.mp h)]

theorem updMin_eq_emin (me v : Ext) : (if v < me then v else me) = emin me v := by
  by_cases h : v < me
  · rw [if_pos h, emin_eq_right (Ext.le_of_lt h)]
  · rw [if_neg h, emin_eq_left (Ext.not_lt.mp h)]

theorem foldMaxVal_nil (vt : Move → Ext) : foldMaxVal vt [] = .ninf := rfl

theorem foldMaxVal_cons (vt : Move → Ext) (m : Move) (ms : List Move) :
    foldMaxVal vt (m :: ms) = emax (vt m) (foldMaxVal vt ms) := by
  unfold foldMaxVal
  rw [List.foldl_cons, foldl_emax_init vt ms (emax Ext.ninf (vt m)), emax_ninf]

theorem foldMinVal_nil (vt : Move → Ext) : foldMinVal vt [] = .pinf := rfl

theorem foldMinVal_cons (vt : Move → Ext) (m : Move) (ms : List Move) :
    foldMinVal vt (m :: ms) = emin (vt m) (foldMinVal vt ms) := by
  unfold foldMinVal
  rw [List.foldl_cons, foldl_emin_init vt ms (emin Ext.pinf (vt m)), emin_pinf]

theorem ab_loop_max_bands (f : Nat) (b : Board) (d : Int) (beta : Ext) (p : Player)
    (vt : Move → Ext) :
    ∀ (ms : List Move),
      (∀ m ∈ ms, ∃ tm : Int, vt m = .fin tm ∧
        ∀ a' b'' : Ext, a' < b'' → ∃ (v : Ext) (mv : Option Move) (n : Nat),
          abF f (childBoard b p m) (d - 1) a' b'' false p = some (v, mv, n) ∧
          (a' < .fin tm → .fin tm < b'' → v = .fin tm) ∧
          (.fin tm ≤ a' → .fin tm ≤ v ∧ v ≤ a') ∧
          (b'' ≤ .fin tm → b'' ≤ v ∧ v ≤ .fin tm)) →
      ∀ (me : Ext) (best : Option Move) (alpha : Ext) (n0 : Nat),
        me ≤ alpha → alpha < beta →
        ∃ (v : Ext) (bv : Option Move) (n : Nat),
          abLoopMax (fun b' d' a' b'' p' => abF f b' d' a' b'' false p') b p d beta p
            ms me best alpha n0 = some (v, bv, n) ∧
          me ≤ v ∧
          (foldMaxVal vt ms ≤ alpha → foldMaxVal vt ms ≤ v ∧ v ≤ alpha) ∧
          (alpha < foldMaxVal vt ms → foldMaxVal vt ms < beta → v = foldMaxVal vt ms) ∧
          (beta ≤ foldMaxVal vt ms → beta ≤ v ∧ v ≤ emax me (foldMaxVal vt ms)) ∧
          (beta = .pinf → me = alpha →
            v = emax me (foldMaxVal vt ms) ∧ bv = pickFirstBest vt ms best me) := by
  intro ms
  induction ms with
  | nil =>
    intro hchild me best alpha n0 hmea hab
    refine ⟨me, best, n0, rfl, Ext.le_refl me, ?_, ?_, ?_, ?_⟩
    · intro h
      exact ⟨Ext.ninf_le me, hmea⟩
    · intro h1 h2
      exact absurd h1 (Ext.not_lt_ninf alpha)
    · intro h
      exact absurd (Ext.lt_of_lt_of_le hab h) (Ext.not_lt_ninf alpha)
    · intro hpinf hmeq
      exact ⟨(emax_eq_left (Ext.ninf_le me)).symm, rfl⟩
  | cons m rest ih =>
    intro hchild me best alpha n0 hmea hab
    obtain ⟨tm, hvtm, hband⟩ := hchild m (List.mem_cons_self _ _)
    obtain ⟨v₁, mv₁, n₁, hcall, hb1, hb2, hb3⟩ := hband alpha beta hab
    have hloop := abLoopMax_cons (fun b' d' a' b'' p' => abF f b' d' a' b'' false p')
      b p d beta p m rest me best alpha n0 hcall
    rw [foldMaxVal_cons, hvtm]
    have hchildrest := fun m' hm' => hchild m' (List.mem_cons_of_mem _ hm')
    by_cases hc3 : beta ≤ Ext.fin tm
    · obtain ⟨hv₁β, hv₁tm⟩ := hb3 hc3
      have hcut : beta ≤ emax alpha v₁ := Ext.le_trans hv₁β (le_emax_right alpha v₁)
      refine ⟨emax me v₁, (if me < v₁ then some m else best), n0 + n₁, ?_, le_emax_left me v₁,
        ?_, ?_, ?_, ?_⟩
      · rw [hloop, if_pos hcut, updMax_eq_emax]
      · intro h
        have hba : beta ≤ alpha :=
          Ext.le_trans hc3 (Ext.le_trans (le_emax_left _ _) h)
        exact absurd hba (Ext.not_le.mpr hab)
      · intro h1 h2
        exact absurd h2 (Ext.not_lt.mpr (Ext.le_trans hc3 (le_emax_left _ _)))
      · intro h
        refine ⟨Ext.le_trans hv₁β (le_emax_right me v₁), ?_⟩
        apply emax_le
        · exact le_emax_left me _
        · exact Ext.le_trans hv₁tm
            (Ext.le_trans (le_emax_left (Ext.fin tm) _) (le_emax_right me _))
      · intro hpinf hmeq
        rw [hpinf] at hc3
        exact absurd hc3 (Ext.not_pinf_le_fin tm)
    · by_cases hc1 : Ext.fin tm ≤ alpha
      · obtain ⟨htmv₁, hv₁α⟩ := hb2 hc1
        have hnocut : ¬ beta ≤ emax alpha v₁ := by
          rw [emax_eq_left hv₁α]
          exact Ext.not_le.mpr hab
        rw [hloop, if_neg hnocut, updMax_eq_emax, emax_eq_left hv₁α]
        obtain ⟨v, bv, n, hrec, hmev, hC2, hC3, hC4, hC5⟩ :=
          ih hchildrest (emax me v₁) (if me < v₁ then some m else best) alpha (n0 + n₁)
            (emax_le hmea hv₁α) hab
        refine ⟨v, bv, n, hrec, Ext.le_trans (le_emax_left me v₁) hmev, ?_, ?_, ?_, ?_⟩
        · intro h
          rw [emax_le_iff] at h
          obtain ⟨hTrv, hvα⟩ := hC2 h.2
          refine ⟨emax_le ?_ hTrv, hvα⟩
          exact Ext.le_trans htmv₁ (Ext.le_trans (le_emax_right me v₁) hmev)
        · intro h1 h2
          have hT : emax (Ext.fin tm) (foldMaxVal vt rest) = foldMaxVal vt rest := by
            rcases emax_eq_or (Ext.fin tm) (foldMaxVal vt rest) with he | he
            · rw [he] at h1
              exact absurd h1 (Ext.not_lt.mpr hc1)
            · exact he
          rw [hT] at h1 h2 ⊢
          exact hC3 h1 h2
        · intro h
          have hT : emax (Ext.fin tm) (foldMaxVal vt rest) = foldMaxVal vt rest := by
            rcases emax_eq_or (Ext.fin tm) (foldMaxVal vt rest) with he | he
            · rw [he] at h
              exact absurd h hc3
            · exact he
          rw [hT] at h ⊢
          obtain ⟨hβv, hvB⟩ := hC4 h
          refine ⟨hβv, Ext.le_trans hvB ?_⟩
          apply emax_le
          · apply emax_le
            · exact le_emax_left me _
            · exact Ext.le_trans hv₁α (Ext.le_trans (Ext.le_of_lt hab)
                (Ext.le_trans h (le_emax_right me _)))
          · exact le_emax_right me _
        · intro hpinf hmeq
          have hv₁me : v₁ ≤ me := by
            rw [hmeq]
            exact hv₁α
          have hme' : emax me v₁ = me := emax_eq_left hv₁me
          have hbest' : (if me < v₁ then some m else best) = best :=
            if_neg (Ext.not_lt.mpr hv₁me)
          obtain ⟨hveq, hbv⟩ := hC5 hpinf (by rw [hme']; exact hmeq)
          constructor
          · rw [hveq, hme', ← emax_assoc,
              emax_eq_left (Ext.le_trans htmv₁ hv₁me)]
          · rw [hbv, hbest', hme']
            rw [pickFirstBest, hvtm,
              if_neg (Ext.not_lt.mpr (Ext.le_trans htmv₁ hv₁me))]
      · have hαtm : alpha < Ext.fin tm := Ext.not_le.mp hc1
        have htmβ : Ext.fin tm < beta := Ext.not_le.mp hc3
        have hv₁eq : v₁ = Ext.fin tm := hb1 hαtm htmβ
        subst hv₁eq
        have hupd : me < Ext.fin tm := Ext.lt_of_le_of_lt hmea hαtm
        have hnocut : ¬ beta ≤ emax alpha (Ext.fin tm) := by
          rw [emax_eq_right (Ext.le_of_lt hαtm)]
          exact Ext.not_le.mpr htmβ
        rw [hloop, if_neg hnocut, if_pos hupd, if_pos hupd,
          emax_eq_right (Ext.le_of_lt hαtm)]
        obtain ⟨v, bv, n, hrec, hmev, hC2, hC3, hC4, hC5⟩ :=
          ih hchildrest (Ext.fin tm) (some m) (Ext.fin tm) (n0 + n₁)
            (Ext.le_refl _) htmβ
        refine ⟨v, bv, n, hrec, Ext.le_trans (Ext.le_of_lt hupd) hmev, ?_, ?_, ?_, ?_⟩
        · intro h
          rw [emax_le_iff] at h
          exact absurd h.1 (Ext.not_le.mpr hαtm)
        · intro h1 h2
          by_cases hTr : foldMaxVal vt rest ≤ Ext.fin tm
          · rw [emax_eq_left hTr]
            obtain ⟨hTrv, hvtm'⟩ := hC2 hTr
            exact Ext.le_antisymm hvtm' hmev
          · have hlt : Ext.fin tm < foldMaxVal vt rest := Ext.not_le.mp hTr
            have hT : emax (Ext.fin tm) (foldMaxVal vt rest) = foldMaxVal vt rest :=
              emax_eq_right (Ext.le_of_lt hlt)
            rw [hT] at h1 h2 ⊢
            exact hC3 hlt h2
        · intro h
          have hT : emax (Ext.fin tm) (foldMaxVal vt rest) = foldMaxVal vt rest := by
            rcases emax_eq_or (Ext.fin tm) (foldMaxVal vt rest) with he | he
            · rw [he] at h
              exact absurd h hc3
            · exact he
          rw [hT] at h ⊢
          obtain ⟨hβv, hvB⟩ := hC4 h
          refine ⟨hβv, ?_⟩
          have h1 : emax (Ext.fin tm) (foldMaxVal vt rest) = foldMaxVal vt rest :=
            emax_eq_right (Ext.le_of_lt (Ext.lt_of_lt_of_le htmβ h))
          have h2 : emax me (foldMaxVal vt rest) = foldMaxVal vt rest :=
            emax_eq_right (Ext.le_of_lt
              (Ext.lt_of_le_of_lt hmea (Ext.lt_of_lt_of_le hab h)))
          rw [h2]
          rw [h1] at hvB
          exact hvB
        · intro hpinf hmeq
          obtain ⟨hveq, hbv⟩ := hC5 hpinf rfl
          constructor
          · rw [hveq]
            exact (emax_eq_right (Ext.le_trans (Ext.le_of_lt hupd)
              (le_emax_left (Ext.fin tm) _))).symm
          · rw [hbv]
            show pickFirstBest vt rest (some m) (Ext.fin tm) =
              pickFirstBest vt (m :: rest) best me
            rw [pickFirstBest, hvtm, if_pos hupd]

theorem ab_loop_min_bands (f : Nat) (b : Board) (d : Int) (alpha : Ext) (cur p : Player)
    (vt : Move → Ext) :
    ∀ (ms : List Move),
      (∀ m ∈ ms, ∃ tm : Int, vt m = .fin tm ∧
        ∀ a' b'' : Ext, a' < b'' → ∃ (v : Ext) (mv : Option Move) (n : Nat),
          abF f (childBoard b cur m) (d - 1) a' b'' true p = some (v, mv, n) ∧
          (a' < .fin tm → .fin tm < b'' → v = .fin tm) ∧
          (.fin tm ≤ a' → .fin tm ≤ v ∧ v ≤ a') ∧
          (b'' ≤ .fin tm → b'' ≤ v ∧ v ≤ .fin tm)) →
      ∀ (me : Ext) (best : Option Move) (beta : Ext) (n0 : Nat),
        beta ≤ me → alpha < beta →
        ∃ (v : Ext) (bv : Option Move) (n : Nat),
          abLoopMin (fun b' d' a' b'' p' => abF f b' d' a' b'' true p') b cur d alpha p
            ms me best beta n0 = some (v, bv, n) ∧
          v ≤ me ∧
          (beta ≤ foldMinVal vt ms → beta ≤ v ∧ v ≤ foldMinVal vt ms) ∧
          (alpha < foldMinVal vt ms → foldMinVal vt ms < beta → v = foldMinVal vt ms) ∧
          (foldMinVal vt ms ≤ alpha → emin me (foldMinVal vt ms) ≤ v ∧ v ≤ alpha) := by
  intro ms
  induction ms with
  | nil =>
    intro hchild me best beta n0 hbme hab
    refine ⟨me, best, n0, rfl, Ext.le_refl me, ?_, ?_, ?_⟩
    · intro h
      exact ⟨hbme, Ext.le_pinf me⟩
    · intro h1 h2
      exact absurd h2 (Ext.not_pinf_lt beta)
    · intro h
      exact absurd (Ext.lt_of_le_of_lt h hab) (Ext.not_pinf_lt beta)
  | cons m rest ih =>
    intro hchild me best beta n0 hbme hab
    obtain ⟨tm, hvtm, hband⟩ := hchild m (List.mem_cons_self _ _)
    obtain ⟨v₁, mv₁, n₁, hcall, hb1, hb2, hb3⟩ := hband alpha beta hab
    have hloop := abLoopMin_cons (fun b' d' a' b'' p' => abF f b' d' a' b'' true p')
      b cur d alpha p m rest me best beta n0 hcall
    rw [foldMinVal_cons, hvtm]
    have hchildrest := fun m' hm' => hchild m' (List.mem_cons_of_mem _ hm')
    by_cases hc1 : Ext.fin tm ≤ alpha
    · obtain ⟨htmv₁, hv₁α⟩ := hb2 hc1
      have hcut : emin beta v₁ ≤ alpha := Ext.le_trans (emin_le_right beta v₁) hv₁α
      refine ⟨emin me v₁, (if v₁ < me then some m else best), n0 + n₁, ?_,
        emin_le_left me v₁, ?_, ?_, ?_⟩
      · rw [hloop, if_pos hcut, updMin_eq_emin]
      · intro h
        have hba : beta ≤ alpha :=
          Ext.le_trans (Ext.le_trans h (emin_le_left _ _)) hc1
        exact absurd hba (Ext.not_le.mpr hab)
      · intro h1 h2
        exact absurd (Ext.lt_of_lt_of_le h1 (emin_le_left _ _)) (Ext.not_lt.mpr hc1)
      · intro h
        refine ⟨?_, Ext.le_trans (emin_le_right me v₁) hv₁α⟩
        apply le_emin
        · exact emin_le_left me _
        · exact Ext.le_trans (Ext.le_trans (emin_le_right me _)
            (emin_le_left (Ext.fin tm) _)) htmv₁
    · by_cases hc3 : beta ≤ Ext.fin tm
      · obtain ⟨hβv₁, hv₁tm⟩ := hb3 hc3
        have hnocut : ¬ emin beta v₁ ≤ alpha := by
          rw [emin_eq_left hβv₁]
          exact Ext.not_le.mpr hab
        rw [hloop, if_neg hnocut, updMin_eq_emin, emin_eq_left hβv₁]
        obtain ⟨v, bv, n, hrec, hmev, hC2, hC3, hC4⟩ :=
          ih hchildrest (emin me v₁) (if v₁ < me then some m else best) beta (n0 + n₁)
            (le_emin hbme hβv₁) hab
        refine ⟨v, bv, n, hrec, Ext.le_trans hmev (emin_le_left me v₁), ?_, ?_, ?_⟩
        · intro h
          rw [emin_le_iff] at h
          obtain ⟨hβv, hvTr⟩ := hC2 h.2
          refine ⟨hβv, le_emin ?_ hvTr⟩
          exact Ext.le_trans hmev (Ext.le_trans (emin_le_right me v₁) hv₁tm)
        · intro h1 h2
          have hT : emin (Ext.fin tm) (foldMinVal vt rest) = foldMinVal vt rest := by
            rcases emin_eq_or (Ext.fin tm) (foldMinVal vt rest) with he | he
            · rw [he] at h2
              exact absurd h2 (Ext.not_lt.mpr hc3)
            · exact he
          rw [hT] at h1 h2 ⊢
          exact hC3 h1 h2
        · intro h
          have hT : emin (Ext.fin tm) (foldMinVal vt rest) = foldMinVal vt rest := by
            rcases emin_eq_or (Ext.fin tm) (foldMinVal vt rest) with he | he
            · rw [he] at h
              exact absurd (Ext.le_trans hc3 h) (Ext.not_le.mpr hab)
            · exact he
          rw [hT] at h ⊢
          obtain ⟨hlow, hvα⟩ := hC4 h
          refine ⟨Ext.le_trans ?_ hlow, hvα⟩
          apply le_emin
          · apply le_emin
            · exact emin_le_left me _
            · exact Ext.le_trans (emin_le_right me _)
                (Ext.le_trans h (Ext.le_trans (Ext.le_of_lt hab) hβv₁))
          · exact emin_le_right me _
      · have hαtm : alpha < Ext.fin tm := Ext.not_le.mp hc1
        have htmβ : Ext.fin tm < beta := Ext.not_le.mp hc3
        have hv₁eq : v₁ = Ext.fin tm := hb1 hαtm htmβ
        subst hv₁eq
        have hupd : Ext.fin tm < me := Ext.lt_of_lt_of_le htmβ hbme
        have hnocut : ¬ emin beta (Ext.fin tm) ≤ alpha := by
          rw [emin_eq_right (Ext.le_of_lt htmβ)]
          exact hc1
        rw [hloop, if_neg hnocut, if_pos hupd, if_pos hupd,
          emin_eq_right (Ext.le_of_lt htmβ)]
        obtain ⟨v, bv, n, hrec, hmev, hC2, hC3, hC4⟩ :=
          ih hchildrest (Ext.fin tm) (some m) (Ext.fin tm) (n0 + n₁)
            (Ext.le_refl _) hαtm
        refine ⟨v, bv, n, hrec, Ext.le_trans hmev (Ext.le_of_lt hupd), ?_, ?_, ?_⟩
        · intro h
          rw [emin_le_iff] at h
          exact absurd h.1 hc3
        · intro h1 h2
          by_cases hTr : Ext.fin tm ≤ foldMinVal vt rest
          · rw [emin_eq_left hTr]
            obtain ⟨htmv, hvTr⟩ := hC2 hTr
            exact Ext.le_antisymm hmev htmv
          · have hlt : foldMinVal vt rest < Ext.fin tm := Ext.not_le.mp hTr
            have hT : emin (Ext.fin tm) (foldMinVal vt rest) = foldMinVal vt rest :=
              emin_eq_right (Ext.le_of_lt hlt)
            rw [hT] at h1 h2 ⊢
            exact hC3 h1 hlt
        · intro h
          have hT : emin (Ext.fin tm) (foldMinVal vt rest) = foldMinVal vt rest := by
            rcases emin_eq_or (Ext.fin tm) (foldMinVal vt rest) with he | he
            · rw [he] at h
              exact absurd h hc1
            · exact he
          rw [hT] at h ⊢
          obtain ⟨hlow, hvα⟩ := hC4 h
          refine ⟨Ext.le_trans ?_ hlow, hvα⟩
          apply le_emin
          · exact Ext.le_trans (emin_le_right me _)
              (Ext.le_trans h (Ext.le_of_lt hαtm))
          · exact emin_le_right me _

/-! ### Fuel monotonicity of the exhaustive search -/

theorem foldl_step_none (op : Ext → Ext → Ext) (g : Move → Option Ext) :
    ∀ (ms : List Move),
      ms.foldl (fun acc m => do
        let a0 ← acc
        let v ← g m
        pure (op a0 v)) none = none := by
  intro ms
  induction ms with
  | nil => rfl
  | cons m rest ih =>
    rw [List.foldl_cons]
    exact ih

theorem foldl_step_mono (op : Ext → Ext → Ext) (g g' : Move → Option Ext)
    (hgg : ∀ m (w : Ext), g m = some w → g' m = some w) :
    ∀ (ms : List Move) (a : Ext) (v : Ext),
      ms.foldl (fun acc m => do
        let a0 ← acc
        let v0 ← g m
        pure (op a0 v0)) (some a) = some v →
      ms.foldl (fun acc m => do
        let a0 ← acc
        let v0 ← g' m
        pure (op a0 v0)) (some a) = some v := by
  intro ms
  induction ms with
  | nil =>
    intro a v h
    exact h
  | cons m rest ih =>
    intro a v h
    rw [List.foldl_cons] at h ⊢
    cases hgm : g m with
    | none =>
      rw [hgm] at h
      replace h : rest.foldl (fun acc m => do
          let a0 ← acc
          let v0 ← g m
          pure (op a0 v0)) none = some v := h
      rw [foldl_step_none] at h
      cases h
    | some w =>
      rw [hgm] at h
      replace h : rest.foldl (fun acc m => do
          let a0 ← acc
          let v0 ← g m
          pure (op a0 v0)) (some (op a w)) = some v := h
      rw [hgg m w hgm]
      exact ih (op a w) v h

theorem plain_mono : ∀ (f : Nat) (b : Board) (d : Int) (maxing : Bool) (p : Player) (v : Ext),
    exhaustiveF f b d maxing p = some v → exhaustiveF (f + 1) b d maxing p = some v := by
  intro f
  induction f with
  | zero =>
    intro b d maxing p v h
    cases h
  | succ f ih =>
    intro b d maxing p v h
    by_cases hterm : d = 0 ∨ isGameOver b = true
    · rw [exhaustiveF_eq_term f b d maxing p hterm] at h
      rw [exhaustiveF_eq_term (f + 1) b d maxing p hterm]
      exact h
    · by_cases hmoves : getValidMoves b (if maxing then p else p.other) = []
      · rw [exhaustiveF_eq_pass f b d maxing p hterm hmoves] at h
        rw [exhaustiveF_eq_pass (f + 1) b d maxing p hterm hmoves]
        exact ih b (d - 1) (!maxing) p v h
      · cases maxing with
        | true =>
          rw [exhaustiveF_eq_max f b d p hterm hmoves] at h
          rw [exhaustiveF_eq_max (f + 1) b d p hterm hmoves]
          exact foldl_step_mono emax
            (fun m => exhaustiveF f (childBoard b p m) (d - 1) false p)
            (fun m => exhaustiveF (f + 1) (childBoard b p m) (d - 1) false p)
            (fun m w hw => ih (childBoard b p m) (d - 1) false p w hw)
            (getValidMoves b p) Ext.ninf v h
        | false =>
          rw [exhaustiveF_eq_min f b d p hterm hmoves] at h
          rw [exhaustiveF_eq_min (f + 1) b d p hterm hmoves]
          exact foldl_step_mono emin
            (fun m => exhaustiveF f (childBoard b p.other m) (d - 1) true p)
            (fun m => exhaustiveF (f + 1) (childBoard b p.other m) (d - 1) true p)
            (fun m w hw => ih (childBoard b p.other m) (d - 1) true p w hw)
            (getValidMoves b p.other) Ext.pinf v h

theorem plain_mono_le : ∀ (f₂ f₁ : Nat), f₁ ≤ f₂ →
    ∀ (b : Board) (d : Int) (maxing : Bool) (p : Player) (v : Ext),
    exhaustiveF f₁ b d maxing p = some v → exhaustiveF f₂ b d maxing p = some v := by
  intro f₂
  induction f₂ with
  | zero =>
    intro f₁ hle b d maxing p v h
    rw [Nat.le_zero.mp hle] at h
    exact h
  | succ f₂ ih =>
    intro f₁ hle b d maxing p v h
    rcases Nat.eq_or_lt_of_le hle with heq | hlt
    · rw [heq] at h
      exact h
    · exact plain_mono f₂ b d maxing p v (ih f₁ (Nat.lt_succ_iff.mp hlt) b d maxing p v h)

theorem plain_agree {f₁ f₂ : Nat} {b : Board} {d : Int} {maxing : Bool} {p : Player}
    {v₁ v₂ : Ext} (h₁ : exhaustiveF f₁ b d maxing p = some v₁)
    (h₂ : exhaustiveF f₂ b d maxing p = some v₂) : v₁ = v₂ := by
  rcases Nat.le_total f₁ f₂ with hle | hle
  · have := plain_mono_le f₂ f₁ hle b d maxing p v₁ h₁
    rw [this] at h₂
    exact Option.some.inj h₂
  · have := plain_mono_le f₁ f₂ hle b d maxing p v₂ h₂
    rw [this] at h₁
    exact (Option.some.inj h₁).symm

/-! ### The game-over test and per-player move lists -/

theorem gameOver_no_moves {b : Board} (h : isGameOver b = true) (p : Player) :
    getValidMoves b p = [] := by
  unfold isGameOver at h
  rw [Bool.and_eq_true] at h
  cases p with
  | A => exact List.isEmpty_iff.mp h.1
  | B => exact List.isEmpty_iff.mp h.2

/-! ### The first-argmax structure of the tie-break scan -/

theorem le_foldMaxVal_of_mem (vt : Move → Ext) :
    ∀ (ms : List Move) (m : Move), m ∈ ms → vt m ≤ foldMaxVal vt ms := by
  intro ms
  induction ms with
  | nil =>
    intro m hm
    cases hm
  | cons m0 rest ih =>
    intro m hm
    rw [foldMaxVal_cons]
    rcases List.mem_cons.mp hm with heq | hmem
    · rw [heq]
      exact le_emax_left _ _
    · exact Ext.le_trans (ih m hmem) (le_emax_right _ _)

theorem pickFirstBest_stable (vt : Move → Ext) :
    ∀ (ms : List Move) (best : Option Move) (cur : Ext),
      (∀ m ∈ ms, vt m ≤ cur) → pickFirstBest vt ms best cur = best := by
  intro ms
  induction ms with
  | nil =>
    intro best cur h
    rfl
  | cons m rest ih =>
    intro best cur h
    rw [pickFirstBest, if_neg (Ext.not_lt.mpr (h m (List.mem_cons_self _ _)))]
    exact ih best cur (fun m' hm' => h m' (List.mem_cons_of_mem _ hm'))

theorem pickFirstBest_attains (vt : Move → Ext) :
    ∀ (ms : List Move) (best : Option Move) (cur : Ext),
      cur < foldMaxVal vt ms →
      ∃ m ∈ ms, pickFirstBest vt ms best cur = some m ∧ vt m = foldMaxVal vt ms := by
  intro ms
  induction ms with
  | nil =>
    intro best cur h
    exact absurd h (Ext.not_lt_ninf cur)
  | cons m rest ih =>
    intro best cur h
    rw [foldMaxVal_cons] at h ⊢
    by_cases hm : cur < vt m
    · rw [pickFirstBest, if_pos hm]
      by_cases hTr : foldMaxVal vt rest ≤ vt m
      · refine ⟨m, List.mem_cons_self _ _, ?_, (emax_eq_left hTr).symm⟩
        apply pickFirstBest_stable
        intro m' hm'
        exact Ext.le_trans (le_foldMaxVal_of_mem vt rest m' hm') hTr
      · have hlt : vt m < foldMaxVal vt rest := Ext.not_le.mp hTr
        obtain ⟨m', hm', hpick, hval⟩ := ih (some m) (vt m) hlt
        exact ⟨m', List.mem_cons_of_mem _ hm', hpick,
          hval.trans (emax_eq_right (Ext.le_of_lt hlt)).symm⟩
    · rw [pickFirstBest, if_neg hm]
      have hmc : vt m ≤ cur := Ext.not_lt.mp hm
      have hc : cur < foldMaxVal vt rest := by
        rcases emax_eq_or (vt m) (foldMaxVal vt rest) with he | he
        · rw [he] at h
          exact absurd h hm
        · rw [he] at h
          exact h
      obtain ⟨m', hm', hpick, hval⟩ := ih best cur hc
      refine ⟨m', List.mem_cons_of_mem _ hm', hpick, ?_⟩
      rw [hval]
      exact (emax_eq_right (Ext.le_trans hmc (Ext.le_of_lt hc))).symm

theorem pickFirstBest_congr (vt vt' : Move → Ext) :
    ∀ (ms : List Move) (best : Option Move) (cur : Ext),
      (∀ m ∈ ms, vt m = vt' m) →
      pickFirstBest vt ms best cur = pickFirstBest vt' ms best cur := by
  intro ms
  induction ms with
  | nil =>
    intro best cur h
    rfl
  | cons m rest ih =>
    intro best cur h
    rw [pickFirstBest, pickFirstBest, h m (List.mem_cons_self _ _)]
    have hrest := fun m' hm' => h m' (List.mem_cons_of_mem _ hm')
    by_cases hc : cur < vt' m
    · rw [if_pos hc, if_pos hc]
      exact ih (some m) (vt' m) hrest
    · rw [if_neg hc, if_neg hc]
      exact ih best cur hrest

/-! ### The node-level band theorem: pruned vs exhaustive search -/

theorem ab_bands : ∀ (f : Nat) (b : Board) (d : Int) (maxing : Bool) (p : Player),
    b.WF → 2 * emptyCount b + moveBit b (if maxing then p else p.other) < f →
    ∀ (t : Int), exhaustiveF f b d maxing p = some (.fin t) →
    ∀ (alpha beta : Ext), alpha < beta →
    ∃ (v : Ext) (mv : Option Move) (n : Nat),
      abF f b d alpha beta maxing p = some (v, mv, n) ∧
      (alpha < .fin t → .fin t < beta → v = .fin t) ∧
      (.fin t ≤ alpha → .fin t ≤ v ∧ v ≤ alpha) ∧
      (beta ≤ .fin t → beta ≤ v ∧ v ≤ .fin t) ∧
      (alpha = .ninf → beta = .pinf → maxing = true → ¬ d = 0 →
        ¬ getValidMoves b p = [] →
        v = .fin t ∧
        mv = pickFirstBest (childVal b p d true p) (getValidMoves b p) none .ninf) := by
  intro f
  induction f with
  | zero =>
    intro b d maxing p hWF hfuel t hplain alpha beta hab
    cases hplain
  | succ f ih =>
    intro b d maxing p hWF hfuel t hplain alpha beta hab
    by_cases hterm : d = 0 ∨ isGameOver b = true
    · rw [exhaustiveF_eq_term f b d maxing p hterm] at hplain
      have ht : evaluatePosition b p = t := Ext.fin.inj (Option.some.inj hplain)
      refine ⟨.fin t, none, 1, ?_, ?_, ?_, ?_, ?_⟩
      · rw [abF_eq_term f b d alpha beta maxing p hterm, ht]
      · intro _ _
        rfl
      · intro h
        exact ⟨Ext.le_refl _, h⟩
      · intro h
        exact ⟨h, Ext.le_refl _⟩
      · intro hn hp hm hd0 hmv
        rcases hterm with hd | hgo
        · exact absurd hd hd0
        · exact absurd (gameOver_no_moves hgo p) hmv
    · have hngo : ¬ isGameOver b = true := fun hh => hterm (Or.inr hh)
      by_cases hmoves : getValidMoves b (if maxing then p else p.other) = []
      · rw [exhaustiveF_eq_pass f b d maxing p hterm hmoves] at hplain
        have hbit : moveBit b (if maxing then p else p.other) = 1 := by
          unfold moveBit
          rw [if_pos hmoves]
        have hopp : ¬ getValidMoves b (if maxing then p else p.other).other = [] :=
          opp_moves_nonempty hngo hmoves
        have hcur' : (if !maxing then p else p.other) = (if maxing then p else p.other).other := by
          cases maxing
          · cases p
            · rfl
            · rfl
          · cases p
            · rfl
            · rfl
        have hbit' : moveBit b (if !maxing then p else p.other) = 0 := by
          unfold moveBit
          rw [hcur', if_neg hopp]
        obtain ⟨v, mv, n, hab', hb1, hb2, hb3, _⟩ :=
          ih b (d - 1) (!maxing) p hWF (by omega) t hplain alpha beta hab
        refine ⟨v, mv, n + 1, ?_, hb1, hb2, hb3, ?_⟩
        · rw [abF_eq_pass f b d alpha beta maxing p hterm hmoves, hab']
        · intro hn hp hm hd0 hmv
          subst hm
          exact absurd (show getValidMoves b p = [] from hmoves) hmv
      · have hbit : moveBit b (if maxing then p else p.other) = 0 := by
          unfold moveBit
          rw [if_neg hmoves]
        have hfb : 2 * emptyCount b < f + 1 := by omega
        cases maxing with
        | true =>
          have hmoves' : ¬ getValidMoves b p = [] := hmoves
          rw [exhaustiveF_eq_max f b d p hterm hmoves'] at hplain
          have hchildren : ∀ m ∈ getValidMoves b p,
              ∃ tm : Int, exhaustiveF f (childBoard b p m) (d - 1) false p
                = some (.fin tm) := by
            intro m hm
            have hcWF := childBoard_WF hWF hm
            have hce := childBoard_empty hWF hm
            have hb1 : moveBit (childBoard b p m)
                (if false = true then p else p.other) ≤ 1 := moveBit_le_one _ _
            exact plain_some f (childBoard b p m) (d - 1) false p hcWF (by omega)
          have hsome : ∀ m ∈ getValidMoves b p,
              (exhaustiveF f (childBoard b p m) (d - 1) false p).isSome = true := by
            intro m hm
            obtain ⟨tm, htm⟩ := hchildren m hm
            rw [htm]
            rfl
          have hfold : foldMaxVal
              (fun m => (exhaustiveF f (childBoard b p m) (d - 1) false p).getD Ext.ninf)
              (getValidMoves b p) = .fin t :=
            Option.some.inj ((plainFold_eq emax
              (fun m => exhaustiveF f (childBoard b p m) (d - 1) false p)
              (getValidMoves b p) hsome Ext.ninf).symm.trans hplain)
          have hchild : ∀ m ∈ getValidMoves b p, ∃ tm : Int,
              (fun m => (exhaustiveF f (childBoard b p m) (d - 1) false p).getD Ext.ninf) m
                = .fin tm ∧
              ∀ a' b'' : Ext, a' < b'' → ∃ (v : Ext) (mv : Option Move) (n : Nat),
                abF f (childBoard b p m) (d - 1) a' b'' false p = some (v, mv, n) ∧
                (a' < .fin tm → .fin tm < b'' → v = .fin tm) ∧
                (.fin tm ≤ a' → .fin tm ≤ v ∧ v ≤ a') ∧
                (b'' ≤ .fin tm → b'' ≤ v ∧ v ≤ .fin tm) := by
            intro m hm
            obtain ⟨tm, htm⟩ := hchildren m hm
            refine ⟨tm, ?_, ?_⟩
            · show (exhaustiveF f (childBoard b p m) (d - 1) false p).getD Ext.ninf
                = Ext.fin tm
              rw [htm]
              rfl
            intro a' b'' hw
            have hcWF := childBoard_WF hWF hm
            have hce := childBoard_empty hWF hm
            have hb1 : moveBit (childBoard b p m)
                (if false = true then p else p.other) ≤ 1 := moveBit_le_one _ _
            obtain ⟨v, mv, n, hcall, hx1, hx2, hx3, _⟩ :=
              ih (childBoard b p m) (d - 1) false p hcWF (by omega) tm htm a' b'' hw
            exact ⟨v, mv, n, hcall, hx1, hx2, hx3⟩
          obtain ⟨v, bv, n, hloop, hmev, hL2, hL3, hL4, hL5⟩ :=
            ab_loop_max_bands f b d beta p
              (fun m => (exhaustiveF f (childBoard b p m) (d - 1) false p).getD Ext.ninf)
              (getValidMoves b p) hchild .ninf none alpha 0 (Ext.ninf_le alpha) hab
          rw [hfold] at hL2 hL3 hL4 hL5
          rw [emax_ninf] at hL4 hL5
          refine ⟨v, bv, n + 1, ?_, hL3, hL2, hL4, ?_⟩
          · rw [abF_eq_max f b d alpha beta p hterm hmoves', hloop]
          · intro hn hp hm hd0 hmv
            obtain ⟨hveq, hbv⟩ := hL5 hp hn.symm
            refine ⟨hveq, ?_⟩
            rw [hbv]
            apply pickFirstBest_congr
            intro m hm'
            obtain ⟨tm, htm⟩ := hchildren m hm'
            have hcWF := childBoard_WF hWF hm'
            have hb1 : moveBit (childBoard b p m)
                (if false = true then p else p.other) ≤ 1 := moveBit_le_one _ _
            obtain ⟨tm', htm'⟩ := plain_some (fuelStd (childBoard b p m))
              (childBoard b p m) (d - 1) false p hcWF
              (by unfold fuelStd; omega)
            have hagree : Ext.fin tm = Ext.fin tm' := plain_agree htm htm'
            show (exhaustiveF f (childBoard b p m) (d - 1) false p).getD Ext.ninf
              = childVal b p d true p m
            rw [htm]
            show Ext.fin tm = (exhaustiveF (fuelStd (childBoard b p m))
              (childBoard b p m) (d - 1) false p).getD Ext.ninf
            rw [htm']
            exact hagree
        | false =>
          have hmoves' : ¬ getValidMoves b p.other = [] := hmoves
          rw [exhaustiveF_eq_min f b d p hterm hmoves'] at hplain
          have hchildren : ∀ m ∈ getValidMoves b p.other,
              ∃ tm : Int, exhaustiveF f (childBoard b p.other m) (d - 1) true p
                = some (.fin tm) := by
            intro m hm
            have hcWF := childBoard_WF hWF hm
            have hce := childBoard_empty hWF hm
            have hb1 : moveBit (childBoard b p.other m)
                (if true = true then p else p.other) ≤ 1 := moveBit_le_one _ _
            exact plain_some f (childBoard b p.other m) (d - 1) true p hcWF (by omega)
          have hsome : ∀ m ∈ getValidMoves b p.other,
              (exhaustiveF f (childBoard b p.other m) (d - 1) true p).isSome = true := by
            intro m hm
            obtain ⟨tm, htm⟩ := hchildren m hm
            rw [htm]
            rfl
          have hfold : foldMinVal
              (fun m => (exhaustiveF f (childBoard b p.other m) (d - 1) true p).getD Ext.ninf)
              (getValidMoves b p.other) = .fin t :=
            Option.some.inj ((plainFold_eq emin
              (fun m => exhaustiveF f (childBoard b p.other m) (d - 1) true p)
              (getValidMoves b p.other) hsome Ext.pinf).symm.trans hplain)
          have hchild : ∀ m ∈ getValidMoves b p.other, ∃ tm : Int,
              (fun m => (exhaustiveF f (childBoard b p.other m) (d - 1) true p).getD Ext.ninf) m
                = .fin tm ∧
              ∀ a' b'' : Ext, a' < b'' → ∃ (v : Ext) (mv : Option Move) (n : Nat),
                abF f (childBoard b p.other m) (d - 1) a' b'' true p = some (v, mv, n) ∧
                (a' < .fin tm → .fin tm < b'' → v = .fin tm) ∧
                (.fin tm ≤ a' → .fin tm ≤ v ∧ v ≤ a') ∧
                (b'' ≤ .fin tm → b'' ≤ v ∧ v ≤ .fin tm) := by
            intro m hm
            obtain ⟨tm, htm⟩ := hchildren m hm
            refine ⟨tm, ?_, ?_⟩
            · show (exhaustiveF f (childBoard b p.other m) (d - 1) true p).getD Ext.ninf
                = Ext.fin tm
              rw [htm]
              rfl
            intro a' b'' hw
            have hcWF := childBoard_WF hWF hm
            have hce := childBoard_empty hWF hm
            have hb1 : moveBit (childBoard b p.other m)
                (if true = true then p else p.other) ≤ 1 := moveBit_le_one _ _
            obtain ⟨v, mv, n, hcall, hx1, hx2, hx3, _⟩ :=
              ih (childBoard b p.other m) (d - 1) true p hcWF (by omega) tm htm a' b'' hw
            exact ⟨v, mv, n, hcall, hx1, hx2, hx3⟩
          obtain ⟨v, bv, n, hloop, hmev, hL2, hL3, hL4⟩ :=
            ab_loop_min_bands f b d alpha p.other p
              (fun m => (exhaustiveF f (childBoard b p.other m) (d - 1) true p).getD Ext.ninf)
              (getValidMoves b p.other) hchild .pinf none beta 0 (Ext.le_pinf beta) hab
          rw [hfold] at hL2 hL3 hL4
          rw [emin_pinf] at hL4
          refine ⟨v, bv, n + 1, ?_, hL3, hL4, hL2, ?_⟩
          · rw [abF_eq_min f b d alpha beta p hterm hmoves', hloop]
          · intro hn hp hm hd0 hmv
            exact Bool.noConfusion hm

theorem foldMaxVal_congr (vt vt' : Move → Ext) :
    ∀ (ms : List Move), (∀ m ∈ ms, vt m = vt' m) →
      foldMaxVal vt ms = foldMaxVal vt' ms := by
  intro ms
  induction ms with
  | nil =>
    intro h
    rfl
  | cons m rest ih =>
    intro h
    rw [foldMaxVal_cons, foldMaxVal_cons, h m (List.mem_cons_self _ _),
      ih (fun m' hm' => h m' (List.mem_cons_of_mem _ hm'))]

theorem childVal_agree (f : Nat) (b : Board) (p : Player) (d : Int) (hWF : b.WF)
    (hfb : 2 * emptyCount b ≤ f) :
    ∀ m ∈ getValidMoves b p,
      (exhaustiveF f (childBoard b p m) (d - 1) false p).getD Ext.ninf
        = childVal b p d true p m := by
  intro m hm
  have hcWF := childBoard_WF hWF hm
  have hce := childBoard_empty hWF hm
  have hb1 : moveBit (childBoard b p m)
      (if false = true then p else p.other) ≤ 1 := moveBit_le_one _ _
  obtain ⟨tm, htm⟩ := plain_some f (childBoard b p m) (d - 1) false p hcWF (by omega)
  obtain ⟨tm', htm'⟩ := plain_some (fuelStd (childBoard b p m)) (childBoard b p m)
    (d - 1) false p hcWF (by unfold fuelStd; omega)
  have hagree : Ext.fin tm = Ext.fin tm' := plain_agree htm htm'
  rw [htm]
  show Ext.fin tm = (exhaustiveF (fuelStd (childBoard b p m)) (childBoard b p m)
    (d - 1) false p).getD Ext.ninf
  rw [htm']
  exact hagree

/-- Root specialization of the band theorem: at the root window
`(-inf, inf)` of `get_best_move`, the pruned search returns the exact
exhaustive score and the first move (in generator order) whose child value
attains it. -/
theorem searchAB_root_spec (b : Board) (p : Player) (d : Int)
    (hWF : b.WF) (hd : ¬ d = 0) (hmoves : ¬ getValidMoves b p = []) :
    ∃ (t : Int) (m : Move) (n : Nat),
      exhaustiveF (fuelStd b) b d true p = some (.fin t) ∧
      searchAB b p d = some (.fin t, some m, n) ∧
      getBestMove b p d = some m ∧
      some m = pickFirstBest (childVal b p d true p) (getValidMoves b p) none .ninf ∧
      m ∈ getValidMoves b p ∧
      childVal b p d true p m = .fin t := by
  have hbitle := moveBit_le_one b (if true = true then p else p.other)
  obtain ⟨t, ht⟩ := plain_some (fuelStd b) b d true p hWF (by unfold fuelStd; omega)
  have ht0 := ht
  obtain ⟨v, mv, n, hab', _, _, _, hroot⟩ :=
    ab_bands (fuelStd b) b d true p hWF (by unfold fuelStd; omega) t ht .ninf .pinf
      (Ext.lt_of_lt_of_le (Ext.ninf_lt_fin 0) (Ext.le_pinf _))
  obtain ⟨hv, hmv⟩ := hroot rfl rfl rfl hd hmoves
  have hterm : ¬ (d = 0 ∨ isGameOver b = true) :=
    fun h => h.elim hd (fun hgo => hmoves (gameOver_no_moves hgo p))
  have hfs : fuelStd b = (2 * emptyCount b + 1) + 1 := by
    unfold fuelStd
    omega
  rw [hfs, exhaustiveF_eq_max (2 * emptyCount b + 1) b d p hterm hmoves] at ht
  have hsome : ∀ m ∈ getValidMoves b p,
      (exhaustiveF (2 * emptyCount b + 1) (childBoard b p m) (d - 1) false p).isSome
        = true := by
    intro m hm
    have hcWF := childBoard_WF hWF hm
    have hce := childBoard_empty hWF hm
    have hb1 : moveBit (childBoard b p m)
        (if false = true then p else p.other) ≤ 1 := moveBit_le_one _ _
    obtain ⟨tm, htm⟩ := plain_some (2 * emptyCount b + 1) (childBoard b p m)
      (d - 1) false p hcWF (by omega)
    rw [htm]
    rfl
  have hfoldl : foldMaxVal
      (fun m => (exhaustiveF (2 * emptyCount b + 1) (childBoard b p m)
        (d - 1) false p).getD Ext.ninf)
      (getValidMoves b p) = .fin t :=
    Option.some.inj ((plainFold_eq emax
      (fun m => exhaustiveF (2 * emptyCount b + 1) (childBoard b p m) (d - 1) false p)
      (getValidMoves b p) hsome Ext.ninf).symm.trans ht)
  have hTt : foldMaxVal (childVal b p d true p) (getValidMoves b p) = .fin t :=
    (foldMaxVal_congr _ _ (getValidMoves b p)
      (fun m hm => (childVal_agree (2 * emptyCount b + 1) b p d hWF (by omega)
        m hm).symm)).trans hfoldl
  obtain ⟨m, hm, hpick, hval⟩ := pickFirstBest_attains (childVal b p d true p)
    (getValidMoves b p) none .ninf (by rw [hTt]; exact Ext.ninf_lt_fin t)
  have hmvm : mv = some m := hmv.trans hpick
  rw [hv, hmvm] at hab'
  have hsearch : searchAB b p d = some (.fin t, some m, n) := hab'
  refine ⟨t, m, n, ht0, hsearch, ?_, hpick.symm, hm, ?_⟩
  · unfold getBestMove
    rw [if_neg hmoves, hsearch]
  · rw [hTt] at hval
    exact hval

/-- C2: for every structurally valid board, mover, and depth, the score
returned by the alpha-beta-pruned `minimax` at the root window equals the
score of the exhaustive unpruned minimax over the same game tree; and
whenever a move is actually searched for (nonzero depth, mover has moves),
the returned move is a legal move whose subtree value attains that score,
and it is the first such move in the move generator's order — the stable
tie-break scan `pickFirstBest`, under which later equal-scoring moves never
replace the recorded one. -/
theorem alphabeta_exhaustive_equivalence (b : Board) (p : Player) (d : Int)
    (hWF : b.WF) :
    ∃ (t : Int) (mv : Option Move) (n : Nat),
      exhaustiveF (fuelStd b) b d true p = some (.fin t) ∧
      searchAB b p d = some (.fin t, mv, n) ∧
      (¬ d = 0 → ¬ getValidMoves b p = [] →
        ∃ m, mv = some m ∧ getBestMove b p d = some m ∧
          some m = pickFirstBest (childVal b p d true p) (getValidMoves b p)
            none .ninf ∧
          m ∈ getValidMoves b p ∧ childVal b p d true p m = .fin t) := by
  have hbitle := moveBit_le_one b (if true = true then p else p.other)
  obtain ⟨t, ht⟩ := plain_some (fuelStd b) b d true p hWF (by unfold fuelStd; omega)
  obtain ⟨v, mv, n, hab', hx1, _, _, _⟩ :=
    ab_bands (fuelStd b) b d true p hWF (by unfold fuelStd; omega) t ht .ninf .pinf
      (Ext.lt_of_lt_of_le (Ext.ninf_lt_fin 0) (Ext.le_pinf _))
  have hv : v = .fin t := hx1 (Ext.ninf_lt_fin t) (Ext.fin_lt_pinf t)
  rw [hv] at hab'
  have hs : searchAB b p d = some (.fin t, mv, n) := hab'
  refine ⟨t, mv, n, ht, hs, ?_⟩
  intro hd hmoves
  obtain ⟨t', m, n', ht', hsearch', hbest', hpick', hmem', hcv'⟩ :=
    searchAB_root_spec b p d hWF hd hmoves
  rw [hs] at hsearch'
  have h1 := Option.some.inj hsearch'
  have hts : Ext.fin t = Ext.fin t' := congrArg Prod.fst h1
  have hmv : mv = some m := congrArg (fun x => x.2.1) h1
  refine ⟨m, hmv, hbest', hpick', hmem', ?_⟩
  rw [hcv', ← hts]

/-- Witness for `alphabeta_exhaustive_equivalence` on the 2×2 initial board
at depth 3. -/
theorem alphabeta_exhaustive_equivalence_witness :
    sampleBoard.WF ∧
    ∃ (t : Int) (mv : Option Move) (n : Nat),
      exhaustiveF (fuelStd sampleBoard) sampleBoard 3 true Player.A = some (.fin t) ∧
      searchAB sampleBoard Player.A 3 = some (.fin t, mv, n) ∧
      (¬ (3 : Int) = 0 → ¬ getValidMoves sampleBoard Player.A = [] →
        ∃ m, mv = some m ∧ getBestMove sampleBoard Player.A 3 = some m ∧
          some m = pickFirstBest (childVal sampleBoard Player.A 3 true Player.A)
            (getValidMoves sampleBoard Player.A) none .ninf ∧
          m ∈ getValidMoves sampleBoard Player.A ∧
          childVal sampleBoard Player.A 3 true Player.A m = .fin t) :=
  ⟨by decide, alphabeta_exhaustive_equivalence sampleBoard Player.A 3 (by decide)⟩

/-- C5 counterexample: a negative depth is not "returned as the immediate
evaluation with no move" — `minimax` only stops at `depth == 0`, so
`get_best_move` at depth `-1` runs a full search of the 2×2 board and
returns a concrete move. -/
theorem best_move_negative_depth_returns_move :
    getBestMove sampleBoard Player.A (-1) = some (0, 1, 2) := by decide

/-- C5 (amended): on a structurally valid board, `get_best_move` returns
`none` exactly when the mover has no legal moves or the depth is exactly
`0`; at depth `0` with moves available the root `minimax` call returns the
immediate evaluation with no move; and the root search always returns a
value (no fuel exhaustion / unbounded recursion) on such boards. -/
theorem best_move_none_iff (b : Board) (p : Player) (d : Int) (hWF : b.WF) :
    (getBestMove b p d = none ↔ getValidMoves b p = [] ∨ d = 0) ∧
    (¬ getValidMoves b p = [] → d = 0 →
      searchAB b p d = some (.fin (evaluatePosition b p), none, 1)) ∧
    (searchAB b p d).isSome = true := by
  have hterm0 : d = 0 → searchAB b p d = some (.fin (evaluatePosition b p), none, 1) := by
    intro hd
    have hfs : fuelStd b = (2 * emptyCount b + 1) + 1 := by
      unfold fuelStd
      omega
    show abF (fuelStd b) b d .ninf .pinf true p = _
    rw [hfs, abF_eq_term (2 * emptyCount b + 1) b d .ninf .pinf true p (Or.inl hd)]
  have hbitle := moveBit_le_one b (if true = true then p else p.other)
  have hsome : (searchAB b p d).isSome = true := by
    show (abF (fuelStd b) b d .ninf .pinf true p).isSome = true
    exact abF_some (fuelStd b) b d .ninf .pinf true p hWF (by unfold fuelStd; omega)
  refine ⟨⟨?_, ?_⟩, fun hm hd => hterm0 hd, hsome⟩
  · intro hnone
    by_cases hmoves : getValidMoves b p = []
    · exact Or.inl hmoves
    · by_cases hd : d = 0
      · exact Or.inr hd
      · obtain ⟨t, m, n, _, _, hbest, _, _, _⟩ := searchAB_root_spec b p d hWF hd hmoves
        rw [hbest] at hnone
        cases hnone
  · intro h
    by_cases hmoves : getValidMoves b p = []
    · unfold getBestMove
      rw [if_pos hmoves]
    · rcases h with hm | hd
      · exact absurd hm hmoves
      · unfold getBestMove
        rw [if_neg hmoves, hterm0 hd]

/-- Witness for `best_move_none_iff` on the 2×2 initial board at depth 0. -/
theorem best_move_none_iff_witness :
    sampleBoard.WF ∧
    ((getBestMove sampleBoard Player.A 0 = none ↔
        getValidMoves sampleBoard Player.A = [] ∨ (0 : Int) = 0) ∧
      (¬ getValidMoves sampleBoard Player.A = [] → (0 : Int) = 0 →
        searchAB sampleBoard Player.A 0
          = some (.fin (evaluatePosition sampleBoard Player.A), none, 1)) ∧
      (searchAB sampleBoard Player.A 0).isSome = true) :=
  ⟨by decide, best_move_none_iff sampleBoard Player.A 0 (by decide)⟩

/-! ### Grid determinism: all search-relevant data of a well-formed board
is a function of its grid -/

theorem emax_comm (a b : Ext) : emax a b = emax b a := by
  rcases Ext.le_total a b with h | h
  · rw [emax_eq_right h, emax_eq_left h]
  · rw [emax_eq_left h, emax_eq_right h]

theorem emin_comm (a b : Ext) : emin a b = emin b a := by
  rcases Ext.le_total a b with h | h
  · rw [emin_eq_left h, emin_eq_right h]
  · rw [emin_eq_right h, emin_eq_left h]

theorem foldMaxVal_perm (vt : Move → Ext) {ms₁ ms₂ : List Move} (h : ms₁.Perm ms₂) :
    foldMaxVal vt ms₁ = foldMaxVal vt ms₂ := by
  unfold foldMaxVal
  exact @List.Perm.foldl_eq _ _ (fun a m => emax a (vt m)) ms₁ ms₂
    ⟨fun a x y => by rw [emax_assoc, emax_comm (vt x) (vt y), ← emax_assoc]⟩ h Ext.ninf

theorem foldMinVal_perm (vt : Move → Ext) {ms₁ ms₂ : List Move} (h : ms₁.Perm ms₂) :
    foldMinVal vt ms₁ = foldMinVal vt ms₂ := by
  unfold foldMinVal
  exact @List.Perm.foldl_eq _ _ (fun a m => emin a (vt m)) ms₁ ms₂
    ⟨fun a x y => by rw [emin_assoc, emin_comm (vt x) (vt y), ← emin_assoc]⟩ h Ext.pinf

theorem foldMinVal_congr (vt vt' : Move → Ext) :
    ∀ (ms : List Move), (∀ m ∈ ms, vt m = vt' m) →
      foldMinVal vt ms = foldMinVal vt' ms := by
  intro ms
  induction ms with
  | nil =>
    intro h
    rfl
  | cons m rest ih =>
    intro h
    rw [foldMinVal_cons, foldMinVal_cons, h m (List.mem_cons_self _ _),
      ih (fun m' hm' => h m' (List.mem_cons_of_mem _ hm'))]

theorem gridAt_congr {b₁ b₂ : Board} (hg : b₁.grid = b₂.grid) (q : Nat × Nat) :
    gridAt b₁ q = gridAt b₂ q := by
  unfold gridAt
  rw [hg]

theorem cellValD_congr {b₁ b₂ : Board} (hg : b₁.grid = b₂.grid) (q : Nat × Nat) :
    cellValD b₁ q = cellValD b₂ q := by
  unfold cellValD
  rw [gridAt_congr hg]

theorem emptyCount_congr {b₁ b₂ : Board} (hg : b₁.grid = b₂.grid) :
    emptyCount b₁ = emptyCount b₂ := by
  unfold emptyCount
  rw [hg]

theorem size_congr {b₁ b₂ : Board} (hWF₁ : b₁.WF) (hWF₂ : b₂.WF)
    (hg : b₁.grid = b₂.grid) : b₁.size = b₂.size := by
  rw [← hWF₁.1, ← hWF₂.1, hg]

theorem positions_nodup {b : Board} (hWF : b.WF) (p : Player) :
    (b.positions p).Nodup := by
  cases p with
  | A => exact hWF.2.2.1
  | B => exact hWF.2.2.2.1

theorem mem_positions_iff_grid {b : Board} (hWF : b.WF) (p : Player) (q : Nat × Nat) :
    q ∈ b.positions p ↔ ∃ w, gridAt b q = some (p, w) :=
  ⟨WF.pos_cell hWF, fun ⟨_, hw⟩ => WF.cell_pos hWF hw⟩

theorem positions_mem_congr {b₁ b₂ : Board} (hWF₁ : b₁.WF) (hWF₂ : b₂.WF)
    (hg : b₁.grid = b₂.grid) (p : Player) (q : Nat × Nat) :
    q ∈ b₁.positions p ↔ q ∈ b₂.positions p := by
  rw [mem_positions_iff_grid hWF₁, mem_positions_iff_grid hWF₂]
  constructor
  · rintro ⟨w, hw⟩
    exact ⟨w, (gridAt_congr hg q).symm.trans hw⟩
  · rintro ⟨w, hw⟩
    exact ⟨w, (gridAt_congr hg q).trans hw⟩

theorem positions_perm {b₁ b₂ : Board} (hWF₁ : b₁.WF) (hWF₂ : b₂.WF)
    (hg : b₁.grid = b₂.grid) (p : Player) :
    (b₁.positions p).Perm (b₂.positions p) :=
  (List.perm_ext_iff_of_nodup (positions_nodup hWF₁ p) (positions_nodup hWF₂ p)).mpr
    (fun q => positions_mem_congr hWF₁ hWF₂ hg p q)

theorem getMaxValue_congr {b₁ b₂ : Board} (hWF₁ : b₁.WF) (hWF₂ : b₂.WF)
    (hg : b₁.grid = b₂.grid) (p : Player) :
    getMaxValue b₁ p = getMaxValue b₂ p := by
  unfold getMaxValue
  have hfun : (fun (acc : Nat) q => max acc (cellValD b₁ q))
      = (fun (acc : Nat) q => max acc (cellValD b₂ q)) :=
    funext fun acc => funext fun q => by rw [cellValD_congr hg]
  rw [hfun]
  exact @List.Perm.foldl_eq _ _ _ _ _ ⟨fun a x y => by omega⟩
    (positions_perm hWF₁ hWF₂ hg p) 0

theorem rawMoves_mem_mono {b₁ b₂ : Board} (hWF₁ : b₁.WF) (hWF₂ : b₂.WF)
    (hg : b₁.grid = b₂.grid) {p : Player} {m : Move}
    (hm : m ∈ rawMoves b₁ p) : m ∈ rawMoves b₂ p := by
  rw [mem_rawMoves] at hm ⊢
  obtain ⟨pos, hpos, hnb, hnone, hval⟩ := hm
  refine ⟨pos, (positions_mem_congr hWF₁ hWF₂ hg p pos).mp hpos, ?_, ?_, ?_⟩
  · rw [← size_congr hWF₁ hWF₂ hg]
    exact hnb
  · rw [← gridAt_congr hg]
    exact hnone
  · rw [← cellValD_congr hg]
    exact hval

theorem rawMoves_mem_congr {b₁ b₂ : Board} (hWF₁ : b₁.WF) (hWF₂ : b₂.WF)
    (hg : b₁.grid = b₂.grid) (p : Player) (m : Move) :
    m ∈ rawMoves b₁ p ↔ m ∈ rawMoves b₂ p :=
  ⟨rawMoves_mem_mono hWF₁ hWF₂ hg, rawMoves_mem_mono hWF₂ hWF₁ hg.symm⟩

theorem getValidMoves_mem_congr {b₁ b₂ : Board} (hWF₁ : b₁.WF) (hWF₂ : b₂.WF)
    (hg : b₁.grid = b₂.grid) (p : Player) (m : Move) :
    m ∈ getValidMoves b₁ p ↔ m ∈ getValidMoves b₂ p := by
  obtain ⟨r, c, v⟩ := m
  rw [mem_getValidMoves_iff, mem_getValidMoves_iff,
    assocFind_moveDict_iff, assocFind_moveDict_iff]
  constructor
  · rintro ⟨⟨m, hm, h1, h2⟩, hall⟩
    exact ⟨⟨m, (rawMoves_mem_congr hWF₁ hWF₂ hg p m).mp hm, h1, h2⟩,
      fun m' hm' hk => hall m' ((rawMoves_mem_congr hWF₁ hWF₂ hg p m').mpr hm') hk⟩
  · rintro ⟨⟨m, hm, h1, h2⟩, hall⟩
    exact ⟨⟨m, (rawMoves_mem_congr hWF₁ hWF₂ hg p m).mpr hm, h1, h2⟩,
      fun m' hm' hk => hall m' ((rawMoves_mem_congr hWF₁ hWF₂ hg p m').mp hm') hk⟩

theorem getValidMoves_nodup (b : Board) (p : Player) :
    (getValidMoves b p).Nodup :=
  (getValidMoves_keys_nodup b p).of_map

theorem getValidMoves_perm {b₁ b₂ : Board} (hWF₁ : b₁.WF) (hWF₂ : b₂.WF)
    (hg : b₁.grid = b₂.grid) (p : Player) :
    (getValidMoves b₁ p).Perm (getValidMoves b₂ p) :=
  (List.perm_ext_iff_of_nodup (getValidMoves_nodup b₁ p)
    (getValidMoves_nodup b₂ p)).mpr
    (fun m => getValidMoves_mem_congr hWF₁ hWF₂ hg p m)

theorem getValidMoves_nil_congr {b₁ b₂ : Board} (hWF₁ : b₁.WF) (hWF₂ : b₂.WF)
    (hg : b₁.grid = b₂.grid) (p : Player) :
    getValidMoves b₁ p = [] ↔ getValidMoves b₂ p = [] := by
  have hperm := getValidMoves_perm hWF₁ hWF₂ hg p
  constructor
  · intro h
    rw [h] at hperm
    exact hperm.symm.eq_nil
  · intro h
    rw [h] at hperm
    exact hperm.eq_nil

theorem isGameOver_congr {b₁ b₂ : Board} (hWF₁ : b₁.WF) (hWF₂ : b₂.WF)
    (hg : b₁.grid = b₂.grid) : isGameOver b₁ = isGameOver b₂ := by
  unfold isGameOver
  rw [(getValidMoves_perm hWF₁ hWF₂ hg Player.A).isEmpty_eq,
    (getValidMoves_perm hWF₁ hWF₂ hg Player.B).isEmpty_eq]

theorem moveBit_congr {b₁ b₂ : Board} (hWF₁ : b₁.WF) (hWF₂ : b₂.WF)
    (hg : b₁.grid = b₂.grid) (cur : Player) :
    moveBit b₁ cur = moveBit b₂ cur := by
  unfold moveBit
  by_cases h : getValidMoves b₁ cur = []
  · rw [if_pos h, if_pos ((getValidMoves_nil_congr hWF₁ hWF₂ hg cur).mp h)]
  · rw [if_neg h,
      if_neg (fun hh => h ((getValidMoves_nil_congr hWF₁ hWF₂ hg cur).mpr hh))]

theorem evaluatePosition_congr {b₁ b₂ : Board} (hWF₁ : b₁.WF) (hWF₂ : b₂.WF)
    (hg : b₁.grid = b₂.grid) (p : Player) :
    evaluatePosition b₁ p = evaluatePosition b₂ p := by
  show ((getMaxValue b₁ p : Int) - (getMaxValue b₁ p.other : Int)) * 100
      + (((b₁.positions p).length : Int) - ((b₁.positions p.other).length : Int)) * 10
      + (((getValidMoves b₁ p).length : Int) - ((getValidMoves b₁ p.other).length : Int))
    = ((getMaxValue b₂ p : Int) - (getMaxValue b₂ p.other : Int)) * 100
      + (((b₂.positions p).length : Int) - ((b₂.positions p.other).length : Int)) * 10
      + (((getValidMoves b₂ p).length : Int) - ((getValidMoves b₂ p.other).length : Int))
  rw [getMaxValue_congr hWF₁ hWF₂ hg p, getMaxValue_congr hWF₁ hWF₂ hg p.other,
    (positions_perm hWF₁ hWF₂ hg p).length_eq,
    (positions_perm hWF₁ hWF₂ hg p.other).length_eq,
    (getValidMoves_perm hWF₁ hWF₂ hg p).length_eq,
    (getValidMoves_perm hWF₁ hWF₂ hg p.other).length_eq]

theorem setCell_grid_congr {b₁ b₂ : Board} (hg : b₁.grid = b₂.grid)
    (r c : Nat) (p : Player) (v : Nat) :
    (setCell b₁ r c p v).grid = (setCell b₂ r c p v).grid := by
  unfold setCell
  cases p with
  | A =>
    show b₁.grid.set r (((b₁.grid[r]?).getD []).set c (some (Player.A, v)))
      = b₂.grid.set r (((b₂.grid[r]?).getD []).set c (some (Player.A, v)))
    rw [hg]
  | B =>
    show b₁.grid.set r (((b₁.grid[r]?).getD []).set c (some (Player.B, v)))
      = b₂.grid.set r (((b₂.grid[r]?).getD []).set c (some (Player.B, v)))
    rw [hg]

theorem childBoard_grid_congr {b₁ b₂ : Board} (hWF₁ : b₁.WF) (hWF₂ : b₂.WF)
    (hg : b₁.grid = b₂.grid) {cur : Player} {m : Move}
    (hm₁ : m ∈ getValidMoves b₁ cur) (hm₂ : m ∈ getValidMoves b₂ cur) :
    (childBoard b₁ cur m).grid = (childBoard b₂ cur m).grid := by
  rw [childBoard_eq hWF₁ hm₁, childBoard_eq hWF₂ hm₂]
  exact setCell_grid_congr hg m.1 m.2.1 cur m.2.2

/-- The exhaustive minimax value of a well-formed board is a function of
its grid alone: the occupied-set lists only reorder the move generator,
and `max`/`min` folds are invariant under permutation. -/
theorem plain_grid : ∀ (f : Nat) (b₁ b₂ : Board) (d : Int) (maxing : Bool) (p : Player),
    b₁.WF → b₂.WF → b₁.grid = b₂.grid →
    2 * emptyCount b₁ + moveBit b₁ (if maxing then p else p.other) < f →
    exhaustiveF f b₁ d maxing p = exhaustiveF f b₂ d maxing p := by
  intro f
  induction f with
  | zero =>
    intro b₁ b₂ d maxing p hWF₁ hWF₂ hg hfuel
    rfl
  | succ f ih =>
    intro b₁ b₂ d maxing p hWF₁ hWF₂ hg hfuel
    by_cases hterm : d = 0 ∨ isGameOver b₁ = true
    · have hterm₂ : d = 0 ∨ isGameOver b₂ = true := by
        rcases hterm with hd | hgo
        · exact Or.inl hd
        · exact Or.inr ((isGameOver_congr hWF₁ hWF₂ hg).symm.trans hgo)
      rw [exhaustiveF_eq_term f b₁ d maxing p hterm,
        exhaustiveF_eq_term f b₂ d maxing p hterm₂,
        evaluatePosition_congr hWF₁ hWF₂ hg p]
    · have hterm₂ : ¬ (d = 0 ∨ isGameOver b₂ = true) := by
        intro h
        apply hterm
        rcases h with hd | hgo
        · exact Or.inl hd
        · exact Or.inr ((isGameOver_congr hWF₁ hWF₂ hg).trans hgo)
      have hngo : ¬ isGameOver b₁ = true := fun hh => hterm (Or.inr hh)
      by_cases hmoves : getValidMoves b₁ (if maxing then p else p.other) = []
      · have hmoves₂ : getValidMoves b₂ (if maxing then p else p.other) = [] :=
          (getValidMoves_nil_congr hWF₁ hWF₂ hg _).mp hmoves
        rw [exhaustiveF_eq_pass f b₁ d maxing p hterm hmoves,
          exhaustiveF_eq_pass f b₂ d maxing p hterm₂ hmoves₂]
        have hbit : moveBit b₁ (if maxing then p else p.other) = 1 := by
          unfold moveBit
          rw [if_pos hmoves]
        have hopp : ¬ getValidMoves b₁ (if maxing then p else p.other).other = [] :=
          opp_moves_nonempty hngo hmoves
        have hcur' : (if !maxing then p else p.other)
            = (if maxing then p else p.other).other := by
          cases maxing
          · cases p
            · rfl
            · rfl
          · cases p
            · rfl
            · rfl
        have hbit' : moveBit b₁ (if !maxing then p else p.other) = 0 := by
          unfold moveBit
          rw [hcur', if_neg hopp]
        exact ih b₁ b₂ (d - 1) (!maxing) p hWF₁ hWF₂ hg (by omega)
      · have hmoves₂ : ¬ getValidMoves b₂ (if maxing then p else p.other) = [] :=
          fun hh => hmoves ((getValidMoves_nil_congr hWF₁ hWF₂ hg _).mpr hh)
        have hbit : moveBit b₁ (if maxing then p else p.other) = 0 := by
          unfold moveBit
          rw [if_neg hmoves]
        have hec : emptyCount b₂ = emptyCount b₁ := (emptyCount_congr hg).symm
        cases maxing with
        | true =>
          have hmoves₁' : ¬ getValidMoves b₁ p = [] := hmoves
          have hmoves₂' : ¬ getValidMoves b₂ p = [] := hmoves₂
          rw [exhaustiveF_eq_max f b₁ d p hterm hmoves₁',
            exhaustiveF_eq_max f b₂ d p hterm₂ hmoves₂']
          have hch : ∀ (bb : Board), bb.WF → emptyCount bb = emptyCount b₁ →
              ∀ m ∈ getValidMoves bb p,
              ∃ tm : Int, exhaustiveF f (childBoard bb p m) (d - 1) false p
                = some (.fin tm) := by
            intro bb hWF hecb m hm
            have hcWF := childBoard_WF hWF hm
            have hce := childBoard_empty hWF hm
            have hb1 : moveBit (childBoard bb p m)
                (if false = true then p else p.other) ≤ 1 := moveBit_le_one _ _
            exact plain_some f (childBoard bb p m) (d - 1) false p hcWF (by omega)
          have hsome₁ : ∀ m ∈ getValidMoves b₁ p,
              (exhaustiveF f (childBoard b₁ p m) (d - 1) false p).isSome = true := by
            intro m hm
            obtain ⟨tm, htm⟩ := hch b₁ hWF₁ rfl m hm
            rw [htm]
            rfl
          have hsome₂ : ∀ m ∈ getValidMoves b₂ p,
              (exhaustiveF f (childBoard b₂ p m) (d - 1) false p).isSome = true := by
            intro m hm
            obtain ⟨tm, htm⟩ := hch b₂ hWF₂ hec m hm
            rw [htm]
            rfl
          rw [plainFold_eq emax
            (fun m => exhaustiveF f (childBoard b₁ p m) (d - 1) false p)
            (getValidMoves b₁ p) hsome₁ Ext.ninf,
            plainFold_eq emax
            (fun m => exhaustiveF f (childBoard b₂ p m) (d - 1) false p)
            (getValidMoves b₂ p) hsome₂ Ext.ninf]
          apply congrArg
          show foldMaxVal
              (fun m => (exhaustiveF f (childBoard b₁ p m) (d - 1) false p).getD Ext.ninf)
              (getValidMoves b₁ p)
            = foldMaxVal
              (fun m => (exhaustiveF f (childBoard b₂ p m) (d - 1) false p).getD Ext.ninf)
              (getValidMoves b₂ p)
          have hpt : ∀ m ∈ getValidMoves b₁ p,
              (exhaustiveF f (childBoard b₁ p m) (d - 1) false p).getD Ext.ninf
              = (exhaustiveF f (childBoard b₂ p m) (d - 1) false p).getD Ext.ninf := by
            intro m hm
            have hm₂ : m ∈ getValidMoves b₂ p :=
              (getValidMoves_mem_congr hWF₁ hWF₂ hg p m).mp hm
            have hce := childBoard_empty hWF₁ hm
            have hb1 : moveBit (childBoard b₁ p m)
                (if false = true then p else p.other) ≤ 1 := moveBit_le_one _ _
            rw [ih (childBoard b₁ p m) (childBoard b₂ p m) (d - 1) false p
              (childBoard_WF hWF₁ hm) (childBoard_WF hWF₂ hm₂)
              (childBoard_grid_congr hWF₁ hWF₂ hg hm hm₂) (by omega)]
          exact (foldMaxVal_congr _ _ (getValidMoves b₁ p) hpt).trans
            (foldMaxVal_perm _ (getValidMoves_perm hWF₁ hWF₂ hg p))
        | false =>
          have hmoves₁' : ¬ getValidMoves b₁ p.other = [] := hmoves
          have hmoves₂' : ¬ getValidMoves b₂ p.other = [] := hmoves₂
          rw [exhaustiveF_eq_min f b₁ d p hterm hmoves₁',
            exhaustiveF_eq_min f b₂ d p hterm₂ hmoves₂']
          have hch : ∀ (bb : Board), bb.WF → emptyCount bb = emptyCount b₁ →
              ∀ m ∈ getValidMoves bb p.other,
              ∃ tm : Int, exhaustiveF f (childBoard bb p.other m) (d - 1) true p
                = some (.fin tm) := by
            intro bb hWF hecb m hm
            have hcWF := childBoard_WF hWF hm
            have hce := childBoard_empty hWF hm
            have hb1 : moveBit (childBoard bb p.other m)
                (if true = true then p else p.other) ≤ 1 := moveBit_le_one _ _
            exact plain_some f (childBoard bb p.other m) (d - 1) true p hcWF (by omega)
          have hsome₁ : ∀ m ∈ getValidMoves b₁ p.other,
              (exhaustiveF f (childBoard b₁ p.other m) (d - 1) true p).isSome = true := by
            intro m hm
            obtain ⟨tm, htm⟩ := hch b₁ hWF₁ rfl m hm
            rw [htm]
            rfl
          have hsome₂ : ∀ m ∈ getValidMoves b₂ p.other,
              (exhaustiveF f (childBoard b₂ p.other m) (d - 1) true p).isSome = true := by
            intro m hm
            obtain ⟨tm, htm⟩ := hch b₂ hWF₂ hec m hm
            rw [htm]
            rfl
          rw [plainFold_eq emin
            (fun m => exhaustiveF f (childBoard b₁ p.other m) (d - 1) true p)
            (getValidMoves b₁ p.other) hsome₁ Ext.pinf,
            plainFold_eq emin
            (fun m => exhaustiveF f (childBoard b₂ p.other m) (d - 1) true p)
            (getValidMoves b₂ p.other) hsome₂ Ext.pinf]
          apply congrArg
          show foldMinVal
              (fun m => (exhaustiveF f (childBoard b₁ p.other m) (d - 1) true p).getD Ext.ninf)
              (getValidMoves b₁ p.other)
            = foldMinVal
              (fun m => (exhaustiveF f (childBoard b₂ p.other m) (d - 1) true p).getD Ext.ninf)
              (getValidMoves b₂ p.other)
          have hpt : ∀ m ∈ getValidMoves b₁ p.other,
              (exhaustiveF f (childBoard b₁ p.other m) (d - 1) true p).getD Ext.ninf
              = (exhaustiveF f (childBoard b₂ p.other m) (d - 1) true p).getD Ext.ninf := by
            intro m hm
            have hm₂ : m ∈ getValidMoves b₂ p.other :=
              (getValidMoves_mem_congr hWF₁ hWF₂ hg p.other m).mp hm
            have hce := childBoard_empty hWF₁ hm
            have hb1 : moveBit (childBoard b₁ p.other m)
                (if true = true then p else p.other) ≤ 1 := moveBit_le_one _ _
            rw [ih (childBoard b₁ p.other m) (childBoard b₂ p.other m) (d - 1) true p
              (childBoard_WF hWF₁ hm) (childBoard_WF hWF₂ hm₂)
              (childBoard_grid_congr hWF₁ hWF₂ hg hm hm₂) (by omega)]
          exact (foldMinVal_congr _ _ (getValidMoves b₁ p.other) hpt).trans
            (foldMinVal_perm _ (getValidMoves_perm hWF₁ hWF₂ hg p.other))

/-! ### Basic lemmas for the table-enabled search -/

theorem abF_pos (f : Nat) (b : Board) (d : Int) (alpha beta : Ext) (maxing : Bool)
    (p : Player) {v : Ext} {mv : Option Move} {n : Nat}
    (h : abF f b d alpha beta maxing p = some (v, mv, n)) : 1 ≤ n := by
  cases f with
  | zero => cases h
  | succ f =>
    by_cases hterm : d = 0 ∨ isGameOver b = true
    · rw [abF_eq_term f b d alpha beta maxing p hterm] at h
      have h3 : 1 = n := congrArg (fun x => x.2.2) (Option.some.inj h)
      omega
    · by_cases hmoves : getValidMoves b (if maxing then p else p.other) = []
      · rw [abF_eq_pass f b d alpha beta maxing p hterm hmoves] at h
        cases hin : abF f b (d - 1) alpha beta (!maxing) p with
        | none =>
          rw [hin] at h
          cases h
        | some r =>
          obtain ⟨v', mv', n'⟩ := r
          rw [hin] at h
          have h3 : n' + 1 = n := congrArg (fun x => x.2.2) (Option.some.inj h)
          omega
      · cases maxing with
        | true =>
          have hmoves' : ¬ getValidMoves b p = [] := hmoves
          rw [abF_eq_max f b d alpha beta p hterm hmoves'] at h
          cases hin : abLoopMax (fun b' d' a' b'' p' => abF f b' d' a' b'' false p')
              b p d beta p (getValidMoves b p) .ninf none alpha 0 with
          | none =>
            rw [hin] at h
            cases h
          | some r =>
            obtain ⟨v', mv', n'⟩ := r
            rw [hin] at h
            have h3 : n' + 1 = n := congrArg (fun x => x.2.2) (Option.some.inj h)
            omega
        | false =>
          have hmoves' : ¬ getValidMoves b p.other = [] := hmoves
          rw [abF_eq_min f b d alpha beta p hterm hmoves'] at h
          cases hin : abLoopMin (fun b' d' a' b'' p' => abF f b' d' a' b'' true p')
              b p.other d alpha p (getValidMoves b p.other) .pinf none beta 0 with
          | none =>
            rw [hin] at h
            cases h
          | some r =>
            obtain ⟨v', mv', n'⟩ := r
            rw [hin] at h
            have h3 : n' + 1 = n := congrArg (fun x => x.2.2) (Option.some.inj h)
            omega

theorem ttLookup_mem {tbl : Table} {k : TKey} {e : TEntry}
    (h : ttLookup tbl k = some e) : (k, e) ∈ tbl := by
  unfold ttLookup at h
  rw [Option.map_eq_some'] at h
  obtain ⟨kv, hfind, hsnd⟩ := h
  have hmem := List.mem_of_find?_eq_some hfind
  have hpred := List.find?_some hfind
  have hk : kv.1 = k := of_decide_eq_true hpred
  obtain ⟨k₀, e₀⟩ := kv
  cases hk
  cases hsnd
  exact hmem

theorem tableValid_nil (p : Player) : tableValid p [] := by
  intro ke hke
  cases hke

theorem tableValid_store {p : Player} {tbl : Table} {k : TKey} {e : TEntry}
    (ht : tableValid p tbl) (he : entryValid p (k, e)) :
    tableValid p (ttStore tbl k e) := by
  intro ke hke
  rcases List.mem_cons.mp hke with heq | hmem
  · rw [heq]
    exact he
  · exact ht ke hmem

theorem tableValid_lookup {p : Player} {tbl : Table} {k : TKey} {e : TEntry}
    (ht : tableValid p tbl) (h : ttLookup tbl k = some e) :
    entryValid p (k, e) :=
  ht (k, e) (ttLookup_mem h)

theorem mkBound_sound {v alpha beta : Ext} {t : Int} (hab : alpha < beta)
    (hb1 : alpha < .fin t → .fin t < beta → v = .fin t)
    (hb2 : .fin t ≤ alpha → .fin t ≤ v ∧ v ≤ alpha)
    (hb3 : beta ≤ .fin t → beta ≤ v ∧ v ≤ .fin t) :
    (mkBound v alpha beta = .exact → v = .fin t) ∧
    (mkBound v alpha beta = .lower → v ≤ .fin t) ∧
    (mkBound v alpha beta = .upper → .fin t ≤ v) := by
  by_cases h1 : Ext.fin t ≤ alpha
  · obtain ⟨htv, hva⟩ := hb2 h1
    have hmk : mkBound v alpha beta = .upper := by
      unfold mkBound
      rw [if_pos hva]
    rw [hmk]
    exact ⟨fun h => TBound.noConfusion h, fun h => TBound.noConfusion h, fun _ => htv⟩
  · by_cases h2 : beta ≤ Ext.fin t
    · obtain ⟨hbv, hvt⟩ := hb3 h2
      have hva : ¬ v ≤ alpha := Ext.not_le.mpr (Ext.lt_of_lt_of_le hab hbv)
      have hmk : mkBound v alpha beta = .lower := by
        unfold mkBound
        rw [if_neg hva, if_pos hbv]
      rw [hmk]
      exact ⟨fun h => TBound.noConfusion h, fun _ => hvt, fun h => TBound.noConfusion h⟩
    · have hat : alpha < Ext.fin t := Ext.not_le.mp h1
      have htb : Ext.fin t < beta := Ext.not_le.mp h2
      have hv := hb1 hat htb
      have hva : ¬ v ≤ alpha := by
        rw [hv]
        exact Ext.not_le.mpr hat
      have hbv : ¬ beta ≤ v := by
        rw [hv]
        exact Ext.not_le.mpr htb
      have hmk : mkBound v alpha beta = .exact := by
        unfold mkBound
        rw [if_neg hva, if_neg hbv]
      rw [hmk]
      exact ⟨fun _ => hv, fun h => TBound.noConfusion h, fun h => TBound.noConfusion h⟩

theorem hit_bands {e : TEntry} {alpha beta : Ext} {t : Int}
    (hab : alpha < beta)
    (husable : usableEntry e alpha beta = true)
    (hex : e.bound = .exact → e.score = .fin t)
    (hlo : e.bound = .lower → e.score ≤ .fin t)
    (hup : e.bound = .upper → .fin t ≤ e.score) :
    (alpha < .fin t → .fin t < beta → e.score = .fin t) ∧
    (.fin t ≤ alpha → .fin t ≤ e.score ∧ e.score ≤ alpha) ∧
    (beta ≤ .fin t → beta ≤ e.score ∧ e.score ≤ .fin t) := by
  cases hbd : e.bound with
  | exact =>
    have hv := hex hbd
    rw [hv]
    exact ⟨fun _ _ => rfl, fun h => ⟨Ext.le_refl _, h⟩, fun h => ⟨h, Ext.le_refl _⟩⟩
  | lower =>
    have hsc := hlo hbd
    have hus : beta ≤ e.score := by
      unfold usableEntry at husable
      rw [hbd] at husable
      exact of_decide_eq_true husable
    refine ⟨?_, ?_, fun h => ⟨hus, hsc⟩⟩
    · intro h1 h2
      exact absurd (Ext.lt_of_le_of_lt (Ext.le_trans hus hsc) h2) (Ext.lt_irrefl beta)
    · intro h
      exact absurd (Ext.lt_of_le_of_lt (Ext.le_trans hus (Ext.le_trans hsc h)) hab)
        (Ext.lt_irrefl beta)
  | upper =>
    have hsc := hup hbd
    have hus : e.score ≤ alpha := by
      unfold usableEntry at husable
      rw [hbd] at husable
      exact of_decide_eq_true husable
    refine ⟨?_, fun _ => ⟨hsc, hus⟩, ?_⟩
    · intro h1 h2
      exact absurd (Ext.lt_of_lt_of_le h1 (Ext.le_trans hsc hus)) (Ext.lt_irrefl alpha)
    · intro h
      exact absurd (Ext.lt_of_le_of_lt (Ext.le_trans hsc hus) (Ext.lt_of_lt_of_le hab h))
        (Ext.lt_irrefl (Ext.fin t))

theorem ttLoopMax_cons
    (rec : Board → Int → Ext → Ext → Player → Table → Option (Ext × Option Move × Nat × Table))
    (b : Board) (cur : Player) (d : Int) (beta : Ext) (p : Player) (m : Move)
    (rest : List Move) (me : Ext) (best : Option Move) (alpha : Ext) (nodes : Nat)
    (tbl : Table) {v : Ext} {mv : Option Move} {n : Nat} {tbl₁ : Table}
    (hcall : rec (childBoard b cur m) (d - 1) alpha beta p tbl = some (v, mv, n, tbl₁)) :
    ttLoopMax rec b cur d beta p (m :: rest) me best alpha nodes tbl =
      if beta ≤ emax alpha v then
        some ((if me < v then v else me), (if me < v then some m else best),
          nodes + n, tbl₁)
      else ttLoopMax rec b cur d beta p rest (if me < v then v else me)
        (if me < v then some m else best) (emax alpha v) (nodes + n) tbl₁ := by
  rw [ttLoopMax, hcall]

theorem ttLoopMax_cons_none
    (rec : Board → Int → Ext → Ext → Player → Table → Option (Ext × Option Move × Nat × Table))
    (b : Board) (cur : Player) (d : Int) (beta : Ext) (p : Player) (m : Move)
    (rest : List Move) (me : Ext) (best : Option Move) (alpha : Ext) (nodes : Nat)
    (tbl : Table)
    (hcall : rec (childBoard b cur m) (d - 1) alpha beta p tbl = none) :
    ttLoopMax rec b cur d beta p (m :: rest) me best alpha nodes tbl = none := by
  rw [ttLoopMax, hcall]

theorem ttLoopMin_cons
    (rec : Board → Int → Ext → Ext → Player → Table → Option (Ext × Option Move × Nat × Table))
    (b : Board) (cur : Player) (d : Int) (alpha : Ext) (p : Player) (m : Move)
    (rest : List Move) (me : Ext) (best : Option Move) (beta : Ext) (nodes : Nat)
    (tbl : Table) {v : Ext} {mv : Option Move} {n : Nat} {tbl₁ : Table}
    (hcall : rec (childBoard b cur m) (d - 1) alpha beta p tbl = some (v, mv, n, tbl₁)) :
    ttLoopMin rec b cur d alpha p (m :: rest) me best beta nodes tbl =
      if emin beta v ≤ alpha then
        some ((if v < me then v else me), (if v < me then some m else best),
          nodes + n, tbl₁)
      else ttLoopMin rec b cur d alpha p rest (if v < me then v else me)
        (if v < me then some m else best) (emin beta v) (nodes + n) tbl₁ := by
  rw [ttLoopMin, hcall]

theorem ttLoopMin_cons_none
    (rec : Board → Int → Ext → Ext → Player → Table → Option (Ext × Option Move × Nat × Table))
    (b : Board) (cur : Player) (d : Int) (alpha : Ext) (p : Player) (m : Move)
    (rest : List Move) (me : Ext) (best : Option Move) (beta : Ext) (nodes : Nat)
    (tbl : Table)
    (hcall : rec (childBoard b cur m) (d - 1) alpha beta p tbl = none) :
    ttLoopMin rec b cur d alpha p (m :: rest) me best beta nodes tbl = none := by
  rw [ttLoopMin, hcall]

theorem ttF_eq_term (f : Nat) (b : Board) (d : Int) (alpha beta : Ext) (maxing : Bool)
    (p : Player) (tbl : Table) (hterm : d = 0 ∨ isGameOver b = true) :
    ttF (f + 1) b d alpha beta maxing p tbl
      = some (.fin (evaluatePosition b p), none, 1, tbl) := by
  rw [ttF, if_pos hterm]

theorem ttF_eq_hit (f : Nat) (b : Board) (d : Int) (alpha beta : Ext) (maxing : Bool)
    (p : Player) (tbl : Table) (hterm : ¬ (d = 0 ∨ isGameOver b = true)) {e : TEntry}
    (hlk : (ttLookup tbl (b.grid, maxing, d)).filter
      (fun e => usableEntry e alpha beta) = some e) :
    ttF (f + 1) b d alpha beta maxing p tbl = some (e.score, e.best, 1, tbl) := by
  rw [ttF, if_neg hterm]
  simp only [hlk]

theorem ttF_eq_pass (f : Nat) (b : Board) (d : Int) (alpha beta : Ext) (maxing : Bool)
    (p : Player) (tbl : Table) (hterm : ¬ (d = 0 ∨ isGameOver b = true))
    (hlk : (ttLookup tbl (b.grid, maxing, d)).filter
      (fun e => usableEntry e alpha beta) = none)
    (hmoves : getValidMoves b (if maxing then p else p.other) = []) :
    ttF (f + 1) b d alpha beta maxing p tbl =
      match ttF f b (d - 1) alpha beta (!maxing) p tbl with
      | none => none
      | some (v, mv, n, tbl') =>
        some (v, mv, n + 1,
          ttStore tbl' (b.grid, maxing, d) ⟨v, mv, mkBound v alpha beta, d⟩) := by
  rw [ttF, if_neg hterm]
  simp only [hlk]
  rw [if_pos hmoves]

theorem ttF_eq_max (f : Nat) (b : Board) (d : Int) (alpha beta : Ext)
    (p : Player) (tbl : Table) (hterm : ¬ (d = 0 ∨ isGameOver b = true))
    (hlk : (ttLookup tbl (b.grid, true, d)).filter
      (fun e => usableEntry e alpha beta) = none)
    (hmoves : ¬ getValidMoves b p = []) :
    ttF (f + 1) b d alpha beta true p tbl =
      match ttLoopMax (fun b' d' a' b'' p' t' => ttF f b' d' a' b'' false p' t')
          b p d beta p (getValidMoves b p) .ninf none alpha 0 tbl with
      | none => none
      | some (v, mv, n, tbl') =>
        some (v, mv, n + 1,
          ttStore tbl' (b.grid, true, d) ⟨v, mv, mkBound v alpha beta, d⟩) := by
  rw [ttF, if_neg hterm]
  simp only [hlk, if_true]
  rw [if_neg hmoves]

theorem ttF_eq_min (f : Nat) (b : Board) (d : Int) (alpha beta : Ext)
    (p : Player) (tbl : Table) (hterm : ¬ (d = 0 ∨ isGameOver b = true))
    (hlk : (ttLookup tbl (b.grid, false, d)).filter
      (fun e => usableEntry e alpha beta) = none)
    (hmoves : ¬ getValidMoves b p.other = []) :
    ttF (f + 1) b d alpha beta false p tbl =
      match ttLoopMin (fun b' d' a' b'' p' t' => ttF f b' d' a' b'' true p' t')
          b p.other d alpha p (getValidMoves b p.other) .pinf none beta 0 tbl with
      | none => none
      | some (v, mv, n, tbl') =>
        some (v, mv, n + 1,
          ttStore tbl' (b.grid, false, d) ⟨v, mv, mkBound v alpha beta, d⟩) := by
  rw [ttF, if_neg hterm]
  simp only [hlk]
  rw [if_neg (show ¬ getValidMoves b (if false = true then p else p.other) = []
    from hmoves)]
  rw [if_neg (show ¬ false = true from by simp)]
  rfl

/-! ### Lockstep simulation of the two searches through the move loops -/

theorem tt_loop_max_sim (f : Nat) (b : Board) (d : Int) (beta : Ext) (p : Player)
    (vt : Move → Ext) :
    ∀ (ms : List Move),
      (∀ m ∈ ms, ∃ tm : Int, vt m = .fin tm ∧
        ∀ a' b'' : Ext, a' < b'' →
          (∃ (vA : Ext) (mvA : Option Move) (nA : Nat),
            abF f (childBoard b p m) (d - 1) a' b'' false p = some (vA, mvA, nA) ∧
            (a' < .fin tm → .fin tm < b'' → vA = .fin tm) ∧
            (.fin tm ≤ a' → .fin tm ≤ vA ∧ vA ≤ a') ∧
            (b'' ≤ .fin tm → b'' ≤ vA ∧ vA ≤ .fin tm)) ∧
          ∀ tbl : Table, tableValid p tbl →
            ∃ (vT : Ext) (mvT : Option Move) (nT : Nat) (tbl' : Table),
              ttF f (childBoard b p m) (d - 1) a' b'' false p tbl
                = some (vT, mvT, nT, tbl') ∧
              tableValid p tbl' ∧
              (∀ (vA : Ext) (mvA : Option Move) (nA : Nat),
                abF f (childBoard b p m) (d - 1) a' b'' false p = some (vA, mvA, nA) →
                nT ≤ nA) ∧
              (a' < .fin tm → .fin tm < b'' → vT = .fin tm) ∧
              (.fin tm ≤ a' → .fin tm ≤ vT ∧ vT ≤ a') ∧
              (b'' ≤ .fin tm → b'' ≤ vT ∧ vT ≤ .fin tm)) →
      ∀ (meA : Ext) (bestA : Option Move) (meT : Ext) (bestT : Option Move)
        (alpha : Ext) (n0A n0T : Nat) (tbl : Table),
        tableValid p tbl → meA ≤ alpha → meT ≤ alpha → alpha < beta → n0T ≤ n0A →
        ∃ (vA : Ext) (bvA : Option Move) (nA : Nat),
          abLoopMax (fun b' d' a' b'' p' => abF f b' d' a' b'' false p') b p d beta p
            ms meA bestA alpha n0A = some (vA, bvA, nA) ∧
          ∃ (vT : Ext) (bvT : Option Move) (nT : Nat) (tbl' : Table),
            ttLoopMax (fun b' d' a' b'' p' t' => ttF f b' d' a' b'' false p' t')
              b p d beta p ms meT bestT alpha n0T tbl = some (vT, bvT, nT, tbl') ∧
            tableValid p tbl' ∧ nT ≤ nA ∧
            meT ≤ vT ∧
            (foldMaxVal vt ms ≤ alpha → foldMaxVal vt ms ≤ vT ∧ vT ≤ alpha) ∧
            (alpha < foldMaxVal vt ms → foldMaxVal vt ms < beta →
              vT = foldMaxVal vt ms) ∧
            (beta ≤ foldMaxVal vt ms → beta ≤ vT ∧ vT ≤ emax meT (foldMaxVal vt ms)) ∧
            (beta = .pinf → meT = alpha →
              vT = emax meT (foldMaxVal vt ms) ∧
              bvT = pickFirstBest vt ms bestT meT) := by
  intro ms
  induction ms with
  | nil =>
    intro hchild meA bestA meT bestT alpha n0A n0T tbl htbl hmeA hmeT hab hn0
    refine ⟨meA, bestA, n0A, rfl, meT, bestT, n0T, tbl, rfl, htbl, hn0,
      Ext.le_refl meT, ?_, ?_, ?_, ?_⟩
    · intro h
      exact ⟨Ext.ninf_le meT, hmeT⟩
    · intro h1 h2
      exact absurd h1 (Ext.not_lt_ninf alpha)
    · intro h
      exact absurd (Ext.lt_of_lt_of_le hab h) (Ext.not_lt_ninf alpha)
    · intro hpinf hmeq
      exact ⟨(emax_eq_left (Ext.ninf_le meT)).symm, rfl⟩
  | cons m rest ih =>
    intro hchild meA bestA meT bestT alpha n0A n0T tbl htbl hmeA hmeT hab hn0
    obtain ⟨tm, hvtm, hband⟩ := hchild m (List.mem_cons_self _ _)
    obtain ⟨hA, hT⟩ := hband alpha beta hab
    obtain ⟨vA₁, mvA₁, nA₁, hcallA, hbA1, hbA2, hbA3⟩ := hA
    obtain ⟨vT₁, mvT₁, nT₁, tbl₁, hcallT, hval₁, hcount₁, hbT1, hbT2, hbT3⟩ :=
      hT tbl htbl
    have hn₁ : nT₁ ≤ nA₁ := hcount₁ vA₁ mvA₁ nA₁ hcallA
    have hloopA := abLoopMax_cons (fun b' d' a' b'' p' => abF f b' d' a' b'' false p')
      b p d beta p m rest meA bestA alpha n0A hcallA
    have hloopT := ttLoopMax_cons (fun b' d' a' b'' p' t' => ttF f b' d' a' b'' false p' t')
      b p d beta p m rest meT bestT alpha n0T tbl hcallT
    rw [foldMaxVal_cons, hvtm]
    have hchildrest := fun m' hm' => hchild m' (List.mem_cons_of_mem _ hm')
    by_cases hc3 : beta ≤ Ext.fin tm
    · obtain ⟨hvAβ, hvAtm⟩ := hbA3 hc3
      obtain ⟨hvTβ, hvTtm⟩ := hbT3 hc3
      have hcutA : beta ≤ emax alpha vA₁ := Ext.le_trans hvAβ (le_emax_right alpha vA₁)
      have hcutT : beta ≤ emax alpha vT₁ := Ext.le_trans hvTβ (le_emax_right alpha vT₁)
      refine ⟨(if meA < vA₁ then vA₁ else meA), (if meA < vA₁ then some m else bestA),
        n0A + nA₁, ?_, emax meT vT₁, (if meT < vT₁ then some m else bestT),
        n0T + nT₁, tbl₁, ?_, hval₁, by omega, le_emax_left meT vT₁, ?_, ?_, ?_, ?_⟩
      · rw [hloopA, if_pos hcutA]
      · rw [hloopT, if_pos hcutT, updMax_eq_emax]
      · intro h
        have hba : beta ≤ alpha :=
          Ext.le_trans hc3 (Ext.le_trans (le_emax_left _ _) h)
        exact absurd hba (Ext.not_le.mpr hab)
      · intro h1 h2
        exact absurd h2 (Ext.not_lt.mpr (Ext.le_trans hc3 (le_emax_left _ _)))
      · intro h
        refine ⟨Ext.le_trans hvTβ (le_emax_right meT vT₁), ?_⟩
        apply emax_le
        · exact le_emax_left meT _
        · exact Ext.le_trans hvTtm
            (Ext.le_trans (le_emax_left (Ext.fin tm) _) (le_emax_right meT _))
      · intro hpinf hmeq
        rw [hpinf] at hc3
        exact absurd hc3 (Ext.not_pinf_le_fin tm)
    · by_cases hc1 : Ext.fin tm ≤ alpha
      · obtain ⟨htmvA, hvAα⟩ := hbA2 hc1
        obtain ⟨htmvT, hvTα⟩ := hbT2 hc1
        have hnocutA : ¬ beta ≤ emax alpha vA₁ := by
          rw [emax_eq_left hvAα]
          exact Ext.not_le.mpr hab
        have hnocutT : ¬ beta ≤ emax alpha vT₁ := by
          rw [emax_eq_left hvTα]
          exact Ext.not_le.mpr hab
        rw [hloopA, if_neg hnocutA, updMax_eq_emax, emax_eq_left hvAα,
          hloopT, if_neg hnocutT, updMax_eq_emax, emax_eq_left hvTα]
        obtain ⟨vA, bvA, nA, hrecA, vT, bvT, nT, tbl', hrecT, hval', hcount,
          hmev, hC2, hC3, hC4, hC5⟩ :=
          ih hchildrest (emax meA vA₁) (if meA < vA₁ then some m else bestA)
            (emax meT vT₁) (if meT < vT₁ then some m else bestT) alpha
            (n0A + nA₁) (n0T + nT₁) tbl₁ hval₁
            (emax_le hmeA hvAα) (emax_le hmeT hvTα) hab (by omega)
        refine ⟨vA, bvA, nA, hrecA, vT, bvT, nT, tbl', hrecT, hval', hcount,
          Ext.le_trans (le_emax_left meT vT₁) hmev, ?_, ?_, ?_, ?_⟩
        · intro h
          rw [emax_le_iff] at h
          obtain ⟨hTrv, hvα⟩ := hC2 h.2
          refine ⟨emax_le ?_ hTrv, hvα⟩
          exact Ext.le_trans htmvT (Ext.le_trans (le_emax_right meT vT₁) hmev)
        · intro h1 h2
          have hTT : emax (Ext.fin tm) (foldMaxVal vt rest) = foldMaxVal vt rest := by
            rcases emax_eq_or (Ext.fin tm) (foldMaxVal vt rest) with he | he
            · rw [he] at h1
              exact absurd h1 (Ext.not_lt.mpr hc1)
            · exact he
          rw [hTT] at h1 h2 ⊢
          exact hC3 h1 h2
        · intro h
          have hTT : emax (Ext.fin tm) (foldMaxVal vt rest) = foldMaxVal vt rest := by
            rcases emax_eq_or (Ext.fin tm) (foldMaxVal vt rest) with he | he
            · rw [he] at h
              exact absurd h hc3
            · exact he
          rw [hTT] at h ⊢
          obtain ⟨hβv, hvB⟩ := hC4 h
          refine ⟨hβv, Ext.le_trans hvB ?_⟩
          apply emax_le
          · apply emax_le
            · exact le_emax_left meT _
            · exact Ext.le_trans hvTα (Ext.le_trans (Ext.le_of_lt hab)
                (Ext.le_trans h (le_emax_right meT _)))
          · exact le_emax_right meT _
        · intro hpinf hmeq
          have hvTme : vT₁ ≤ meT := by
            rw [hmeq]
            exact hvTα
          have hme' : emax meT vT₁ = meT := emax_eq_left hvTme
          have hbest' : (if meT < vT₁ then some m else bestT) = bestT :=
            if_neg (Ext.not_lt.mpr hvTme)
          obtain ⟨hveq, hbv⟩ := hC5 hpinf (by rw [hme']; exact hmeq)
          constructor
          · rw [hveq, hme', ← emax_assoc,
              emax_eq_left (Ext.le_trans htmvT hvTme)]
          · rw [hbv, hbest', hme']
            rw [pickFirstBest, hvtm,
              if_neg (Ext.not_lt.mpr (Ext.le_trans htmvT hvTme))]
      · have hαtm : alpha < Ext.fin tm := Ext.not_le.mp hc1
        have htmβ : Ext.fin tm < beta := Ext.not_le.mp hc3
        have hvAeq : vA₁ = Ext.fin tm := hbA1 hαtm htmβ
        have hvTeq : vT₁ = Ext.fin tm := hbT1 hαtm htmβ
        subst hvAeq
        subst hvTeq
        have hupdA : meA < Ext.fin tm := Ext.lt_of_le_of_lt hmeA hαtm
        have hupdT : meT < Ext.fin tm := Ext.lt_of_le_of_lt hmeT hαtm
        have hnocut : ¬ beta ≤ emax alpha (Ext.fin tm) := by
          rw [emax_eq_right (Ext.le_of_lt hαtm)]
          exact Ext.not_le.mpr htmβ
        rw [hloopA, if_neg hnocut, if_pos hupdA, if_pos hupdA,
          hloopT, if_neg hnocut, if_pos hupdT, if_pos hupdT,
          emax_eq_right (Ext.le_of_lt hαtm)]
        obtain ⟨vA, bvA, nA, hrecA, vT, bvT, nT, tbl', hrecT, hval', hcount,
          hmev, hC2, hC3, hC4, hC5⟩ :=
          ih hchildrest (Ext.fin tm) (some m) (Ext.fin tm) (some m) (Ext.fin tm)
            (n0A + nA₁) (n0T + nT₁) tbl₁ hval₁
            (Ext.le_refl _) (Ext.le_refl _) htmβ (by omega)
        refine ⟨vA, bvA, nA, hrecA, vT, bvT, nT, tbl', hrecT, hval', hcount,
          Ext.le_trans (Ext.le_of_lt hupdT) hmev, ?_, ?_, ?_, ?_⟩
        · intro h
          rw [emax_le_iff] at h
          exact absurd h.1 (Ext.not_le.mpr hαtm)
        · intro h1 h2
          by_cases hTr : foldMaxVal vt rest ≤ Ext.fin tm
          · rw [emax_eq_left hTr]
            obtain ⟨hTrv, hvtm'⟩ := hC2 hTr
            exact Ext.le_antisymm hvtm' hmev
          · have hlt : Ext.fin tm < foldMaxVal vt rest := Ext.not_le.mp hTr
            have hTT : emax (Ext.fin tm) (foldMaxVal vt rest) = foldMaxVal vt rest :=
              emax_eq_right (Ext.le_of_lt hlt)
            rw [hTT] at h1 h2 ⊢
            exact hC3 hlt h2
        · intro h
          have hTT : emax (Ext.fin tm) (foldMaxVal vt rest) = foldMaxVal vt rest := by
            rcases emax_eq_or (Ext.fin tm) (foldMaxVal vt rest) with he | he
            · rw [he] at h
              exact absurd h hc3
            · exact he
          rw [hTT] at h ⊢
          obtain ⟨hβv, hvB⟩ := hC4 h
          refine ⟨hβv, ?_⟩
          have h1 : emax (Ext.fin tm) (foldMaxVal vt rest) = foldMaxVal vt rest :=
            emax_eq_right (Ext.le_of_lt (Ext.lt_of_lt_of_le htmβ h))
          have h2 : emax meT (foldMaxVal vt rest) = foldMaxVal vt rest :=
            emax_eq_right (Ext.le_of_lt
              (Ext.lt_of_le_of_lt hmeT (Ext.lt_of_lt_of_le hab h)))
          rw [h2]
          rw [h1] at hvB
          exact hvB
        · intro hpinf hmeq
          obtain ⟨hveq, hbv⟩ := hC5 hpinf rfl
          constructor
          · rw [hveq]
            exact (emax_eq_right (Ext.le_trans (Ext.le_of_lt hupdT)
              (le_emax_left (Ext.fin tm) _))).symm
          · rw [hbv]
            show pickFirstBest vt rest (some m) (Ext.fin tm) =
              pickFirstBest vt (m :: rest) bestT meT
            rw [pickFirstBest, hvtm, if_pos hupdT]

theorem tt_loop_min_sim (f : Nat) (b : Board) (d : Int) (alpha : Ext) (cur p : Player)
    (vt : Move → Ext) :
    ∀ (ms : List Move),
      (∀ m ∈ ms, ∃ tm : Int, vt m = .fin tm ∧
        ∀ a' b'' : Ext, a' < b'' →
          (∃ (vA : Ext) (mvA : Option Move) (nA : Nat),
            abF f (childBoard b cur m) (d - 1) a' b'' true p = some (vA, mvA, nA) ∧
            (a' < .fin tm → .fin tm < b'' → vA = .fin tm) ∧
            (.fin tm ≤ a' → .fin tm ≤ vA ∧ vA ≤ a') ∧
            (b'' ≤ .fin tm → b'' ≤ vA ∧ vA ≤ .fin tm)) ∧
          ∀ tbl : Table, tableValid p tbl →
            ∃ (vT : Ext) (mvT : Option Move) (nT : Nat) (tbl' : Table),
              ttF f (childBoard b cur m) (d - 1) a' b'' true p tbl
                = some (vT, mvT, nT, tbl') ∧
              tableValid p tbl' ∧
              (∀ (vA : Ext) (mvA : Option Move) (nA : Nat),
                abF f (childBoard b cur m) (d - 1) a' b'' true p = some (vA, mvA, nA) →
                nT ≤ nA) ∧
              (a' < .fin tm → .fin tm < b'' → vT = .fin tm) ∧
              (.fin tm ≤ a' → .fin tm ≤ vT ∧ vT ≤ a') ∧
              (b'' ≤ .fin tm → b'' ≤ vT ∧ vT ≤ .fin tm)) →
      ∀ (meA : Ext) (bestA : Option Move) (meT : Ext) (bestT : Option Move)
        (beta : Ext) (n0A n0T : Nat) (tbl : Table),
        tableValid p tbl → beta ≤ meA → beta ≤ meT → alpha < beta → n0T ≤ n0A →
        ∃ (vA : Ext) (bvA : Option Move) (nA : Nat),
          abLoopMin (fun b' d' a' b'' p' => abF f b' d' a' b'' true p') b cur d alpha p
            ms meA bestA beta n0A = some (vA, bvA, nA) ∧
          ∃ (vT : Ext) (bvT : Option Move) (nT : Nat) (tbl' : Table),
            ttLoopMin (fun b' d' a' b'' p' t' => ttF f b' d' a' b'' true p' t')
              b cur d alpha p ms meT bestT beta n0T tbl = some (vT, bvT, nT, tbl') ∧
            tableValid p tbl' ∧ nT ≤ nA ∧
            vT ≤ meT ∧
            (beta ≤ foldMinVal vt ms → beta ≤ vT ∧ vT ≤ foldMinVal vt ms) ∧
            (alpha < foldMinVal vt ms → foldMinVal vt ms < beta →
              vT = foldMinVal vt ms) ∧
            (foldMinVal vt ms ≤ alpha →
              emin meT (foldMinVal vt ms) ≤ vT ∧ vT ≤ alpha) := by
  intro ms
  induction ms with
  | nil =>
    intro hchild meA bestA meT bestT beta n0A n0T tbl htbl hmeA hmeT hab hn0
    refine ⟨meA, bestA, n0A, rfl, meT, bestT, n0T, tbl, rfl, htbl, hn0,
      Ext.le_refl meT, ?_, ?_, ?_⟩
    · intro h
      exact ⟨hmeT, Ext.le_pinf meT⟩
    · intro h1 h2
      exact absurd h2 (Ext.not_pinf_lt beta)
    · intro h
      exact absurd (Ext.lt_of_le_of_lt h hab) (Ext.not_pinf_lt beta)
  | cons m rest ih =>
    intro hchild meA bestA meT bestT beta n0A n0T tbl htbl hmeA hmeT hab hn0
    obtain ⟨tm, hvtm, hband⟩ := hchild m (List.mem_cons_self _ _)
    obtain ⟨hA, hT⟩ := hband alpha beta hab
    obtain ⟨vA₁, mvA₁, nA₁, hcallA, hbA1, hbA2, hbA3⟩ := hA
    obtain ⟨vT₁, mvT₁, nT₁, tbl₁, hcallT, hval₁, hcount₁, hbT1, hbT2, hbT3⟩ :=
      hT tbl htbl
    have hn₁ : nT₁ ≤ nA₁ := hcount₁ vA₁ mvA₁ nA₁ hcallA
    have hloopA := abLoopMin_cons (fun b' d' a' b'' p' => abF f b' d' a' b'' true p')
      b cur d alpha p m rest meA bestA beta n0A hcallA
    have hloopT := ttLoopMin_cons (fun b' d' a' b'' p' t' => ttF f b' d' a' b'' true p' t')
      b cur d alpha p m rest meT bestT beta n0T tbl hcallT
    rw [foldMinVal_cons, hvtm]
    have hchildrest := fun m' hm' => hchild m' (List.mem_cons_of_mem _ hm')
    by_cases hc1 : Ext.fin tm ≤ alpha
    · obtain ⟨htmvA, hvAα⟩ := hbA2 hc1
      obtain ⟨htmvT, hvTα⟩ := hbT2 hc1
      have hcutA : emin beta vA₁ ≤ alpha := Ext.le_trans (emin_le_right beta vA₁) hvAα
      have hcutT : emin beta vT₁ ≤ alpha := Ext.le_trans (emin_le_right beta vT₁) hvTα
      refine ⟨(if vA₁ < meA then vA₁ else meA), (if vA₁ < meA then some m else bestA),
        n0A + nA₁, ?_, emin meT vT₁, (if vT₁ < meT then some m else bestT),
        n0T + nT₁, tbl₁, ?_, hval₁, by omega, emin_le_left meT vT₁, ?_, ?_, ?_⟩
      · rw [hloopA, if_pos hcutA]
      · rw [hloopT, if_pos hcutT, updMin_eq_emin]
      · intro h
        have hba : beta ≤ alpha :=
          Ext.le_trans (Ext.le_trans h (emin_le_left _ _)) hc1
        exact absurd hba (Ext.not_le.mpr hab)
      · intro h1 h2
        exact absurd (Ext.lt_of_lt_of_le h1 (emin_le_left _ _)) (Ext.not_lt.mpr hc1)
      · intro h
        refine ⟨?_, Ext.le_trans (emin_le_right meT vT₁) hvTα⟩
        apply le_emin
        · exact emin_le_left meT _
        · exact Ext.le_trans (Ext.le_trans (emin_le_right meT _)
            (emin_le_left (Ext.fin tm) _)) htmvT
    · by_cases hc3 : beta ≤ Ext.fin tm
      · obtain ⟨hβvA, hvAtm⟩ := hbA3 hc3
        obtain ⟨hβvT, hvTtm⟩ := hbT3 hc3
        have hnocutA : ¬ emin beta vA₁ ≤ alpha := by
          rw [emin_eq_left hβvA]
          exact Ext.not_le.mpr hab
        have hnocutT : ¬ emin beta vT₁ ≤ alpha := by
          rw [emin_eq_left hβvT]
          exact Ext.not_le.mpr hab
        rw [hloopA, if_neg hnocutA, updMin_eq_emin, emin_eq_left hβvA,
          hloopT, if_neg hnocutT, updMin_eq_emin, emin_eq_left hβvT]
        obtain ⟨vA, bvA, nA, hrecA, vT, bvT, nT, tbl', hrecT, hval', hcount,
          hmev, hC2, hC3, hC4⟩ :=
          ih hchildrest (emin meA vA₁) (if vA₁ < meA then some m else bestA)
            (emin meT vT₁) (if vT₁ < meT then some m else bestT) beta
            (n0A + nA₁) (n0T + nT₁) tbl₁ hval₁
            (le_emin hmeA hβvA) (le_emin hmeT hβvT) hab (by omega)
        refine ⟨vA, bvA, nA, hrecA, vT, bvT, nT, tbl', hrecT, hval', hcount,
          Ext.le_trans hmev (emin_le_left meT vT₁), ?_, ?_, ?_⟩
        · intro h
          rw [emin_le_iff] at h
          obtain ⟨hβv, hvTr⟩ := hC2 h.2
          refine ⟨hβv, le_emin ?_ hvTr⟩
          exact Ext.le_trans hmev (Ext.le_trans (emin_le_right meT vT₁) hvTtm)
        · intro h1 h2
          have hTT : emin (Ext.fin tm) (foldMinVal vt rest) = foldMinVal vt rest := by
            rcases emin_eq_or (Ext.fin tm) (foldMinVal vt rest) with he | he
            · rw [he] at h2
              exact absurd h2 (Ext.not_lt.mpr hc3)
            · exact he
          rw [hTT] at h1 h2 ⊢
          exact hC3 h1 h2
        · intro h
          have hTT : emin (Ext.fin tm) (foldMinVal vt rest) = foldMinVal vt rest := by
            rcases emin_eq_or (Ext.fin tm) (foldMinVal vt rest) with he | he
            · rw [he] at h
              exact absurd (Ext.le_trans hc3 h) (Ext.not_le.mpr hab)
            · exact he
          rw [hTT] at h ⊢
          obtain ⟨hlow, hvα⟩ := hC4 h
          refine ⟨Ext.le_trans ?_ hlow, hvα⟩
          apply le_emin
          · apply le_emin
            · exact emin_le_left meT _
            · exact Ext.le_trans (emin_le_right meT _)
                (Ext.le_trans h (Ext.le_trans (Ext.le_of_lt hab) hβvT))
          · exact emin_le_right meT _
      · have hαtm : alpha < Ext.fin tm := Ext.not_le.mp hc1
        have htmβ : Ext.fin tm < beta := Ext.not_le.mp hc3
        have hvAeq : vA₁ = Ext.fin tm := hbA1 hαtm htmβ
        have hvTeq : vT₁ = Ext.fin tm := hbT1 hαtm htmβ
        subst hvAeq
        subst hvTeq
        have hupdA : Ext.fin tm < meA := Ext.lt_of_lt_of_le htmβ hmeA
        have hupdT : Ext.fin tm < meT := Ext.lt_of_lt_of_le htmβ hmeT
        have hnocut : ¬ emin beta (Ext.fin tm) ≤ alpha := by
          rw [emin_eq_right (Ext.le_of_lt htmβ)]
          exact hc1
        rw [hloopA, if_neg hnocut, if_pos hupdA, if_pos hupdA,
          hloopT, if_neg hnocut, if_pos hupdT, if_pos hupdT,
          emin_eq_right (Ext.le_of_lt htmβ)]
        obtain ⟨vA, bvA, nA, hrecA, vT, bvT, nT, tbl', hrecT, hval', hcount,
          hmev, hC2, hC3, hC4⟩ :=
          ih hchildrest (Ext.fin tm) (some m) (Ext.fin tm) (some m) (Ext.fin tm)
            (n0A + nA₁) (n0T + nT₁) tbl₁ hval₁
            (Ext.le_refl _) (Ext.le_refl _) hαtm (by omega)
        refine ⟨vA, bvA, nA, hrecA, vT, bvT, nT, tbl', hrecT, hval', hcount,
          Ext.le_trans hmev (Ext.le_of_lt hupdT), ?_, ?_, ?_⟩
        · intro h
          rw [emin_le_iff] at h
          exact absurd h.1 hc3
        · intro h1 h2
          by_cases hTr : Ext.fin tm ≤ foldMinVal vt rest
          · rw [emin_eq_left hTr]
            obtain ⟨htmv, hvTr⟩ := hC2 hTr
            exact Ext.le_antisymm hmev htmv
          · have hlt : foldMinVal vt rest < Ext.fin tm := Ext.not_le.mp hTr
            have hTT : emin (Ext.fin tm) (foldMinVal vt rest) = foldMinVal vt rest :=
              emin_eq_right (Ext.le_of_lt hlt)
            rw [hTT] at h1 h2 ⊢
            exact hC3 h1 hlt
        · intro h
          have hTT : emin (Ext.fin tm) (foldMinVal vt rest) = foldMinVal vt rest := by
            rcases emin_eq_or (Ext.fin tm) (foldMinVal vt rest) with he | he
            · rw [he] at h
              exact absurd h hc1
            · exact he
          rw [hTT] at h ⊢
          obtain ⟨hlow, hvα⟩ := hC4 h
          refine ⟨Ext.le_trans ?_ hlow, hvα⟩
          apply le_emin
          · exact Ext.le_trans (emin_le_right meT _)
              (Ext.le_trans h (Ext.le_of_lt hαtm))
          · exact emin_le_right meT _

theorem filter_lookup_some {tbl : Table} {k : TKey} {alpha beta : Ext} {e : TEntry}
    (h : (ttLookup tbl k).filter (fun e => usableEntry e alpha beta) = some e) :
    ttLookup tbl k = some e ∧ usableEntry e alpha beta = true := by
  cases hfind : ttLookup tbl k with
  | none =>
    rw [hfind] at h
    cases h
  | some e₀ =>
    rw [hfind, Option.filter_some] at h
    by_cases hp : usableEntry e₀ alpha beta = true
    · rw [if_pos hp] at h
      have he := Option.some.inj h
      rw [he] at hp
      exact ⟨congrArg some he, hp⟩
    · rw [if_neg hp] at h
      cases h

/-- A freshly computed node result, tagged by `mkBound`, is a sound entry
for the node's fingerprint: its bound relation holds for every well-formed
board sharing the grid, by grid determinism of the exhaustive value. -/
theorem store_entry_valid {b : Board} {p : Player} {d : Int} {maxing : Bool}
    {v : Ext} {mv : Option Move} {t : Int} {alpha beta : Ext} {F : Nat}
    (hWF : b.WF) (hab : alpha < beta)
    (ht0 : exhaustiveF F b d maxing p = some (.fin t))
    (hb1 : alpha < .fin t → .fin t < beta → v = .fin t)
    (hb2 : .fin t ≤ alpha → .fin t ≤ v ∧ v ≤ alpha)
    (hb3 : beta ≤ .fin t → beta ≤ v ∧ v ≤ .fin t) :
    entryValid p ((b.grid, maxing, d), ⟨v, mv, mkBound v alpha beta, d⟩) := by
  intro b' hWF' hg'
  have hbit' := moveBit_le_one b' (if maxing then p else p.other)
  obtain ⟨t'', hb''⟩ := plain_some (fuelStd b') b' d maxing p hWF'
    (by unfold fuelStd; omega)
  have hgr : exhaustiveF (fuelStd b') b' d maxing p
      = exhaustiveF (fuelStd b') b d maxing p :=
    plain_grid (fuelStd b') b' b d maxing p hWF' hWF hg' (by unfold fuelStd; omega)
  have hb''b : exhaustiveF (fuelStd b') b d maxing p = some (.fin t'') :=
    hgr.symm.trans hb''
  have hagree : Ext.fin t = Ext.fin t'' := plain_agree ht0 hb''b
  obtain ⟨hex, hlo, hup⟩ := mkBound_sound hab hb1 hb2 hb3
  refine ⟨t'', hb'', ?_, ?_, ?_⟩
  · intro h
    exact (hex h).trans hagree
  · intro h
    exact hagree ▸ hlo h
  · intro h
    exact hagree ▸ hup h

/-- Node-level simulation: with any sound table, the table-enabled search
returns a value in the same fail-soft bands as the plain pruned search,
visits at most as many nodes, keeps the table sound, and — when started
with the empty table at the root window — returns exactly the exhaustive
score and the same first-best move as the plain search. -/
theorem tt_sim : ∀ (f : Nat) (b : Board) (d : Int) (maxing : Bool) (p : Player),
    b.WF → 2 * emptyCount b + moveBit b (if maxing then p else p.other) < f →
    ∀ t : Int, exhaustiveF f b d maxing p = some (.fin t) →
    ∀ alpha beta : Ext, alpha < beta →
    ∀ tbl : Table, tableValid p tbl →
    ∃ (vA : Ext) (mvA : Option Move) (nA : Nat),
      abF f b d alpha beta maxing p = some (vA, mvA, nA) ∧
      ∃ (vT : Ext) (mvT : Option Move) (nT : Nat) (tbl' : Table),
        ttF f b d alpha beta maxing p tbl = some (vT, mvT, nT, tbl') ∧
        tableValid p tbl' ∧ nT ≤ nA ∧
        (alpha < .fin t → .fin t < beta → vT = .fin t) ∧
        (.fin t ≤ alpha → .fin t ≤ vT ∧ vT ≤ alpha) ∧
        (beta ≤ .fin t → beta ≤ vT ∧ vT ≤ .fin t) ∧
        (tbl = [] → alpha = .ninf → beta = .pinf → maxing = true → ¬ d = 0 →
          ¬ getValidMoves b p = [] →
          vT = .fin t ∧
          mvT = pickFirstBest (childVal b p d true p) (getValidMoves b p) none .ninf) := by
  intro f
  induction f with
  | zero =>
    intro b d maxing p hWF hfuel t hplain alpha beta hab tbl htbl
    cases hplain
  | succ f ih =>
    intro b d maxing p hWF hfuel t hplain alpha beta hab tbl htbl
    have ht0 := hplain
    by_cases hterm : d = 0 ∨ isGameOver b = true
    · rw [exhaustiveF_eq_term f b d maxing p hterm] at hplain
      have ht : evaluatePosition b p = t := Ext.fin.inj (Option.some.inj hplain)
      refine ⟨.fin t, none, 1, ?_, .fin t, none, 1, tbl, ?_, htbl, Nat.le_refl 1,
        ?_, ?_, ?_, ?_⟩
      · rw [abF_eq_term f b d alpha beta maxing p hterm, ht]
      · rw [ttF_eq_term f b d alpha beta maxing p tbl hterm, ht]
      · intro _ _
        rfl
      · intro h
        exact ⟨Ext.le_refl _, h⟩
      · intro h
        exact ⟨h, Ext.le_refl _⟩
      · intro htnil hn hp hm hd0 hmv
        rcases hterm with hd | hgo
        · exact absurd hd hd0
        · exact absurd (gameOver_no_moves hgo p) hmv
    · have hngo : ¬ isGameOver b = true := fun hh => hterm (Or.inr hh)
      cases hlk : (ttLookup tbl (b.grid, maxing, d)).filter
          (fun e => usableEntry e alpha beta) with
      | some e =>
        obtain ⟨hfind, husable⟩ := filter_lookup_some hlk
        obtain ⟨vA, mvA, nA, habf, _, _, _, _⟩ :=
          ab_bands (f + 1) b d maxing p hWF hfuel t hplain alpha beta hab
        have hev := tableValid_lookup htbl hfind
        obtain ⟨t', hplain', hex, hlo, hup⟩ := hev b hWF rfl
        have hplain'' : exhaustiveF (fuelStd b) b d maxing p = some (.fin t') := hplain'
        have hagree : Ext.fin t = Ext.fin t' := plain_agree hplain hplain''
        have hex' : e.bound = .exact → e.score = .fin t :=
          fun h => (hex h).trans hagree.symm
        have hlo' : e.bound = .lower → e.score ≤ .fin t :=
          fun h => hagree.symm ▸ hlo h
        have hup' : e.bound = .upper → .fin t ≤ e.score :=
          fun h => hagree.symm ▸ hup h
        obtain ⟨hh1, hh2, hh3⟩ := hit_bands hab husable hex' hlo' hup'
        refine ⟨vA, mvA, nA, habf, e.score, e.best, 1, tbl, ?_, htbl,
          abF_pos (f + 1) b d alpha beta maxing p habf, hh1, hh2, hh3, ?_⟩
        · exact ttF_eq_hit f b d alpha beta maxing p tbl hterm hlk
        · intro htnil hn hp hm hd0 hmv
          rw [htnil] at hfind
          have hnone : (none : Option TEntry) = some e := hfind
          cases hnone
      | none =>
        by_cases hmoves : getValidMoves b (if maxing then p else p.other) = []
        · rw [exhaustiveF_eq_pass f b d maxing p hterm hmoves] at hplain
          have hbit : moveBit b (if maxing then p else p.other) = 1 := by
            unfold moveBit
            rw [if_pos hmoves]
          have hopp : ¬ getValidMoves b (if maxing then p else p.other).other = [] :=
            opp_moves_nonempty hngo hmoves
          have hcur' : (if !maxing then p else p.other)
              = (if maxing then p else p.other).other := by
            cases maxing
            · cases p
              · rfl
              · rfl
            · cases p
              · rfl
              · rfl
          have hbit' : moveBit b (if !maxing then p else p.other) = 0 := by
            unfold moveBit
            rw [hcur', if_neg hopp]
          obtain ⟨vA, mvA, nA, habf, vT, mvT, nT, tbl', httf, hval', hcount,
            hb1, hb2, hb3, _⟩ :=
            ih b (d - 1) (!maxing) p hWF (by omega) t hplain alpha beta hab tbl htbl
          refine ⟨vA, mvA, nA + 1, ?_, vT, mvT, nT + 1,
            ttStore tbl' (b.grid, maxing, d) ⟨vT, mvT, mkBound vT alpha beta, d⟩,
            ?_, ?_, by omega, hb1, hb2, hb3, ?_⟩
          · rw [abF_eq_pass f b d alpha beta maxing p hterm hmoves, habf]
          · rw [ttF_eq_pass f b d alpha beta maxing p tbl hterm hlk hmoves, httf]
          · exact tableValid_store hval'
              (store_entry_valid hWF hab ht0 hb1 hb2 hb3)
          · intro htnil hn hp hm hd0 hmv
            subst hm
            exact absurd (show getValidMoves b p = [] from hmoves) hmv
        · have hbit : moveBit b (if maxing then p else p.other) = 0 := by
            unfold moveBit
            rw [if_neg hmoves]
          cases maxing with
          | true =>
            have hmoves' : ¬ getValidMoves b p = [] := hmoves
            rw [exhaustiveF_eq_max f b d p hterm hmoves'] at hplain
            have hchildren : ∀ m ∈ getValidMoves b p,
                ∃ tm : Int, exhaustiveF f (childBoard b p m) (d - 1) false p
                  = some (.fin tm) := by
              intro m hm
              have hcWF := childBoard_WF hWF hm
              have hce := childBoard_empty hWF hm
              have hb1 : moveBit (childBoard b p m)
                  (if false = true then p else p.other) ≤ 1 := moveBit_le_one _ _
              exact plain_some f (childBoard b p m) (d - 1) false p hcWF (by omega)
            have hsome : ∀ m ∈ getValidMoves b p,
                (exhaustiveF f (childBoard b p m) (d - 1) false p).isSome = true := by
              intro m hm
              obtain ⟨tm, htm⟩ := hchildren m hm
              rw [htm]
              rfl
            have hfold : foldMaxVal
                (fun m => (exhaustiveF f (childBoard b p m) (d - 1) false p).getD Ext.ninf)
                (getValidMoves b p) = .fin t :=
              Option.some.inj ((plainFold_eq emax
                (fun m => exhaustiveF f (childBoard b p m) (d - 1) false p)
                (getValidMoves b p) hsome Ext.ninf).symm.trans hplain)
            have hchild : ∀ m ∈ getValidMoves b p, ∃ tm : Int,
                (fun m => (exhaustiveF f (childBoard b p m) (d - 1) false p).getD Ext.ninf) m
                  = .fin tm ∧
                ∀ a' b'' : Ext, a' < b'' →
                  (∃ (vA : Ext) (mvA : Option Move) (nA : Nat),
                    abF f (childBoard b p m) (d - 1) a' b'' false p = some (vA, mvA, nA) ∧
                    (a' < .fin tm → .fin tm < b'' → vA = .fin tm) ∧
                    (.fin tm ≤ a' → .fin tm ≤ vA ∧ vA ≤ a') ∧
                    (b'' ≤ .fin tm → b'' ≤ vA ∧ vA ≤ .fin tm)) ∧
                  ∀ tbl0 : Table, tableValid p tbl0 →
                    ∃ (vT : Ext) (mvT : Option Move) (nT : Nat) (tbl0' : Table),
                      ttF f (childBoard b p m) (d - 1) a' b'' false p tbl0
                        = some (vT, mvT, nT, tbl0') ∧
                      tableValid p tbl0' ∧
                      (∀ (vA : Ext) (mvA : Option Move) (nA : Nat),
                        abF f (childBoard b p m) (d - 1) a' b'' false p
                          = some (vA, mvA, nA) → nT ≤ nA) ∧
                      (a' < .fin tm → .fin tm < b'' → vT = .fin tm) ∧
                      (.fin tm ≤ a' → .fin tm ≤ vT ∧ vT ≤ a') ∧
                      (b'' ≤ .fin tm → b'' ≤ vT ∧ vT ≤ .fin tm) := by
              intro m hm
              obtain ⟨tm, htm⟩ := hchildren m hm
              refine ⟨tm, ?_, ?_⟩
              · show (exhaustiveF f (childBoard b p m) (d - 1) false p).getD Ext.ninf
                  = Ext.fin tm
                rw [htm]
                rfl
              intro a' b'' hw
              have hcWF := childBoard_WF hWF hm
              have hce := childBoard_empty hWF hm
              have hb1 : moveBit (childBoard b p m)
                  (if false = true then p else p.other) ≤ 1 := moveBit_le_one _ _
              constructor
              · obtain ⟨v, mv, n, hcall, hx1, hx2, hx3, _⟩ :=
                  ab_bands f (childBoard b p m) (d - 1) false p hcWF (by omega)
                    tm htm a' b'' hw
                exact ⟨v, mv, n, hcall, hx1, hx2, hx3⟩
              · intro tbl0 htbl0
                obtain ⟨vA₀, mvA₀, nA₀, habf₀, vT₀, mvT₀, nT₀, tbl0', httf₀,
                  hval₀, hcnt₀, hx1, hx2, hx3, _⟩ :=
                  ih (childBoard b p m) (d - 1) false p hcWF (by omega)
                    tm htm a' b'' hw tbl0 htbl0
                refine ⟨vT₀, mvT₀, nT₀, tbl0', httf₀, hval₀, ?_, hx1, hx2, hx3⟩
                intro vA' mvA' nA' h'
                rw [habf₀] at h'
                have hn' : nA₀ = nA' := congrArg (fun x => x.2.2) (Option.some.inj h')
                omega
            obtain ⟨vA, bvA, nA, hrecA, vT, bvT, nT, tbl', hrecT, hval', hcount,
              hmev, hL2, hL3, hL4, hL5⟩ :=
              tt_loop_max_sim f b d beta p
                (fun m => (exhaustiveF f (childBoard b p m) (d - 1) false p).getD Ext.ninf)
                (getValidMoves b p) hchild .ninf none .ninf none alpha 0 0 tbl htbl
                (Ext.ninf_le alpha) (Ext.ninf_le alpha) hab (Nat.le_refl 0)
            rw [hfold] at hL2 hL3 hL4 hL5
            rw [emax_ninf] at hL4 hL5
            refine ⟨vA, bvA, nA + 1, ?_, vT, bvT, nT + 1,
              ttStore tbl' (b.grid, true, d) ⟨vT, bvT, mkBound vT alpha beta, d⟩,
              ?_, ?_, by omega, hL3, hL2, hL4, ?_⟩
            · rw [abF_eq_max f b d alpha beta p hterm hmoves', hrecA]
            · rw [ttF_eq_max f b d alpha beta p tbl hterm hlk hmoves', hrecT]
            · exact tableValid_store hval'
                (store_entry_valid hWF hab ht0 hL3 hL2 hL4)
            · intro htnil hn hp hm hd0 hmv
              obtain ⟨hveq, hbv⟩ := hL5 hp hn.symm
              refine ⟨hveq, ?_⟩
              rw [hbv]
              apply pickFirstBest_congr
              exact childVal_agree f b p d hWF (by omega)
          | false =>
            have hmoves' : ¬ getValidMoves b p.other = [] := hmoves
            rw [exhaustiveF_eq_min f b d p hterm hmoves'] at hplain
            have hchildren : ∀ m ∈ getValidMoves b p.other,
                ∃ tm : Int, exhaustiveF f (childBoard b p.other m) (d - 1) true p
                  = some (.fin tm) := by
              intro m hm
              have hcWF := childBoard_WF hWF hm
              have hce := childBoard_empty hWF hm
              have hb1 : moveBit (childBoard b p.other m)
                  (if true = true then p else p.other) ≤ 1 := moveBit_le_one _ _
              exact plain_some f (childBoard b p.other m) (d - 1) true p hcWF (by omega)
            have hsome : ∀ m ∈ getValidMoves b p.other,
                (exhaustiveF f (childBoard b p.other m) (d - 1) true p).isSome = true := by
              intro m hm
              obtain ⟨tm, htm⟩ := hchildren m hm
              rw [htm]
              rfl
            have hfold : foldMinVal
                (fun m => (exhaustiveF f (childBoard b p.other m) (d - 1) true p).getD
                  Ext.ninf)
                (getValidMoves b p.other) = .fin t :=
              Option.some.inj ((plainFold_eq emin
                (fun m => exhaustiveF f (childBoard b p.other m) (d - 1) true p)
                (getValidMoves b p.other) hsome Ext.pinf).symm.trans hplain)
            have hchild : ∀ m ∈ getValidMoves b p.other, ∃ tm : Int,
                (fun m => (exhaustiveF f (childBoard b p.other m) (d - 1) true p).getD
                  Ext.ninf) m = .fin tm ∧
                ∀ a' b'' : Ext, a' < b'' →
                  (∃ (vA : Ext) (mvA : Option Move) (nA : Nat),
                    abF f (childBoard b p.other m) (d - 1) a' b'' true p
                      = some (vA, mvA, nA) ∧
                    (a' < .fin tm → .fin tm < b'' → vA = .fin tm) ∧
                    (.fin tm ≤ a' → .fin tm ≤ vA ∧ vA ≤ a') ∧
                    (b'' ≤ .fin tm → b'' ≤ vA ∧ vA ≤ .fin tm)) ∧
                  ∀ tbl0 : Table, tableValid p tbl0 →
                    ∃ (vT : Ext) (mvT : Option Move) (nT : Nat) (tbl0' : Table),
                      ttF f (childBoard b p.other m) (d - 1) a' b'' true p tbl0
                        = some (vT, mvT, nT, tbl0') ∧
                      tableValid p tbl0' ∧
                      (∀ (vA : Ext) (mvA : Option Move) (nA : Nat),
                        abF f (childBoard b p.other m) (d - 1) a' b'' true p
                          = some (vA, mvA, nA) → nT ≤ nA) ∧
                      (a' < .fin tm → .fin tm < b'' → vT = .fin tm) ∧
                      (.fin tm ≤ a' → .fin tm ≤ vT ∧ vT ≤ a') ∧
                      (b'' ≤ .fin tm → b'' ≤ vT ∧ vT ≤ .fin tm) := by
              intro m hm
              obtain ⟨tm, htm⟩ := hchildren m hm
              refine ⟨tm, ?_, ?_⟩
              · show (exhaustiveF f (childBoard b p.other m) (d - 1) true p).getD Ext.ninf
                  = Ext.fin tm
                rw [htm]
                rfl
              intro a' b'' hw
              have hcWF := childBoard_WF hWF hm
              have hce := childBoard_empty hWF hm
              have hb1 : moveBit (childBoard b p.other m)
                  (if true = true then p else p.other) ≤ 1 := moveBit_le_one _ _
              constructor
              · obtain ⟨v, mv, n, hcall, hx1, hx2, hx3, _⟩ :=
                  ab_bands f (childBoard b p.other m) (d - 1) true p hcWF (by omega)
                    tm htm a' b'' hw
                exact ⟨v, mv, n, hcall, hx1, hx2, hx3⟩
              · intro tbl0 htbl0
                obtain ⟨vA₀, mvA₀, nA₀, habf₀, vT₀, mvT₀, nT₀, tbl0', httf₀,
                  hval₀, hcnt₀, hx1, hx2, hx3, _⟩ :=
                  ih (childBoard b p.other m) (d - 1) true p hcWF (by omega)
                    tm htm a' b'' hw tbl0 htbl0
                refine ⟨vT₀, mvT₀, nT₀, tbl0', httf₀, hval₀, ?_, hx1, hx2, hx3⟩
                intro vA' mvA' nA' h'
                rw [habf₀] at h'
                have hn' : nA₀ = nA' := congrArg (fun x => x.2.2) (Option.some.inj h')
                omega
            obtain ⟨vA, bvA, nA, hrecA, vT, bvT, nT, tbl', hrecT, hval', hcount,
              hmev, hL2, hL3, hL4⟩ :=
              tt_loop_min_sim f b d alpha p.other p
                (fun m => (exhaustiveF f (childBoard b p.other m) (d - 1) true p).getD
                  Ext.ninf)
                (getValidMoves b p.other) hchild .pinf none .pinf none beta 0 0 tbl htbl
                (Ext.le_pinf beta) (Ext.le_pinf beta) hab (Nat.le_refl 0)
            rw [hfold] at hL2 hL3 hL4
            rw [emin_pinf] at hL4
            refine ⟨vA, bvA, nA + 1, ?_, vT, bvT, nT + 1,
              ttStore tbl' (b.grid, false, d) ⟨vT, bvT, mkBound vT alpha beta, d⟩,
              ?_, ?_, by omega, hL3, hL4, hL2, ?_⟩
            · rw [abF_eq_min f b d alpha beta p hterm hmoves', hrecA]
            · rw [ttF_eq_min f b d alpha beta p tbl hterm hlk hmoves', hrecT]
            · exact tableValid_store hval'
                (store_entry_valid hWF hab ht0 hL3 hL4 hL2)
            · intro htnil hn hp hm hd0 hmv
              exact Bool.noConfusion hm

/-- C1: Modelled from the spec (the transposition-table engine
`search_engine.cpp` is referenced by `setup.py`/`test_cpp_engine.py` but is
not part of the sources) — for every structurally valid board, player and
depth, the root search with the table enabled (starting empty) returns the
same score as the table-disabled search, visits at most as many nodes, and
whenever the search actually selects a move (nonzero depth, mover has
moves) it returns the identical best move: the first move attaining the
exhaustive minimax score. -/
theorem transposition_table_equivalence (b : Board) (p : Player) (d : Int)
    (hWF : b.WF) :
    ∃ (t : Int) (mvA mvT : Option Move) (nA nT : Nat) (tbl : Table),
      searchAB b p d = some (.fin t, mvA, nA) ∧
      searchTT b p d = some (.fin t, mvT, nT, tbl) ∧
      nT ≤ nA ∧
      (¬ d = 0 → ¬ getValidMoves b p = [] →
        mvT = mvA ∧
        mvA = pickFirstBest (childVal b p d true p) (getValidMoves b p) none .ninf) := by
  have hbitle := moveBit_le_one b (if true = true then p else p.other)
  obtain ⟨t, ht⟩ := plain_some (fuelStd b) b d true p hWF (by unfold fuelStd; omega)
  obtain ⟨vA, mvA, nA, habf, hx1, _, _, hrootA⟩ :=
    ab_bands (fuelStd b) b d true p hWF (by unfold fuelStd; omega) t ht .ninf .pinf
      (Ext.lt_of_lt_of_le (Ext.ninf_lt_fin 0) (Ext.le_pinf _))
  have hvA : vA = .fin t := hx1 (Ext.ninf_lt_fin t) (Ext.fin_lt_pinf t)
  obtain ⟨vA', mvA', nA', habf', vT, mvT, nT, tbl, httf, _, hcount,
    hT1, _, _, hrootT⟩ :=
    tt_sim (fuelStd b) b d true p hWF (by unfold fuelStd; omega) t ht .ninf .pinf
      (Ext.lt_of_lt_of_le (Ext.ninf_lt_fin 0) (Ext.le_pinf _)) [] (tableValid_nil p)
  have hvT : vT = .fin t := hT1 (Ext.ninf_lt_fin t) (Ext.fin_lt_pinf t)
  rw [habf] at habf'
  have hinj := Option.some.inj habf'
  have hnA : nA = nA' := congrArg (fun x => x.2.2) hinj
  refine ⟨t, mvA, mvT, nA, nT, tbl, ?_, ?_, ?_, ?_⟩
  · show abF (fuelStd b) b d .ninf .pinf true p = some (.fin t, mvA, nA)
    rw [habf, hvA]
  · show ttF (fuelStd b) b d .ninf .pinf true p [] = some (.fin t, mvT, nT, tbl)
    rw [httf, hvT]
  · omega
  · intro hd hmoves
    obtain ⟨_, hbvT⟩ := hrootT rfl rfl rfl rfl hd hmoves
    obtain ⟨_, hbvA⟩ := hrootA rfl rfl rfl hd hmoves
    exact ⟨hbvT.trans hbvA.symm, hbvA⟩

/-- Witness for `transposition_table_equivalence` on the 2×2 initial board
at depth 3. -/
theorem transposition_table_equivalence_witness :
    sampleBoard.WF ∧
    ∃ (t : Int) (mvA mvT : Option Move) (nA nT : Nat) (tbl : Table),
      searchAB sampleBoard Player.A 3 = some (.fin t, mvA, nA) ∧
      searchTT sampleBoard Player.A 3 = some (.fin t, mvT, nT, tbl) ∧
      nT ≤ nA ∧
      (¬ (3 : Int) = 0 → ¬ getValidMoves sampleBoard Player.A = [] →
        mvT = mvA ∧
        mvA = pickFirstBest (childVal sampleBoard Player.A 3 true Player.A)
          (getValidMoves sampleBoard Player.A) none .ninf) :=
  ⟨by decide, transposition_table_equivalence sampleBoard Player.A 3 (by decide)⟩

end Sequencium
